import Mathlib

/-!
Verification of the dependency-aware build scheduler of `build-tools`.

The definitions below are a shallow embedding of the Python sources:
* `debian_dep_sort.py` — dependency graph, `topo_sort`, `compute_series_toposort`;
* `agiros_tools_menu.py` — the persistent queue store (`MenuState.save_queue`,
  `MenuState.load_queue_from_file`, `MenuState.add_tasks`);
* `debuild_runner.py` — the execution engine (`insert_missing_dependencies`,
  `process_queue_entries`) and lock-contention recovery
  (`_handle_lock_and_recover`, `run_with_lock_retries`).

Package names, kinds and filesystem paths are modelled as `String`s; Python
sets/dicts become lists and association lists; `heapq` becomes a list kept
sorted by the same `(priority, name)` key; filesystem and subprocess effects
become explicit parameters (oracles).  Overflow is not a concern: all Python
integers here are small non-negative counters, modelled as `Nat`.
-/

namespace BuildTools

/-! ### Structural string primitives

The Lean core string functions (`String.splitOn`, `trim`, `endsWith`,
`toLower`, `takeWhile`, the `<` order) are defined by well-founded recursion
on iterators and do not reduce inside the kernel, so the model uses these
structurally recursive equivalents over `String.data`.  Each mirrors the
corresponding Python `str` operation. -/

/-- Worker for `splitOnChar` (`cur` is the reversed current chunk). -/
def splitCharAux (c : Char) : List Char → List Char → List (List Char)
  | [], cur => [cur.reverse]
  | x :: xs, cur =>
    if x = c then cur.reverse :: splitCharAux c xs []
    else splitCharAux c xs (x :: cur)

/-- Python `s.split(c)` for a one-character separator. -/
def splitOnChar (c : Char) (s : String) : List String :=
  (splitCharAux c s.data []).map (fun l => ⟨l⟩)

/-- Python `s.lstrip()`. -/
def trimL (s : String) : String := ⟨s.data.dropWhile Char.isWhitespace⟩

/-- Python `s.rstrip()`. -/
def trimR (s : String) : String := ⟨(s.data.reverse.dropWhile Char.isWhitespace).reverse⟩

/-- Python `s.strip()`. -/
def trimBoth (s : String) : String := trimL (trimR s)

/-- Python `s.endswith(c)` for one character. -/
def endsWithChar (c : Char) (s : String) : Bool := s.data.getLast? = some c

/-- Python `s.lower()` (ASCII, which is all the sources compare). -/
def lowerStr (s : String) : String := ⟨s.data.map Char.toLower⟩

/-- The longest prefix of `s` whose characters satisfy `p` (used for
`re.match` of a character-class pattern). -/
def takeWhileChars (p : Char → Bool) (s : String) : String := ⟨s.data.takeWhile p⟩

/-- Python `pat in hay` (substring containment). -/
def isInfixChars (pat : List Char) : List Char → Bool
  | [] => pat.isEmpty
  | h :: t => pat.isPrefixOf (h :: t) ∨ isInfixChars pat t

/-- Lexicographic comparison of char lists by code point. -/
def charsLt : List Char → List Char → Bool
  | [], [] => false
  | [], _ :: _ => true
  | _ :: _, [] => false
  | x :: xs, y :: ys => x < y ∨ (x = y ∧ charsLt xs ys)

/-- Python string `<`: lexicographic comparison by code point. -/
def strLt (a b : String) : Bool :=
  charsLt a.data b.data

/-- Python string `<=`. -/
def strLe (a b : String) : Bool := ! strLt b a

/-- Insertion into a list sorted by a strict key order, used to model
`heapq.heappush` on `(priority, name)` tuples: the popped element is always
the minimum, so a sorted list with head-pop has the same observable
behaviour as the binary heap (all stored pairs are distinct). -/
def pqInsert (x : Nat × String) : List (Nat × String) → List (Nat × String)
  | [] => [x]
  | y :: ys =>
    if x.1 < y.1 ∨ (x.1 = y.1 ∧ strLt x.2 y.2) then x :: y :: ys
    else y :: pqInsert x ys

/-- Stable insertion sort by a total (Bool-valued) `le` relation; models
Python `list.sort(key=...)` (Timsort is stable; we only use it on lists
whose keys are pairwise distinct or where stability matches insertion
sort's). -/
def insertLe {α : Type} (le : α → α → Bool) (x : α) : List α → List α
  | [] => [x]
  | y :: ys => if le x y then x :: y :: ys else y :: insertLe le x ys

def sortByLe {α : Type} (le : α → α → Bool) : List α → List α
  | [] => []
  | x :: xs => insertLe le x (sortByLe le xs)

/-! ## `debian_dep_sort.py` : the dependency graph -/

/-- `PackageDepGraph` from `debian_dep_sort.py`.  `nodes` are the keys of
`package_dirs` (insertion order kept); `edges` is the set of
`(prereq, dependent)` pairs held in `self.adj` / `self.rev` (a list without
duplicates — `add_edge` inserts into Python sets); `orderHint` is
`self.order_hint` (hint values are the non-negative queue positions supplied
by callers). -/
structure PackageDepGraph where
  nodes : List String
  edges : List (String × String)
  orderHint : List (String × Nat)
deriving Repr

namespace PackageDepGraph

/-- `self.adj[n]` as a list of dependents. -/
def adjOf (g : PackageDepGraph) (n : String) : List String :=
  (g.edges.filter (fun e => e.1 = n)).map (·.2)

/-- `self.rev[n]` as a list of prerequisites. -/
def revOf (g : PackageDepGraph) (n : String) : List String :=
  (g.edges.filter (fun e => e.2 = n)).map (·.1)

/-- `add_edge`: self-edges are dropped; duplicate edges are idempotent
(Python inserts into a set). -/
def addEdge (g : PackageDepGraph) (prereq dependent : String) : PackageDepGraph :=
  if prereq = dependent then g
  else if (prereq, dependent) ∈ g.edges then g
  else { g with edges := g.edges ++ [(prereq, dependent)] }

/-- Well-formedness facts guaranteed by the constructor and `add_edge` /
`build_from_control_dirs`: node names are distinct, edges are a duplicate-free
set of non-self edges between known nodes. -/
structure WF (g : PackageDepGraph) : Prop where
  nodesNodup : g.nodes.Nodup
  edgesNodup : g.edges.Nodup
  noSelf : ∀ e ∈ g.edges, e.1 ≠ e.2
  edgesInNodes : ∀ e ∈ g.edges, e.1 ∈ g.nodes ∧ e.2 ∈ g.nodes

/-- Errors raised by `topo_sort`: `KeyError` for an unknown requested
package, `ValueError` ("Cycle detected among: ...") carrying the sorted
unordered remainder. -/
inductive TopoError where
  | unknownPackage (name : String)
  | cycleDetected (remaining : List String)
deriving Repr, DecidableEq

/-- The backward-closure stack loop of `topo_sort` (lines 60–71).  The Python
stack pops from the end; here the head of `stack` is the top, so the
predecessor pushes are reversed.  `acc` is `working_nodes` in discovery
order (only its set content is used downstream). -/
def closureLoop (g : PackageDepGraph) :
    Nat → List String → List String → Except TopoError (List String)
  | 0, _, acc => .ok acc
  | fuel + 1, stack, acc =>
    match stack with
    | [] => .ok acc
    | n :: rest =>
      if n ∈ acc then closureLoop g fuel rest acc
      else if n ∉ g.nodes then .error (.unknownPackage n)
      else closureLoop g fuel ((g.revOf n).reverse ++ rest) (acc ++ [n])

/-- Fuel that provably suffices for `closureLoop` (each node is expanded at
most once, each expansion pushes at most `edges.length` predecessors). -/
def closureFuel (g : PackageDepGraph) (subset : List String) : Nat :=
  subset.length + g.nodes.length * (g.edges.length + 1) + 1

/-- `working_nodes` for a requested subset. -/
def workingNodes (g : PackageDepGraph) (subset : List String) :
    Except TopoError (List String) :=
  closureLoop g (closureFuel g subset) subset.reverse []

/-- `default_priority = len(self.order_hint) + len(working_nodes) + 5`. -/
def defaultPriority (g : PackageDepGraph) (working : List String) : Nat :=
  g.orderHint.length + working.length + 5

/-- `self.order_hint.get(node, default_priority)`. -/
def priorityOf (g : PackageDepGraph) (default : Nat) (n : String) : Nat :=
  match g.orderHint.lookup n with
  | some p => p
  | none => default

/-- The in-degree of `n` restricted to `working`:
`in_degree[n]` after the initialisation loop (lines 72–76). -/
def indegInit (g : PackageDepGraph) (working : List String) (n : String) : Nat :=
  ((g.edges.filter (fun e => e.2 = n)).filter
    (fun e => e.1 ∈ working ∧ e.2 ∈ working)).length

/-- One decrement of the in-degree map (`in_degree[follower] -= 1`). -/
def decr (m : List (String × Nat)) (k : String) : List (String × Nat) :=
  m.map (fun p => if p.1 = k then (p.1, p.2 - 1) else p)

/-- The follower-processing inner loop of the Kahn iteration
(lines 87–93): decrement each in-working follower, pushing it when its
in-degree reaches zero. -/
def processFollowers (g : PackageDepGraph) (working : List String) (default : Nat) :
    List String → List (String × Nat) → List (Nat × String) →
      List (String × Nat) × List (Nat × String)
  | [], indeg, pq => (indeg, pq)
  | f :: fs, indeg, pq =>
    if f ∈ working then
      let indeg' := decr indeg f
      let pq' :=
        if indeg'.lookup f = some 0 then pqInsert (g.priorityOf default f, f) pq
        else pq
      processFollowers g working default fs indeg' pq'
    else
      processFollowers g working default fs indeg pq

/-- The Kahn main loop (lines 84–93): pop the heap minimum, emit it, and
process its followers. -/
def kahnLoop (g : PackageDepGraph) (working : List String) (default : Nat) :
    Nat → List (String × Nat) → List (Nat × String) → List String → List String
  | 0, _, _, emitted => emitted
  | fuel + 1, indeg, pq, emitted =>
    match pq with
    | [] => emitted
    | (_, n) :: pqRest =>
      let (indeg', pq') := processFollowers g working default (g.adjOf n) indeg pqRest
      kahnLoop g working default fuel indeg' pq' (emitted ++ [n])

/-- Initial heap content (lines 78–82): all zero-in-degree working nodes,
with their priorities. (Push order is the dict iteration order; the sorted
queue it produces is the same for any order.) -/
def initQueue (g : PackageDepGraph) (working : List String) (default : Nat) :
    List (Nat × String) :=
  (working.filter (fun n => indegInit g working n = 0)).foldl
    (fun pq n => pqInsert (g.priorityOf default n, n) pq) []

/-- `topo_sort(subset, include_dependencies)` (always called with an explicit
subset in the claims; `subset = none` in Python means all nodes, modelled by
passing `g.nodes` with `includeDependencies = true`). -/
def topoSort (g : PackageDepGraph) (subset : List String)
    (includeDependencies : Bool) : Except TopoError (List String) := do
  let working ← workingNodes g subset
  let default := defaultPriority g working
  let indeg := working.map (fun n => (n, indegInit g working n))
  let pq := initQueue g working default
  let sortedNodes := kahnLoop g working default working.length indeg pq []
  if sortedNodes.length ≠ working.length then
    .error (.cycleDetected
      (sortByLe strLe (working.filter (fun n => n ∉ sortedNodes))))
  else if includeDependencies then
    .ok sortedNodes
  else
    .ok (sortedNodes.filter (fun n => n ∈ subset))

end PackageDepGraph

/-! ## `debian_dep_sort.py` : control-file parsing -/

/-- Assoc-list update with Python-dict semantics: replace in place if the key
exists, else append. -/
def dictSet (m : List (String × String)) (k v : String) : List (String × String) :=
  if m.lookup k = none then m ++ [(k, v)]
  else m.map (fun p => if p.1 = k then (p.1, v) else p)

/-- State of the `_split_paragraphs` line loop. -/
structure ParaState where
  paragraphs : List (List (String × String))
  current : List (String × String)
  currentKey : Option String

/-- One line of `_split_paragraphs` (lines 217–233 of `debian_dep_sort.py`). -/
def splitParagraphsLine (st : ParaState) (rawLine : String) : ParaState :=
  let line := trimR rawLine
  if trimBoth line = "" then
    if st.current ≠ [] then
      { paragraphs := st.paragraphs ++ [st.current], current := [], currentKey := none }
    else st
  else if line.front.isWhitespace then
    match st.currentKey with
    | some key =>
      match st.current.lookup key with
      | some v => { st with current := dictSet st.current key (v ++ " " ++ trimBoth line) }
      | none => { st with current := dictSet st.current key (" " ++ trimBoth line) }
    | none => st
  else if ¬ (splitOnChar ':' line).length > 1 then st
  else
    match splitOnChar ':' line with
    | [] => st
    | key :: rest =>
      let k := trimBoth key
      let v := trimBoth (String.intercalate ":" rest)
      { st with current := dictSet st.current k v, currentKey := some k }

/-- `_split_paragraphs`. -/
def splitParagraphs (content : String) : List (List (String × String)) :=
  let st := (splitOnChar '\n' content).foldl splitParagraphsLine
    { paragraphs := [], current := [], currentKey := none }
  if st.current ≠ [] then st.paragraphs ++ [st.current] else st.paragraphs

/-- The character class of `pkgname_re = ([A-Za-z0-9+_.:-]+)`. -/
def isPkgChar (c : Char) : Bool :=
  c.isAlphanum ∨ c = '+' ∨ c = '_' ∨ c = '.' ∨ c = ':' ∨ c = '-'

/-- `_parse_depends`: split on commas, take the first `|` alternative, strip
version/arch decorations and the vendor prefix, then the leading
package-name token. -/
def parseDepends (value : String) : List String :=
  (splitOnChar ',' value).filterMap (fun part =>
    let token := trimBoth ((splitOnChar '|' part).headD "")
    let token := trimBoth ((splitOnChar '(' token).headD "")
    let token := trimBoth ((splitOnChar '[' token).headD "")
    let token := trimBoth ((splitOnChar '\x7b' token).headD "")
    let token :=
      if (splitOnChar ':' token).length > 1 then
        trimBoth ((splitOnChar ':' token).headD "")
      else token
    let name := takeWhileChars isPkgChar token
    if name = "" then none else some name)

/-- The dependency fields scanned by default. -/
def dependsFieldNames : List String :=
  ["Depends", "Build-Depends", "Build-Depends-Indep", "Build-Depends-Arch"]

/-- Set-insertion into the unresolved list (Python `set.add`). -/
def setInsert (xs : List (String × String)) (x : String × String) :
    List (String × String) :=
  if x ∈ xs then xs else xs ++ [x]

/-- `build_from_control_dirs`: `controls` pairs each package name of
`package_dirs` (in insertion order) with the text of its
`debian/control`, or `none` when the file is missing or unreadable (such a
package contributes no edges).  Returns the extended graph plus the
`self.unresolved` pairs `(pkg, dep)`. -/
def buildFromControlDirs (controls : List (String × Option String))
    (g : PackageDepGraph) : PackageDepGraph × List (String × String) :=
  let known := controls.map (·.1)
  controls.foldl
    (fun (acc : PackageDepGraph × List (String × String)) pc =>
      match pc.2 with
      | none => acc
      | some content =>
        (splitParagraphs content).foldl
          (fun acc₁ stanza =>
            dependsFieldNames.foldl
              (fun acc₂ field =>
                match stanza.lookup field with
                | none => acc₂
                | some raw =>
                  if raw = "" then acc₂
                  else
                    (parseDepends raw).foldl
                      (fun (acc₃ : PackageDepGraph × List (String × String)) dep =>
                        if dep ∈ known ∧ dep ≠ pc.1 then
                          (acc₃.1.addEdge dep pc.1, acc₃.2)
                        else if dep ∉ known then
                          (acc₃.1, setInsert acc₃.2 (pc.1, dep))
                        else acc₃)
                      acc₂)
              acc₁)
          acc)
    (g, [])

/-- `PackageDepGraph.__init__` followed by `build_from_control_dirs`, as done
by `sort_packages_with_dependencies` / `compute_series_toposort`. -/
def graphOfControls (controls : List (String × Option String))
    (orderHint : List (String × Nat)) : PackageDepGraph × List (String × String) :=
  buildFromControlDirs controls
    { nodes := controls.map (·.1), edges := [], orderHint := orderHint }

/-! ## `debian_dep_sort.py` : `compute_series_toposort` -/

namespace PackageDepGraph

/-- The undirected neighbourhood used for the weak-connectivity split
(lines 157–166): directed followers and predecessors, both restricted to
the relevant node set. -/
def undirectedNbrs (g : PackageDepGraph) (relevant : List String) (n : String) :
    List String :=
  ((g.adjOf n).filter (fun m => m ∈ relevant) ++
    (g.revOf n).filter (fun m => m ∈ relevant)).eraseDups

/-- The inner component-collection loop (lines 176–182): pop, skip if
visited, otherwise mark visited, collect, and push unvisited neighbours. -/
def componentLoop (g : PackageDepGraph) (relevant : List String) :
    Nat → List String → List String → List String → List String × List String
  | 0, _, visited, comp => (visited, comp)
  | fuel + 1, stack, visited, comp =>
    match stack with
    | [] => (visited, comp)
    | cur :: rest =>
      if cur ∈ visited then componentLoop g relevant fuel rest visited comp
      else
        componentLoop g relevant fuel
          (((g.undirectedNbrs relevant cur).filter (fun m => m ∉ visited)) ++ rest)
          (visited ++ [cur]) (comp ++ [cur])

/-- Fuel sufficient for `componentLoop`. -/
def componentFuel (g : PackageDepGraph) (relevant : List String) : Nat :=
  (relevant.length + 1) * (2 * g.edges.length + relevant.length + 2)

/-- The outer component loop (lines 171–184), seeded in topological order. -/
def collectComponents (g : PackageDepGraph) (relevant : List String) :
    List String → List String → List (List String) → List (List String)
  | [], _, series => series
  | n :: rest, visited, series =>
    if n ∈ visited then collectComponents g relevant rest visited series
    else
      let (visited', comp) :=
        componentLoop g relevant (componentFuel g relevant) [n] visited []
      collectComponents g relevant rest visited'
        (series ++ [sortByLe
          (fun a b => relevant.indexOf a ≤ relevant.indexOf b) comp])

/-- The series decomposition applied to a topological order `topoAll`
(lines 151–188): split into weakly-connected components discovered in
topological order, sort each component by topological index, then sort the
components by `(-size, earliest topological index)`. -/
def seriesFromTopo (g : PackageDepGraph) (topoAll : List String) :
    List (List String) :=
  if topoAll = [] then []
  else
    let series := collectComponents g topoAll topoAll [] []
    sortByLe
      (fun c₁ c₂ =>
        c₂.length < c₁.length ∨
          (c₁.length = c₂.length ∧
            topoAll.indexOf (c₁.headD "") ≤ topoAll.indexOf (c₂.headD "")))
      series

/-- The scheduling core of `compute_series_toposort` on an already-built
graph: the full topological order of the target closure, split into series. -/
def seriesToposort (g : PackageDepGraph) (targets : List String) :
    Except TopoError (List (List String)) := do
  let topoAll ← g.topoSort targets true
  return seriesFromTopo g topoAll

end PackageDepGraph

/-- `compute_series_toposort(package_dirs, target_packages, order_hint)`:
builds the graph from the control files, and returns the series
decomposition together with the accumulated unresolved dependency names. -/
def computeSeriesToposort (controls : List (String × Option String))
    (targets : List String) (orderHint : List (String × Nat)) :
    Except PackageDepGraph.TopoError (List (List String)) × List String :=
  let (g, unresolved) := graphOfControls controls orderHint
  (g.seriesToposort targets, (unresolved.map (·.2)).eraseDups)

/-! ## `agiros_tools_menu.py` : the persistent queue store

Filesystem paths are plain strings; `pathlib.Path(p).name` is modelled by
`pathName` (dot segments `.`/`..` are not special-cased — queue entries never
use them); `expanduser`/`resolve` are modelled as the identity (they only
canonicalise the path against the host filesystem).  The queue file is a list
of lines; a line is either raw text or a parsed single-line JSON record with
a non-empty `name` (the discrimination performed at lines 374–397 of
`agiros_tools_menu.py`); the metadata file is the structured map
`{name: {path, kinds: {kind: {extra_args}}}}` that `_write_meta_from_tasks`
produces. -/

/-- `pathlib.Path(s).name`: the last non-empty `/`-separated component. -/
def pathName (s : String) : String :=
  ((((splitOnChar '/' s)).filter (fun p => p ≠ "")).getLast?).getD ""

/-- `BuildTask` from `agiros_tools_menu.py`. -/
structure BuildTask where
  displayName : String
  path : String
  kind : String
  extraArgs : List String
deriving Repr, DecidableEq

/-- One per-package record of the structured metadata map:
`{"path": ..., "kinds": {kind: {"extra_args": [...]}}}`. -/
structure MetaEntry where
  path : String
  kinds : List (String × List String)
deriving Repr, DecidableEq

/-- A line of the queue file, after the JSON discrimination of
`load_queue_from_file`: `record` stands for a line that is a JSON object
with a truthy `name` (with the source's defaults `kind="debian"`,
`path=""`, `extra_args=[]` already applied); every other line is `bare`
raw text. -/
inductive QueueLine where
  | bare (s : String)
  | record (name : String) (completed : Bool) (kind : String)
      (path : String) (extra : List String)
deriving Repr, DecidableEq

/-- The queue-relevant state of `MenuState`, including the two persisted
records. -/
structure MenuState where
  codeDir : String
  buildQueue : List BuildTask
  queuePackages : List String
  packageStatus : List (String × Bool)
  queueFileLines : List QueueLine
  metaFile : List (String × MetaEntry)
deriving Repr, DecidableEq

/-- Assoc update for the status map: `status[name] = value` (replace in
place or append, Python dict semantics). -/
def statusSet (st : List (String × Bool)) (k : String) (v : Bool) :
    List (String × Bool) :=
  if st.lookup k = none then st ++ [(k, v)]
  else st.map (fun p => if p.1 = k then (p.1, v) else p)

/-- Assoc update for a kinds map. -/
def kindsSet (ks : List (String × List String)) (k : String) (v : List String) :
    List (String × List String) :=
  if ks.lookup k = none then ks ++ [(k, v)]
  else ks.map (fun p => if p.1 = k then (p.1, v) else p)

/-- Assoc update for a metadata map. -/
def metaSet (m : List (String × MetaEntry)) (k : String) (v : MetaEntry) :
    List (String × MetaEntry) :=
  if m.lookup k = none then m ++ [(k, v)]
  else m.map (fun p => if p.1 = k then (p.1, v) else p)

/-- `legacy_meta` update for one inline record (lines 392–397): create the
entry if needed, overwrite the path when the record carries a non-empty
one, and set the record's kind. -/
def legacyUpdate (lm : List (String × MetaEntry)) (name path kind : String)
    (extra : List String) : List (String × MetaEntry) :=
  match lm.lookup name with
  | none => lm ++ [(name, { path := path, kinds := [(kind, extra)] })]
  | some e =>
    metaSet lm name
      { path := if path ≠ "" then path else e.path
        kinds := kindsSet e.kinds kind extra }

/-- Intermediate state of the queue-file line loop. -/
structure LineLoopState where
  packages : List String
  status : List (String × Bool)
  legacyMeta : List (String × MetaEntry)
deriving Repr

/-- One iteration of the queue-file line loop of `load_queue_from_file`
(lines 368–409). -/
def loadLineStep (st : LineLoopState) (l : QueueLine) : LineLoopState :=
  let (name, completed, st) :=
    match l with
    | .record name0 completed kind path extra =>
      let name := trimBoth name0
      (name, completed,
        { st with legacyMeta := legacyUpdate st.legacyMeta name path kind extra })
    | .bare s =>
      let line := trimBoth s
      if line = "" then ("", false, st)
      else if endsWithChar '#' line then
        (trimBoth (trimBoth ⟨line.data.dropLast⟩), true, st)
      else (trimBoth line, false, st)
  let name := if name ≠ "" then pathName name else name
  if name = "" then st
  else
    { st with
      packages := if name ∈ st.packages then st.packages else st.packages ++ [name]
      status := statusSet st.status name ((st.status.lookup name).getD false ∨ completed) }

/-- The queue-file pass of `load_queue_from_file`. -/
def parseQueueLines (lines : List QueueLine) : LineLoopState :=
  lines.foldl loadLineStep { packages := [], status := [], legacyMeta := [] }

/-- Normalisation of the on-disk metadata map (lines 419–440): basename the
keys, drop empty ones, and merge duplicate keys (existing path preferred
unless empty; incoming kinds override). -/
def normalizeMeta (meta : List (String × MetaEntry)) : List (String × MetaEntry) :=
  meta.foldl
    (fun acc kv =>
      let newKey := pathName kv.1
      if newKey = "" then acc
      else
        match acc.lookup newKey with
        | some existing =>
          metaSet acc newKey
            { path := if kv.2.path ≠ "" ∧ existing.path = "" then kv.2.path
                      else existing.path
              kinds := kv.2.kinds.foldl (fun ks p => kindsSet ks p.1 p.2) existing.kinds }
        | none => acc ++ [(newKey, kv.2)])
    []

/-- The legacy merge of `load_queue_from_file` (lines 442–455): for each
legacy inline entry, the inline path is preferred (`path_to_use = info_path
or merged_path`) and the kind maps are unioned with the inline kinds
overriding. -/
def mergeLegacy (meta : List (String × MetaEntry))
    (legacyMeta : List (String × MetaEntry)) : List (String × MetaEntry) :=
  legacyMeta.foldl
    (fun acc kv =>
      let existing := (acc.lookup kv.1).getD { path := "", kinds := [] }
      let pathToUse := if kv.2.path ≠ "" then kv.2.path else existing.path
      let mergedKinds := kv.2.kinds.foldl (fun ks p => kindsSet ks p.1 p.2) existing.kinds
      metaSet acc kv.1 { path := pathToUse, kinds := mergedKinds })
    meta

/-- The task-reconstruction pass of `load_queue_from_file` (lines 457–485).
`expanduser`/`resolve` are the identity in this model. -/
def tasksFromMeta (codeDir : String) (packages : List String)
    (meta : List (String × MetaEntry)) : List BuildTask :=
  packages.foldl
    (fun tasks pkg =>
      let info := (meta.lookup pkg).getD { path := "", kinds := [] }
      let basePath := if info.path ≠ "" then info.path else codeDir ++ "/" ++ pkg
      if info.kinds = [] then
        tasks ++ [{ displayName := pkg, path := basePath, kind := "debian",
                    extraArgs := [] }]
      else
        tasks ++ info.kinds.map (fun kv =>
          { displayName := pkg, path := basePath, kind := kv.1, extraArgs := kv.2 }))
    []

/-- `MenuState.load_queue_from_file`. -/
def loadQueueFromFile (s : MenuState) : MenuState :=
  let ls := parseQueueLines s.queueFileLines
  let meta := normalizeMeta s.metaFile
  let meta := if ls.legacyMeta ≠ [] then mergeLegacy meta ls.legacyMeta else meta
  { s with
    queuePackages := ls.packages
    packageStatus := ls.status
    buildQueue := tasksFromMeta s.codeDir ls.packages meta }

/-- The task key used for deduplication and replacement:
`(task.path.name, task.kind)`. -/
def taskKey (t : BuildTask) : String × String := (pathName t.path, t.kind)

/-- The dedup pass of `save_queue` (lines 494–504): keep the first task per
`(package, kind)` key, stamping `display_name = path.name`. -/
def dedupTasks : List BuildTask → List (String × String) → List BuildTask
  | [], _ => []
  | t :: ts, seen =>
    let key := taskKey t
    if key ∈ seen then dedupTasks ts seen
    else { t with displayName := key.1 } :: dedupTasks ts (seen ++ [key])

/-- `_write_queue_file`: one bare line per package, `#`-suffixed when
complete. -/
def writeQueueFile (packages : List String) (status : List (String × Bool)) :
    List QueueLine :=
  packages.map (fun pkg =>
    .bare (pkg ++ (if (status.lookup pkg).getD false then "#" else "")))

/-- `_write_meta_from_tasks`. -/
def writeMetaFromTasks (tasks : List BuildTask) : List (String × MetaEntry) :=
  tasks.foldl
    (fun meta t =>
      let existing := (meta.lookup t.displayName).getD { path := t.path, kinds := [] }
      metaSet meta t.displayName
        { path := t.path, kinds := kindsSet existing.kinds t.kind t.extraArgs })
    []

/-- `MenuState.save_queue` (saving the in-memory `build_queue`). -/
def saveQueue (s : MenuState) : MenuState :=
  let tasks := dedupTasks s.buildQueue []
  let packageOrder :=
    tasks.foldl
      (fun order t =>
        if pathName t.path ∈ order then order else order ++ [pathName t.path])
      s.queuePackages
  let packageOrder :=
    packageOrder.filter (fun pkg => tasks.any (fun t => pathName t.path = pkg))
  let status := packageOrder.map (fun pkg => (pkg, (s.packageStatus.lookup pkg).getD false))
  { s with
    queuePackages := packageOrder
    packageStatus := status
    buildQueue := tasks
    queueFileLines := writeQueueFile packageOrder status
    metaFile := writeMetaFromTasks tasks }

/-- Replace the first queue entry matching `(package, kind)` in place
(lines 543–549), returning whether a replacement happened. -/
def replaceFirstTask (pname kind path : String) (extra : List String) :
    List BuildTask → List BuildTask × Bool
  | [] => ([], false)
  | e :: es =>
    if pathName e.path = pname ∧ e.kind = kind then
      ({ displayName := pname, path := path, kind := kind, extraArgs := extra } :: es,
        true)
    else
      let (es', r) := replaceFirstTask pname kind path extra es
      (e :: es', r)

/-- The per-task body of `add_tasks` (lines 538–560). -/
def addOneTask (resetCompleted : Bool) (acc : MenuState × Nat) (t : BuildTask) :
    MenuState × Nat :=
  let (s, added) := acc
  let pname := pathName t.path
  let (bq, replaced) := replaceFirstTask pname t.kind t.path t.extraArgs s.buildQueue
  let bq := if replaced then bq else s.buildQueue ++ [{ t with displayName := pname }]
  let added := if replaced then added else added + 1
  let qp := if pname ∈ s.queuePackages then s.queuePackages
            else s.queuePackages ++ [pname]
  let st :=
    if ¬ replaced then statusSet s.packageStatus pname false
    else if resetCompleted ∨ (s.packageStatus.lookup pname) = none then
      statusSet s.packageStatus pname false
    else s.packageStatus
  let st := if st.lookup pname = none then statusSet st pname false else st
  ({ s with buildQueue := bq, queuePackages := qp, packageStatus := st }, added)

/-- `MenuState.add_tasks` (default `reset_completed=True`): returns the new
state and the `(newly added, total)` pair. -/
def addTasks (s : MenuState) (ts : List BuildTask) (resetCompleted : Bool := true) :
    MenuState × Nat × Nat :=
  if ts = [] then (s, 0, 0)
  else
    let (s', added) := ts.foldl (addOneTask resetCompleted) (s, 0)
    (saveQueue s', added, ts.length)

/-- An ordinary package name, as produced by `Path.name` on a real source
directory: non-empty, free of surrounding whitespace, not itself ending in
the completion marker `#`, and a fixed point of basename extraction.  The
conjuncts record these facts in exactly the shapes the queue-file writer
and parser consume. -/
def PlainName (p : String) : Prop :=
  p ≠ "" ∧ p ++ "" = p ∧ p ++ "#" ≠ "" ∧ trimBoth p = p ∧
    trimBoth (p ++ "#") = p ++ "#" ∧ endsWithChar '#' p = false ∧
    endsWithChar '#' (p ++ "#") = true ∧
    (⟨(p ++ "#").data.dropLast⟩ : String) = p ∧ pathName p = p

instance (p : String) : Decidable (PlainName p) := by
  unfold PlainName
  infer_instance

/-- The `(package, kind, extra_args)` view of a task list. -/
def taskTuples (ts : List BuildTask) : List (String × String × List String) :=
  ts.map (fun t => (t.displayName, t.kind, t.extraArgs))

/-- The base path `tasksFromMeta` selects for a package (abbreviation of
the selection made at lines 465–470 of `agiros_tools_menu.py`). -/
def tfmBase (codeDir : String) (meta : List (String × MetaEntry))
    (pkg : String) : String :=
  if (((meta.lookup pkg).getD { path := "", kinds := [] })).path ≠ ""
  then (((meta.lookup pkg).getD { path := "", kinds := [] })).path
  else codeDir ++ "/" ++ pkg

/-- The kind map `tasksFromMeta` reads for a package. -/
def tfmKinds (meta : List (String × MetaEntry)) (pkg : String) :
    List (String × List String) :=
  (((meta.lookup pkg).getD { path := "", kinds := [] })).kinds

/-- The deduplicated task list `save_queue` persists (its `tasks` local). -/
def savedTasks (s : MenuState) : List BuildTask :=
  dedupTasks s.buildQueue []

/-- The recomputed package order `save_queue` persists (its `package_order`
local, after the filter to packages still carrying a task). -/
def savedOrder (s : MenuState) : List String :=
  ((savedTasks s).foldl
    (fun order t =>
      if pathName t.path ∈ order then order else order ++ [pathName t.path])
    s.queuePackages).filter
    (fun pkg => (savedTasks s).any (fun t => pathName t.path = pkg))

/-- The status table `save_queue` persists (its `status` local). -/
def savedStatus (s : MenuState) : List (String × Bool) :=
  (savedOrder s).map (fun pkg => (pkg, (s.packageStatus.lookup pkg).getD false))

/-- A task with its display name stamped to its path's basename — the
shape in which `add_tasks` appends and replaces queue entries. -/
def stampTask (t : BuildTask) : BuildTask :=
  { displayName := pathName t.path, path := t.path, kind := t.kind,
    extraArgs := t.extraArgs }

/-- A small concrete menu state with two queued tasks. -/
def menuC2 : MenuState :=
  { codeDir := "/c"
    buildQueue :=
      [{ displayName := "alpha", path := "/src/alpha", kind := "debian",
         extraArgs := ["-a"] },
       { displayName := "beta", path := "/src/beta", kind := "source",
         extraArgs := [] }]
    queuePackages := ["beta"]
    packageStatus := [("beta", true)]
    queueFileLines := []
    metaFile := [] }

/-! ## `debuild_runner.py` : lock-contention recovery

Subprocess execution is abstracted by an oracle giving the result of each
loop iteration; the PID extraction of `_extract_lock_pids` and the lock-file
poll of `_wait_for_lock_release` are likewise oracles.  Signals sent to
holder processes are reported in the result as a kill counter. -/

/-- Python's `needle in haystack` on strings. -/
def containsSubstr (hay pat : String) : Bool :=
  isInfixChars pat.data hay.data

/-- The lock signature phrases of `_handle_lock_and_recover` (lines 356–362). -/
def lockKeywords : List String :=
  ["could not get lock",
   "unable to acquire the dpkg frontend lock",
   "is another process using it?",
   "is locked by another process",
   "dpkg was interrupted"]

/-- The result of one subprocess run (`subprocess.CompletedProcess`):
exit code plus captured output. -/
structure ProcResult where
  exitCode : Nat
  stdout : String
  stderr : String
deriving Repr, DecidableEq

/-- Configuration and effect oracles for the lock-retry loop:
`autoKill` is `AUTO_KILL_LOCK_HOLDERS`, `waitForLock` is `APT_WAIT_FOR_LOCK`,
`waitTimeout` is `APT_LOCK_WAIT_TIMEOUT`; `extractPids` stands for
`_extract_lock_pids` on the combined output; `lockCleared i` tells whether
the bounded poll of `_wait_for_lock_release` observed the dpkg lock clear
during iteration `i`; `run i` is the subprocess result of iteration `i`. -/
structure LockEnv where
  autoKill : Bool
  waitForLock : Bool
  waitTimeout : Nat
  extractPids : String → List Nat
  lockCleared : Nat → Bool
  run : Nat → ProcResult

/-- `_wait_for_lock_release` (lines 303–332): immediately `False` when
waiting is disabled or the timeout is not positive, otherwise the oracle's
poll outcome. -/
def waitForLockRelease (env : LockEnv) (iter : Nat) : Bool :=
  if ¬ env.waitForLock ∨ env.waitTimeout = 0 then false
  else env.lockCleared iter

/-- Result of `_handle_lock_and_recover`: the `(should_retry,
consume_attempt)` pair, plus whether holder processes were terminated
(`_terminate_processes` reached). -/
structure RecoverResult where
  shouldRetry : Bool
  consumeAttempt : Bool
  terminated : Bool
deriving Repr, DecidableEq

/-- `_handle_lock_and_recover(cmd, combined_output)` (lines 355–392). -/
def handleLockAndRecover (env : LockEnv) (iter : Nat) (combined : String) :
    RecoverResult :=
  let hasLock :=
    env.extractPids combined ≠ [] ∨
      lockKeywords.any (fun k => containsSubstr (lowerStr combined) k)
  if ¬ hasLock then ⟨false, false, false⟩
  else if waitForLockRelease env iter then ⟨true, false, false⟩
  else if ¬ env.autoKill then ⟨false, false, false⟩
  else ⟨true, true, true⟩

/-- Outcome of `run_with_lock_retries`: `success` is a zero exit; `failure`
is the failing process returned (or re-raised as `CalledProcessError` with
the same data when `check=True`); `spinning` marks that the Python loop has
not yet finished within the given fuel (it can iterate unboundedly when
waiting keeps succeeding). -/
inductive RunOutcome where
  | success (p : ProcResult)
  | failure (p : ProcResult)
  | spinning
deriving Repr, DecidableEq

/-- The retry loop of `run_with_lock_retries` (lines 403–429).  `iter`
numbers loop iterations (for the oracles), `attempts` counts consumed retry
credits, `kills` counts recoveries that terminated holder processes.
The combined output is `stdout + "\x5cn" + stderr` — the source writes the
two-character escape `\x5cn`, not a newline (line 420). -/
def runWithLockRetriesLoop (env : LockEnv) (effectiveMax : Nat) :
    Nat → Nat → Nat → Nat → RunOutcome × Nat
  | 0, _, _, kills => (.spinning, kills)
  | fuel + 1, iter, attempts, kills =>
    if attempts > effectiveMax then (.spinning, kills)
    else
      let proc := env.run iter
      if proc.exitCode = 0 then (.success proc, kills)
      else
        let combined := proc.stdout ++ "\\n" ++ proc.stderr
        let r := handleLockAndRecover env iter combined
        if attempts < effectiveMax ∧ r.shouldRetry then
          runWithLockRetriesLoop env effectiveMax fuel (iter + 1)
            (if r.consumeAttempt then attempts + 1 else attempts)
            (if r.terminated then kills + 1 else kills)
        else
          (.failure proc, kills)

/-- `run_with_lock_retries` with retry budget `effectiveMax`
(`APT_MAX_RETRIES` by default) and loop fuel. -/
def runWithLockRetries (env : LockEnv) (effectiveMax fuel : Nat) :
    RunOutcome × Nat :=
  runWithLockRetriesLoop env effectiveMax fuel 0 0 0

/-! ## `debuild_runner.py` : the execution engine -/

/-- `QueueEntry` (the fields used by the queue-processing loop). -/
structure QueueEntry where
  name : String
  path : String
  completed : Bool
deriving Repr, DecidableEq

/-- `MissingDependency`. -/
structure MissingDependency where
  display : String
  candidates : List String
deriving Repr, DecidableEq

/-- `MissingDependency.valid_candidates`. -/
def MissingDependency.validCandidates (d : MissingDependency) : List String :=
  d.candidates.filter (fun c => c ≠ "")

/-- `_strip_known_prefix`: the candidate itself plus each non-empty
remainder after a configured source-prefix. -/
def stripKnownVariants (prefixes : List String) (candidate : String) :
    List String :=
  prefixes.foldl
    (fun variants p =>
      if p.data.isPrefixOf candidate.data then
        let stripped := candidate.drop p.length
        if stripped ≠ "" ∧ stripped ∉ variants then variants ++ [stripped]
        else variants
      else variants)
    [candidate]

/-- Effect oracles for the queue-processing loop: `pathOk p` is "`p` exists
and has a `debian/` directory"; `hasSourceDir v` is the same test for
`base_dir / v` (used by `resolve_dependency_source`); `build p i` is the
exit status (`true` = 0) of `run_build_pipeline` for the `i`-th build of
path `p`; `missing p i` is `detect_missing_build_dependencies` after that
failed build; `installOk p i` is `install_from_workdir`. -/
structure RunnerEnv where
  prefixes : List String
  baseDir : String
  pathOk : String → Bool
  hasSourceDir : String → Bool
  build : String → Nat → Bool
  missing : String → Nat → List MissingDependency
  installOk : String → Nat → Bool

/-- `resolve_dependency_source` (lines 592–597). -/
def resolveDependencySource (env : RunnerEnv) (candidate : String) :
    Option (String × String) :=
  (stripKnownVariants env.prefixes candidate).foldl
    (fun found v =>
      match found with
      | some r => some r
      | none =>
        if env.hasSourceDir v then some (v, env.baseDir ++ "/" ++ v) else none)
    none

/-- The candidate loop of `insert_missing_dependencies` (lines 613–629):
try each valid candidate, skipping those with a completed variant; a match
later in the queue is popped out, otherwise a local source directory
synthesises a fresh entry.  Returns the chosen entry (if any) together with
the (possibly popped-from) entry list. -/
def findTargetEntry (env : RunnerEnv) (completed : List String)
    (currentIndex : Nat) : List String → List QueueEntry →
      Option QueueEntry × List QueueEntry
  | [], entries => (none, entries)
  | c :: cs, entries =>
    let variants := stripKnownVariants env.prefixes c
    if variants.any (fun v => v ∈ completed) then
      findTargetEntry env completed currentIndex cs entries
    else
      match (entries.drop (currentIndex + 1)).findIdx?
          (fun e => e.name ∈ variants) with
      | some rel =>
        let i := currentIndex + 1 + rel
        (entries[i]?, entries.eraseIdx i)
      | none =>
        match resolveDependencySource env c with
        | some (name, path) =>
          (some { name := name, path := path, completed := false }, entries)
        | none => findTargetEntry env completed currentIndex cs entries

/-- The dependency loop of `insert_missing_dependencies` (lines 611–637). -/
def insertMissingLoop (env : RunnerEnv) (completed : List String)
    (currentIndex : Nat) : List MissingDependency → List QueueEntry →
      List String → Nat → List QueueEntry × List String
  | [], entries, inserted, _ => (entries, inserted)
  | dep :: deps, entries, inserted, offset =>
    match findTargetEntry env completed currentIndex dep.validCandidates entries with
    | (none, entries') => insertMissingLoop env completed currentIndex deps entries' inserted offset
    | (some te, entries') =>
      if te.name ∈ inserted then
        insertMissingLoop env completed currentIndex deps entries' inserted offset
      else
        insertMissingLoop env completed currentIndex deps
          (entries'.insertIdx (currentIndex + offset) te)
          (inserted ++ [te.name]) (offset + 1)

/-- `insert_missing_dependencies(entries, selected, base_dir, current_index,
completed)`: the mutated entry list plus the names inserted before the
failing task. -/
def insertMissingDependencies (env : RunnerEnv) (entries : List QueueEntry)
    (selected : List MissingDependency) (currentIndex : Nat)
    (completed : List String) : List QueueEntry × List String :=
  if selected = [] then (entries, [])
  else insertMissingLoop env completed currentIndex selected entries [] 0

/-- Assoc update for the per-path build counters (model instrumentation:
it indexes the build oracle so that successive builds of one path may have
different outcomes, as they do in reality). -/
def natSet (m : List (String × Nat)) (k : String) (v : Nat) :
    List (String × Nat) :=
  if m.lookup k = none then m ++ [(k, v)] else
    m.map (fun p => if p.1 = k then (p.1, v) else p)

/-- Observable events of the queue-processing loop, in order. -/
inductive EngineEvent where
  | skipped (name : String)
  | buildOk (name : String)
  | buildFailedInserted (name : String) (inserted : List String)
  | buildFailedFinal (name : String)
  | installFailed (name : String)
deriving Repr, DecidableEq

/-- State of the `process_queue_entries` loop: the (mutable) entry list,
the loop index, `built_successfully`, `completed_names`, the per-path build
counters feeding the oracles, and the event trace. -/
structure EngineState where
  entries : List QueueEntry
  idx : Nat
  built : List String
  completedNames : List String
  attempts : List (String × Nat)
  trace : List EngineEvent
deriving Repr, DecidableEq

/-- `process_queue_entries` (lines 1041–1097), fuelled: one unit of fuel per
`while` iteration; `none` means the Python loop is still running after
`fuel` iterations.  `installArtifacts` is `args.install_artifacts`; the
print-only statements, the `base_deps_installed` flag (it only alters
arguments of the opaque build operation, absorbed by the oracle) and the
final `mark_completed` are not modelled. -/
def engineRun (env : RunnerEnv) (installArtifacts : Bool) :
    Nat → EngineState → Option EngineState
  | 0, _ => none
  | fuel + 1, st =>
    if h : st.idx < st.entries.length then
      let entry := st.entries.get ⟨st.idx, h⟩
      if ¬ env.pathOk entry.path then
        engineRun env installArtifacts fuel
          { st with idx := st.idx + 1, trace := st.trace ++ [.skipped entry.name] }
      else
        let attempt := (st.attempts.lookup entry.path).getD 0
        let attempts' := natSet st.attempts entry.path (attempt + 1)
        if ¬ env.build entry.path attempt then
          let missing := env.missing entry.path attempt
          let selected := if missing ≠ [] then missing else []
          let (entries', inserted) :=
            insertMissingDependencies env st.entries selected st.idx st.completedNames
          if inserted ≠ [] then
            engineRun env installArtifacts fuel
              { st with entries := entries', attempts := attempts'
                        trace := st.trace ++ [.buildFailedInserted entry.name inserted] }
          else
            engineRun env installArtifacts fuel
              { st with entries := entries', idx := st.idx + 1, attempts := attempts'
                        trace := st.trace ++ [.buildFailedFinal entry.name] }
        else if installArtifacts ∧ ¬ env.installOk entry.path attempt then
          engineRun env installArtifacts fuel
            { st with idx := st.idx + 1, attempts := attempts'
                      trace := st.trace ++ [.installFailed entry.name] }
        else
          engineRun env installArtifacts fuel
            { st with idx := st.idx + 1, attempts := attempts'
                      built := st.built ++ [entry.name]
                      completedNames := st.completedNames ++ [entry.name]
                      trace := st.trace ++ [.buildOk entry.name] }
    else
      some st

/-- The initial engine state for an entry list. -/
def initEngineState (entries : List QueueEntry) : EngineState :=
  { entries := entries, idx := 0, built := [], completedNames := [],
    attempts := [], trace := [] }

/-- The Python `while` loop of `process_queue_entries` never terminates on
this environment and entry list, whatever the iteration budget. -/
def engineDiverges (env : RunnerEnv) (installArtifacts : Bool)
    (entries : List QueueEntry) : Prop :=
  ∀ fuel, engineRun env installArtifacts fuel (initEngineState entries) = none

/-! ## Specification-side predicates -/

namespace PackageDepGraph

/-- One backward step: `b` is a direct prerequisite of `a`. -/
def backStep (g : PackageDepGraph) (a b : String) : Prop :=
  (b, a) ∈ g.edges

/-- `n` lies in the backward prerequisite closure of `subset`. -/
def InClosure (g : PackageDepGraph) (subset : List String) (n : String) : Prop :=
  ∃ s ∈ subset, Relation.ReflTransGen (g.backStep) s n

/-- The prerequisite closure of `subset` contains no dependency cycle. -/
def ClosureAcyclic (g : PackageDepGraph) (subset : List String) : Prop :=
  ∀ n, InClosure g subset n → ¬ Relation.TransGen (g.backStep) n n

/-- The prerequisite closure of the single node `n` contains a cycle:
such a node can never be ordered by Kahn's algorithm. -/
def AncCyclic (g : PackageDepGraph) (n : String) : Prop :=
  ∃ c, Relation.ReflTransGen (g.backStep) n c ∧ Relation.TransGen (g.backStep) c c

/-- `n` is ready once the nodes of `emitted` have been emitted: it is a
working node, not yet emitted, and every prerequisite of it inside the
working set is already emitted.  (This is exactly `in_degree[n] == 0` for
the Kahn loop.) -/
def readyIn (g : PackageDepGraph) (working emitted : List String) (n : String) :
    Prop :=
  n ∈ working ∧ n ∉ emitted ∧
    ∀ p, (p, n) ∈ g.edges → p ∈ working → p ∈ emitted

/-- The number of unemitted in-working prerequisites of `n` (the current
value of `in_degree[n]` during the Kahn loop). -/
def remDeg (g : PackageDepGraph) (working emitted : List String) (n : String) :
    Nat :=
  (g.edges.filter (fun e => e.2 = n ∧ e.1 ∈ working ∧ e.1 ∉ emitted)).length

/-- The strict heap order on `(priority, name)` pairs (the Python tuple
order used by `heapq`). -/
def pqKeyLt (a b : Nat × String) : Prop :=
  a.1 < b.1 ∨ (a.1 = b.1 ∧ charsLt a.2.data b.2.data)

/-- Non-strict version of the heap order. -/
def pqKeyLe (a b : Nat × String) : Prop :=
  pqKeyLt a b ∨ a = b

/-- Every emitted node was ready at its step, and was the
`(priority, name)`-minimum of the nodes simultaneously ready there. -/
def EmitHistory (g : PackageDepGraph) (working : List String) (d : Nat)
    (emitted : List String) : Prop :=
  ∀ k (hk : k < emitted.length),
    readyIn g working (emitted.take k) (emitted.get ⟨k, hk⟩) ∧
      ∀ m, readyIn g working (emitted.take k) m → m ≠ emitted.get ⟨k, hk⟩ →
        pqKeyLt (g.priorityOf d (emitted.get ⟨k, hk⟩), emitted.get ⟨k, hk⟩)
          (g.priorityOf d m, m)

/-- The invariant tying the Kahn loop state to its abstract description:
the in-degree map carries the remaining in-working in-degrees, the heap is
the sorted queue of exactly the ready nodes with their priorities, and the
emitted prefix is a minimal-choice topological history. -/
def KahnInv (g : PackageDepGraph) (working : List String) (d : Nat)
    (indeg : List (String × Nat)) (pq : List (Nat × String))
    (emitted : List String) : Prop :=
  indeg.map (·.1) = working ∧
  (∀ n ∈ working, indeg.lookup n = some (remDeg g working emitted n)) ∧
  pq.Pairwise pqKeyLe ∧
  (∀ x ∈ pq, x.1 = g.priorityOf d x.2) ∧
  (∀ n, ((g.priorityOf d n, n) ∈ pq) ↔ readyIn g working emitted n) ∧
  (pq.map (·.2)).Nodup ∧
  emitted.Nodup ∧
  (∀ n ∈ emitted, n ∈ working) ∧
  EmitHistory g working d emitted

/-- A choice of an unemittable prerequisite: some in-working prerequisite
of `m` that the final order failed to emit (proof auxiliary for the cycle
analysis). -/
def pickStuck (g : PackageDepGraph) (working order : List String) (m : String) :
    String :=
  ((working.filter (fun p => (p, m) ∈ g.edges ∧ p ∉ order)).headD "")

/-- Iterated `pickStuck` (proof auxiliary: walking backwards through
unemitted prerequisites must eventually revisit a node). -/
def stuckSeq (g : PackageDepGraph) (working order : List String) (n : String) :
    Nat → String
  | 0 => n
  | k + 1 => pickStuck g working order (stuckSeq g working order n k)

/-- One undirected step inside the induced subgraph on `relevant`. -/
def UndirStep (g : PackageDepGraph) (relevant : List String) (a b : String) : Prop :=
  a ∈ relevant ∧ b ∈ relevant ∧ ((a, b) ∈ g.edges ∨ (b, a) ∈ g.edges)

/-- Undirected reachability inside the induced subgraph on `relevant`
(weak connectivity). -/
def UndirReach (g : PackageDepGraph) (relevant : List String) (a b : String) : Prop :=
  Relation.ReflTransGen (g.UndirStep relevant) a b

end PackageDepGraph

/-! ## Concrete instances used by the scenario claims, witnesses and
counterexamples -/

/-- The control files of the C7 scenario: `A` Depends on `B` and on `C`
with a version constraint, `B` has no dependencies, `C` Build-Depends on
the alternative `B | D` with `D` unknown. -/
def scenarioControls : List (String × Option String) :=
  [("A", some "Source: A\nDepends: B, C (>= 1.0)\n"),
   ("B", some "Source: B\n"),
   ("C", some "Source: C\nBuild-Depends: B | D\n")]

/-- The C6 scenario graph: two disjoint dependency subgraphs, of sizes 5
(`p1 → p2 → p3`, `p1 → p4 → p5`) and 2 (`q1 → q2`). -/
def twoBlocksGraph : PackageDepGraph :=
  { nodes := ["q1", "q2", "p1", "p2", "p3", "p4", "p5"],
    edges := [("p1", "p2"), ("p2", "p3"), ("p1", "p4"), ("p4", "p5"), ("q1", "q2")],
    orderHint := [] }

/-- Three isolated un-hinted nodes; every plausible discovery order
(constructor order `c, b, a`; request order `a, c, b`; closure-stack pop
order `b, c, a`) differs from the lexicographic emission order. -/
def threeLooseNodes : PackageDepGraph :=
  { nodes := ["c", "b", "a"], edges := [], orderHint := [] }

/-- A failing `apt`/`dpkg` invocation whose output carries a lock-contention
signature with an explicit holder PID. -/
def lockFailProc : ProcResult :=
  { exitCode := 100
    stdout := "E: Could not get lock /var/lib/dpkg/lock-frontend. It is held by process 1234"
    stderr := "" }

/-- The C10 scenario environment: auto-kill recovery disabled,
wait-for-lock disabled, every attempt failing with `lockFailProc`.
(`extractPids` is empty, matching `_extract_lock_pids` as committed: its
pattern `process(?:\x5c\x5cD+)?(\x5c\x5cd+)` requires literal backslashes, so
it never captures a decimal PID; the keyword phrases still detect the
signature.) -/
def lockScenarioEnv : LockEnv :=
  { autoKill := false
    waitForLock := false
    waitTimeout := 600
    extractPids := fun _ => []
    lockCleared := fun _ => false
    run := fun _ => lockFailProc }

/-- The C5 state: one legacy inline queue-file record and one structured
map-file record for the same package `p`, with different paths and
different kinds. -/
def mergeScenarioState : MenuState :=
  { codeDir := "/code"
    buildQueue := []
    queuePackages := []
    packageStatus := []
    queueFileLines := [.record "p" false "debian" "/legacy/p" ["-x"]]
    metaFile := [("p", { path := "/map/p", kinds := [("rpm", ["-y"])] })] }

/-- The missing-dependency report used by the engine scenarios:
dependency `Y`, with the single candidate `Y`. -/
def depY : MissingDependency := { display := "Y", candidates := ["Y"] }

/-- The queue entry of package `X` at `/w/X`. -/
def xEntry : QueueEntry := { name := "X", path := "/w/X", completed := false }

/-- The queue entry synthesised for `Y` from the local source directory
`/w/Y`. -/
def yEntry : QueueEntry := { name := "Y", path := "/w/Y", completed := false }

/-- The C3 scenario environment: the first build of `X` fails reporting
missing dependency `Y`, resolvable to a local source directory; `Y`
builds; the retry of `X` succeeds. -/
def envC3 : RunnerEnv :=
  { prefixes := []
    baseDir := "/w"
    pathOk := fun _ => true
    hasSourceDir := fun v => v = "Y"
    build := fun p i => if p = "/w/X" then decide (0 < i) else true
    missing := fun p i => if p = "/w/X" ∧ i = 0 then [depY] else []
    installOk := fun _ _ => true }

/-- The C4 scenario environment: every build fails; every failure of `X`
reports missing dependency `Y`, which always resolves to the local source
directory `/w/Y` and itself always fails with an empty report. -/
def envC4 : RunnerEnv :=
  { prefixes := []
    baseDir := "/w"
    pathOk := fun _ => true
    hasSourceDir := fun v => v = "Y"
    build := fun _ _ => false
    missing := fun p _ => if p = "/w/X" then [depY] else []
    installOk := fun _ _ => true }

/-! ## Theorems -/

open PackageDepGraph

theorem pairEq {α β : Type} {p : α × β} {a : α} {b : β}
    (h1 : p.1 = a) (h2 : p.2 = b) : p = (a, b) := by
  obtain ⟨x, y⟩ := p
  rw [← h1, ← h2]

/-! ### Order facts for the heap key and the sorting helpers -/

theorem charsLt_irrefl (l : List Char) : charsLt l l = false := by
  induction l with
  | nil => rfl
  | cons x xs ih => simp [charsLt, ih]

theorem charsLt_asymm : ∀ l₁ l₂ : List Char,
    charsLt l₁ l₂ = true → charsLt l₂ l₁ = false := by
  intro l₁ l₂ h
  induction l₁ generalizing l₂ with
  | nil =>
    cases l₂ with
    | nil => exact absurd h (by decide)
    | cons y ys => simp [charsLt]
  | cons x xs ih =>
    cases l₂ with
    | nil => exact absurd h (by simp [charsLt])
    | cons y ys =>
      simp only [charsLt, Bool.decide_or, Bool.or_eq_true, decide_eq_true_eq,
        Bool.decide_and, Bool.and_eq_true, Bool.or_eq_false_iff,
        Bool.and_eq_false_iff, decide_eq_false_iff_not] at h ⊢
      rcases h with h | ⟨rfl, h⟩
      · exact ⟨not_lt_of_lt h, Or.inl (ne_of_gt h)⟩
      · exact ⟨lt_irrefl x, Or.inr (by simpa using ih ys h)⟩

theorem charsLt_trans : ∀ l₁ l₂ l₃ : List Char,
    charsLt l₁ l₂ = true → charsLt l₂ l₃ = true → charsLt l₁ l₃ = true := by
  intro l₁ l₂ l₃ h₁ h₂
  induction l₁ generalizing l₂ l₃ with
  | nil =>
    cases l₃ with
    | nil => cases l₂ with
      | nil => exact absurd h₁ (by decide)
      | cons y ys => exact absurd h₂ (by simp [charsLt])
    | cons z zs => simp [charsLt]
  | cons x xs ih =>
    cases l₂ with
    | nil => exact absurd h₁ (by simp [charsLt])
    | cons y ys =>
      cases l₃ with
      | nil => exact absurd h₂ (by simp [charsLt])
      | cons z zs =>
        simp only [charsLt, Bool.decide_or, Bool.or_eq_true, decide_eq_true_eq,
          Bool.decide_and, Bool.and_eq_true] at h₁ h₂ ⊢
        rcases h₁ with h₁ | ⟨rfl, h₁⟩ <;> rcases h₂ with h₂ | ⟨rfl, h₂⟩
        · exact Or.inl (lt_trans h₁ h₂)
        · exact Or.inl h₁
        · exact Or.inl h₂
        · exact Or.inr ⟨rfl, ih ys zs h₁ h₂⟩

theorem charsLt_connex : ∀ l₁ l₂ : List Char,
    l₁ ≠ l₂ → charsLt l₁ l₂ = true ∨ charsLt l₂ l₁ = true := by
  intro l₁ l₂ h
  induction l₁ generalizing l₂ with
  | nil =>
    cases l₂ with
    | nil => exact absurd rfl h
    | cons y ys => exact Or.inl (by simp [charsLt])
  | cons x xs ih =>
    cases l₂ with
    | nil => exact Or.inr (by simp [charsLt])
    | cons y ys =>
      rcases lt_trichotomy x y with hxy | rfl | hxy
      · exact Or.inl (by simp [charsLt, hxy])
      · have hne : xs ≠ ys := fun hEq => h (by rw [hEq])
        rcases ih ys hne with h' | h'
        · exact Or.inl (by simp [charsLt, h'])
        · exact Or.inr (by simp [charsLt, h'])
      · exact Or.inr (by simp [charsLt, hxy])

theorem strLt_asymm {a b : String} (h : strLt a b = true) : strLt b a = false :=
  charsLt_asymm a.data b.data h

theorem strLt_connex {a b : String} (h : a ≠ b) :
    strLt a b = true ∨ strLt b a = true :=
  charsLt_connex a.data b.data (fun hd => h (String.ext hd))

theorem strLe_total (a b : String) (h : strLe a b = false) : strLe b a = true := by
  simp only [strLe, Bool.not_eq_false', Bool.not_eq_true'] at h ⊢
  exact strLt_asymm h

theorem strLe_trans {a b c : String} (h₁ : strLe a b = true)
    (h₂ : strLe b c = true) : strLe a c = true := by
  simp only [strLe, Bool.not_eq_true'] at h₁ h₂ ⊢
  by_contra hcon
  rw [Bool.not_eq_false] at hcon
  by_cases hab : a = b
  · rw [hab] at hcon
    rw [hcon] at h₂
    simp at h₂
  · by_cases hbc : b = c
    · rw [← hbc] at hcon
      rw [hcon] at h₁
      simp at h₁
    · rcases strLt_connex hab with hx | hx
      · rcases strLt_connex hbc with hy | hy
        · simp only [strLt] at hx hy hcon
          have ht := charsLt_trans _ _ _ hx hy
          have hf := charsLt_asymm _ _ ht
          rw [hcon] at hf
          simp at hf
        · rw [hy] at h₂
          simp at h₂
      · rw [hx] at h₁
        simp at h₁

theorem pqKeyLt_asymm {a b : Nat × String} (h : pqKeyLt a b) : ¬ pqKeyLt b a := by
  rcases h with h | ⟨he, hs⟩
  · rintro (h' | ⟨he', _⟩)
    · exact absurd h' (not_lt_of_lt h)
    · exact absurd he' (ne_of_gt h)
  · rintro (h' | ⟨he', hs'⟩)
    · rw [he] at h'; exact lt_irrefl _ h'
    · have := charsLt_asymm _ _ hs
      rw [hs'] at this; cases this

theorem pqKeyLt_trans {a b c : Nat × String} (h₁ : pqKeyLt a b)
    (h₂ : pqKeyLt b c) : pqKeyLt a c := by
  rcases h₁ with h₁ | ⟨he₁, hs₁⟩ <;> rcases h₂ with h₂ | ⟨he₂, hs₂⟩
  · exact Or.inl (lt_trans h₁ h₂)
  · exact Or.inl (he₂ ▸ h₁)
  · exact Or.inl (he₁ ▸ h₂)
  · exact Or.inr ⟨he₁.trans he₂, charsLt_trans _ _ _ hs₁ hs₂⟩

theorem pqKeyLt_connex {a b : Nat × String} (hne : a.2 ≠ b.2) :
    pqKeyLt a b ∨ pqKeyLt b a := by
  rcases lt_trichotomy a.1 b.1 with h | h | h
  · exact Or.inl (Or.inl h)
  · have hd : a.2.data ≠ b.2.data := fun hd => hne (String.ext hd)
    rcases charsLt_connex _ _ hd with h' | h'
    · exact Or.inl (Or.inr ⟨h, h'⟩)
    · exact Or.inr (Or.inr ⟨h.symm, h'⟩)
  · exact Or.inr (Or.inl h)

theorem pqKeyLe_trans {a b c : Nat × String} (h₁ : pqKeyLe a b)
    (h₂ : pqKeyLe b c) : pqKeyLe a c := by
  rcases h₁ with h₁ | rfl
  · rcases h₂ with h₂ | rfl
    · exact Or.inl (pqKeyLt_trans h₁ h₂)
    · exact Or.inl h₁
  · exact h₂

/-! ### Generic facts about `insertLe` / `sortByLe` -/

theorem insertLe_perm {α : Type} (le : α → α → Bool) (x : α) (l : List α) :
    List.Perm (insertLe le x l) (x :: l) := by
  induction l with
  | nil => exact List.Perm.refl _
  | cons y ys ih =>
    by_cases h : le x y = true
    · simp [insertLe, h]
    · simp only [insertLe, h, if_false]
      exact (ih.cons y).trans (List.Perm.swap x y ys)

theorem sortByLe_perm {α : Type} (le : α → α → Bool) (l : List α) :
    List.Perm (sortByLe le l) l := by
  induction l with
  | nil => exact List.Perm.refl _
  | cons x xs ih => exact (insertLe_perm le x _).trans (ih.cons x)

theorem sortByLe_mem {α : Type} (le : α → α → Bool) (l : List α) (a : α) :
    a ∈ sortByLe le l ↔ a ∈ l :=
  (sortByLe_perm le l).mem_iff

theorem insertLe_sorted {α : Type} {le : α → α → Bool}
    (htot : ∀ a b, le a b = false → le b a = true)
    (htrans : ∀ a b c, le a b = true → le b c = true → le a c = true)
    (x : α) {l : List α} (hl : l.Pairwise (fun a b => le a b = true)) :
    (insertLe le x l).Pairwise (fun a b => le a b = true) := by
  induction l with
  | nil => simp [insertLe]
  | cons y ys ih =>
    rcases List.pairwise_cons.mp hl with ⟨hy, hys⟩
    by_cases h : le x y = true
    · simp only [insertLe, h, if_true]
      refine List.pairwise_cons.mpr ⟨?_, hl⟩
      intro z hz
      rcases List.mem_cons.mp hz with rfl | hz
      · exact h
      · exact htrans x y z h (hy z hz)
    · simp only [insertLe, h, if_false]
      refine List.pairwise_cons.mpr ⟨?_, ih hys⟩
      intro z hz
      have hz' := (insertLe_perm le x ys).mem_iff.mp hz
      rcases List.mem_cons.mp hz' with rfl | hz'
      · exact htot z y (by simpa using h)
      · exact hy z hz'

theorem sortByLe_sorted {α : Type} {le : α → α → Bool}
    (htot : ∀ a b, le a b = false → le b a = true)
    (htrans : ∀ a b c, le a b = true → le b c = true → le a c = true)
    (l : List α) : (sortByLe le l).Pairwise (fun a b => le a b = true) := by
  induction l with
  | nil => simp [sortByLe]
  | cons x xs ih => exact insertLe_sorted htot htrans x ih

/-- **C7.** For control files declaring `A` with `Depends: B, C (>= 1.0)`,
`B` with no dependencies and `C` with `Build-Depends: B | D` (`D` unknown),
`build_from_control_dirs` adds exactly the edges `B→A`, `C→A` and `B→C`
(first alternative taken, version constraint stripped), records nothing as
unresolved, and `topo_sort(["A"], include_dependencies=True)` returns
`[B, C, A]`. -/
theorem controlDirs_scenario :
    (graphOfControls scenarioControls []).1.edges =
        [("B", "A"), ("C", "A"), ("B", "C")] ∧
      (graphOfControls scenarioControls []).2 = [] ∧
      (graphOfControls scenarioControls []).1.topoSort ["A"] true =
        .ok ["B", "C", "A"] := by
  refine ⟨?_, ?_, ?_⟩ <;> rfl

/-! ### C10 : lock contention with recovery disabled -/

/-- **C10.** If a mutating command fails with combined output containing a
lock-contention signature (extracted holder PIDs, or a known lock phrase),
and auto-kill recovery is disabled and wait-for-lock is disabled, then
`run_with_lock_retries` returns that original command failure and never
reaches `_terminate_processes` (the kill counter stays `0`). -/
theorem runWithLockRetries_no_kill (env : LockEnv) (effectiveMax fuel : Nat)
    (hAuto : env.autoKill = false) (hWait : env.waitForLock = false)
    (hFail : (env.run 0).exitCode ≠ 0)
    (hSig : env.extractPids ((env.run 0).stdout ++ "\\n" ++ (env.run 0).stderr) ≠ [] ∨
      lockKeywords.any (fun k =>
        containsSubstr (lowerStr ((env.run 0).stdout ++ "\\n" ++ (env.run 0).stderr)) k))
    (hfuel : 0 < fuel) :
    runWithLockRetries env effectiveMax fuel = (.failure (env.run 0), 0) := by
  obtain ⟨f, rfl⟩ : ∃ f, fuel = f + 1 :=
    ⟨fuel - 1, (Nat.succ_pred_eq_of_pos hfuel).symm⟩
  have hwr : waitForLockRelease env 0 = false := by
    unfold waitForLockRelease
    simp [hWait]
  have hr : (handleLockAndRecover env 0
      ((env.run 0).stdout ++ "\\n" ++ (env.run 0).stderr)).shouldRetry = false := by
    unfold handleLockAndRecover
    simp only [hwr, hAuto, Bool.false_eq_true, not_false_eq_true, if_true,
      Bool.not_eq_true]
    split
    · rfl
    · simp
  unfold runWithLockRetries runWithLockRetriesLoop
  rw [if_neg (by simp), if_neg hFail]
  simp only []
  rw [if_neg]
  intro hcon
  rw [hr] at hcon
  simp at hcon

/-- Witness for C10 at the concrete scenario environment. -/
theorem runWithLockRetries_no_kill_witness :
    lockScenarioEnv.autoKill = false ∧
      lockScenarioEnv.waitForLock = false ∧
      (lockScenarioEnv.run 0).exitCode ≠ 0 ∧
      (lockScenarioEnv.extractPids ((lockScenarioEnv.run 0).stdout ++ "\\n" ++
          (lockScenarioEnv.run 0).stderr) ≠ [] ∨
        lockKeywords.any (fun k =>
          containsSubstr (lowerStr ((lockScenarioEnv.run 0).stdout ++ "\\n" ++
            (lockScenarioEnv.run 0).stderr)) k)) ∧
      runWithLockRetries lockScenarioEnv 3 10 = (.failure (lockScenarioEnv.run 0), 0) :=
  ⟨rfl, rfl, by decide, Or.inr (by decide),
    runWithLockRetries_no_kill lockScenarioEnv 3 10 rfl rfl (by decide)
      (Or.inr (by decide)) (by decide)⟩

/-! ### C5 : merge of legacy inline and structured map records -/

/-- **C5, counterexample.** For package `p` with a legacy inline record
carrying path `/legacy/p` and a structured map record carrying path
`/map/p`, the merged in-memory entries take the legacy path `/legacy/p` —
not the structured map path, contradicting the claim.  (The kind sets are
unioned: both the inline `debian` kind and the map's `rpm` kind appear.) -/
theorem load_merge_path_counterexample :
    (loadQueueFromFile mergeScenarioState).buildQueue =
      [{ displayName := "p", path := "/legacy/p", kind := "rpm", extraArgs := ["-y"] },
       { displayName := "p", path := "/legacy/p", kind := "debian", extraArgs := ["-x"] }] ∧
      ∀ t ∈ (loadQueueFromFile mergeScenarioState).buildQueue, t.path ≠ "/map/p" := by
  refine ⟨rfl, by decide⟩

/-! ### Generic facts about the Python-dict-style assoc updates
(`dictSet`, `statusSet`, `kindsSet`, `metaSet`, `natSet` all share the
same update shape). -/

theorem lookup_map_update_self {β : Type} (m : List (String × β)) (k : String)
    (v : β) (h : (m.lookup k).isSome) :
    (m.map (fun p => if p.1 = k then (p.1, v) else p)).lookup k = some v := by
  induction m with
  | nil => simp [List.lookup] at h
  | cons a m ih =>
    obtain ⟨a1, a2⟩ := a
    have hmc : (List.map (fun p => if p.1 = k then (p.1, v) else p) ((a1, a2) :: m)) =
        (if a1 = k then (a1, v) else (a1, a2)) ::
          List.map (fun p => if p.1 = k then (p.1, v) else p) m := by
      simp
    rw [hmc]
    by_cases hk : a1 = k
    · subst hk
      rw [if_pos rfl]
      simp [List.lookup]
    · have hbe : (k == a1) = false := beq_eq_false_iff_ne.mpr (fun hc => hk hc.symm)
      rw [if_neg hk]
      simp only [List.lookup, hbe]
      exact ih (by simpa [List.lookup, hbe] using h)

theorem lookup_map_update_other {β : Type} (m : List (String × β)) (k k' : String)
    (v : β) (h : k' ≠ k) :
    (m.map (fun p => if p.1 = k then (p.1, v) else p)).lookup k' = m.lookup k' := by
  induction m with
  | nil => rfl
  | cons a m ih =>
    obtain ⟨a1, a2⟩ := a
    have hmc : (List.map (fun p => if p.1 = k then (p.1, v) else p) ((a1, a2) :: m)) =
        (if a1 = k then (a1, v) else (a1, a2)) ::
          List.map (fun p => if p.1 = k then (p.1, v) else p) m := by
      simp
    rw [hmc]
    by_cases ha : a1 = k
    · subst ha
      have hbe : (k' == a1) = false := beq_eq_false_iff_ne.mpr h
      rw [if_pos rfl]
      simp only [List.lookup, hbe]
      exact ih
    · rw [if_neg ha]
      simp only [List.lookup]
      cases hbe : (k' == a1)
      · exact ih
      · rfl

theorem lookup_append_single_self {β : Type} (m : List (String × β)) (k : String)
    (v : β) (h : m.lookup k = none) :
    (m ++ [(k, v)]).lookup k = some v := by
  induction m with
  | nil => simp [List.lookup]
  | cons a m ih =>
    obtain ⟨a1, a2⟩ := a
    cases hbe : (k == a1)
    · simp only [List.cons_append, List.lookup, hbe]
      exact ih (by simpa [List.lookup, hbe] using h)
    · simp [List.lookup, hbe] at h

theorem lookup_append_single_other {β : Type} (m : List (String × β)) (k k' : String)
    (v : β) (h : k' ≠ k) :
    (m ++ [(k, v)]).lookup k' = m.lookup k' := by
  induction m with
  | nil =>
    simp [List.lookup, beq_eq_false_iff_ne.mpr h]
  | cons a m ih =>
    obtain ⟨a1, a2⟩ := a
    cases hbe : (k' == a1)
    · simp only [List.cons_append, List.lookup, hbe]
      exact ih
    · simp [List.lookup, hbe]

/-- A successful lookup means the key occurs among the keys. -/
theorem lookup_mem_keys {β : Type} (m : List (String × β)) (k : String) (v : β)
    (h : m.lookup k = some v) : k ∈ m.map (·.1) := by
  induction m with
  | nil => simp [List.lookup] at h
  | cons a m ih =>
    obtain ⟨a1, a2⟩ := a
    cases hbe : (k == a1)
    · simp only [List.lookup, hbe] at h
      exact List.mem_cons_of_mem _ (ih h)
    · have : k = a1 := by simpa using hbe
      subst this
      exact List.mem_cons_self _ _

/-- A key among the keys has a successful lookup. -/
theorem keys_mem_lookup {β : Type} (m : List (String × β)) (k : String)
    (h : k ∈ m.map (·.1)) : ∃ v, m.lookup k = some v := by
  induction m with
  | nil => simp at h
  | cons a m ih =>
    obtain ⟨a1, a2⟩ := a
    by_cases hk : k = a1
    · subst hk
      exact ⟨a2, by simp [List.lookup]⟩
    · have hbe : (k == a1) = false := beq_eq_false_iff_ne.mpr hk
      rcases List.mem_cons.mp h with hh | hh
      · exact absurd hh hk
      · rcases ih hh with ⟨v, hv⟩
        exact ⟨v, by simp [List.lookup, hbe, hv]⟩

theorem metaSet_lookup_self (m : List (String × MetaEntry)) (k : String)
    (v : MetaEntry) : (metaSet m k v).lookup k = some v := by
  unfold metaSet
  by_cases h : m.lookup k = none
  · rw [if_pos h]
    exact lookup_append_single_self m k v h
  · rw [if_neg h]
    exact lookup_map_update_self m k v (Option.isSome_iff_ne_none.mpr h)

theorem metaSet_lookup_other (m : List (String × MetaEntry)) (k k' : String)
    (v : MetaEntry) (h : k' ≠ k) :
    (metaSet m k v).lookup k' = m.lookup k' := by
  unfold metaSet
  by_cases hm : m.lookup k = none
  · rw [if_pos hm]
    exact lookup_append_single_other m k k' v h
  · rw [if_neg hm]
    exact lookup_map_update_other m k k' v h

theorem kindsSet_lookup_self (m : List (String × List String)) (k : String)
    (v : List String) : (kindsSet m k v).lookup k = some v := by
  unfold kindsSet
  by_cases h : m.lookup k = none
  · rw [if_pos h]
    exact lookup_append_single_self m k v h
  · rw [if_neg h]
    exact lookup_map_update_self m k v (Option.isSome_iff_ne_none.mpr h)

theorem kindsSet_lookup_other (m : List (String × List String)) (k k' : String)
    (v : List String) (h : k' ≠ k) :
    (kindsSet m k v).lookup k' = m.lookup k' := by
  unfold kindsSet
  by_cases hm : m.lookup k = none
  · rw [if_pos hm]
    exact lookup_append_single_other m k k' v h
  · rw [if_neg hm]
    exact lookup_map_update_other m k k' v h

/-- Key membership after folding `kindsSet` over a list of kind/args pairs:
exactly the union of the base keys and the folded keys. -/
theorem kindsSet_fold_isSome (l : List (String × List String)) :
    ∀ (base : List (String × List String)) (k : String),
      ((l.foldl (fun ks p => kindsSet ks p.1 p.2) base).lookup k).isSome ↔
        (base.lookup k).isSome ∨ k ∈ l.map (·.1) := by
  induction l with
  | nil => simp
  | cons a l ih =>
    intro base k
    simp only [List.foldl, List.map, List.mem_cons]
    rw [ih]
    by_cases hk : k = a.1
    · subst hk
      simp [kindsSet_lookup_self]
    · rw [kindsSet_lookup_other _ _ _ _ hk]
      constructor
      · rintro (h | h)
        · exact Or.inl h
        · exact Or.inr (Or.inr h)
      · rintro (h | h | h)
        · exact Or.inl h
        · exact absurd h hk
        · exact Or.inr h

/-- `mergeLegacy` leaves packages without a legacy record untouched. -/
theorem mergeLegacy_lookup_notmem (legacy : List (String × MetaEntry)) :
    ∀ (meta : List (String × MetaEntry)) (pkg : String),
      pkg ∉ legacy.map (·.1) →
      (mergeLegacy meta legacy).lookup pkg = meta.lookup pkg := by
  induction legacy with
  | nil => intro meta pkg _; rfl
  | cons a legacy ih =>
    intro meta pkg hmem
    simp only [List.map, List.mem_cons, not_or] at hmem
    unfold mergeLegacy
    simp only [List.foldl]
    have := ih (metaSet meta a.1
      { path := if a.2.path ≠ "" then a.2.path
                else ((meta.lookup a.1).getD { path := "", kinds := [] }).path
        kinds := a.2.kinds.foldl (fun ks p => kindsSet ks p.1 p.2)
                  ((meta.lookup a.1).getD { path := "", kinds := [] }).kinds })
      pkg hmem.2
    unfold mergeLegacy at this
    rw [this]
    exact metaSet_lookup_other _ _ _ _ hmem.1

/-- **C5, amended.** On load, when both a legacy inline queue-file record
and a structured map-file record exist for the same package name, the
merged entry prefers the *legacy inline* path when that record carries a
non-empty one, falling back to the structured map's path only when the
inline path is empty (`path_to_use = info_path or merged_path`, line 449);
and its kind map is the union of the two records' kind sets (the legacy
kinds overriding per-kind argument data). -/
theorem mergeLegacy_path_and_kinds (legacy : List (String × MetaEntry)) :
    ∀ (meta : List (String × MetaEntry)) (pkg : String) (info : MetaEntry),
      (legacy.map (·.1)).Nodup → (pkg, info) ∈ legacy →
      (mergeLegacy meta legacy).lookup pkg =
        some { path := if info.path ≠ "" then info.path
                       else ((meta.lookup pkg).getD { path := "", kinds := [] }).path
               kinds := info.kinds.foldl (fun ks p => kindsSet ks p.1 p.2)
                         ((meta.lookup pkg).getD { path := "", kinds := [] }).kinds } ∧
      ∀ k, (((mergeLegacy meta legacy).lookup pkg).getD
              { path := "", kinds := [] }).kinds.lookup k ≠ none ↔
            (k ∈ info.kinds.map (·.1) ∨
              k ∈ (((meta.lookup pkg).getD { path := "", kinds := [] }).kinds.map (·.1))) := by
  induction legacy with
  | nil => intro _ _ _ _ h; cases h
  | cons a legacy ih =>
    intro meta pkg info hnodup hmem
    have hnd := List.pairwise_cons.mp hnodup
    rcases List.mem_cons.mp hmem with heq | hmem'
    · cases heq
      have hnot : pkg ∉ legacy.map (·.1) := by
        intro hc
        rcases List.mem_map.mp hc with ⟨q, hq, hq1⟩
        exact hnd.1 (q.1) (List.mem_map.mpr ⟨q, hq, rfl⟩) hq1.symm
      have hstep : (mergeLegacy meta ((pkg, info) :: legacy)).lookup pkg =
          some { path := if info.path ≠ "" then info.path
                         else ((meta.lookup pkg).getD { path := "", kinds := [] }).path
                 kinds := info.kinds.foldl (fun ks p => kindsSet ks p.1 p.2)
                           ((meta.lookup pkg).getD { path := "", kinds := [] }).kinds } := by
        show (mergeLegacy (metaSet meta pkg _) legacy).lookup pkg = _
        rw [mergeLegacy_lookup_notmem legacy _ pkg hnot]
        exact metaSet_lookup_self _ _ _
      refine ⟨hstep, ?_⟩
      intro k
      rw [hstep]
      simp only [Option.getD_some]
      rw [← Option.isSome_iff_ne_none, kindsSet_fold_isSome]
      constructor
      · rintro (h | h)
        · exact Or.inr (by
            rcases Option.isSome_iff_exists.mp h with ⟨v, hv⟩
            exact lookup_mem_keys _ _ _ hv)
        · exact Or.inl h
      · rintro (h | h)
        · exact Or.inr h
        · exact Or.inl (by
            rcases keys_mem_lookup _ _ h with ⟨v, hv⟩
            simp [hv])
    · have hpgne : pkg ≠ a.1 := by
        intro hc
        exact hnd.1 pkg (List.mem_map.mpr ⟨(pkg, info), hmem', rfl⟩) hc.symm
      have hme : ((metaSet meta a.1
          { path := if a.2.path ≠ "" then a.2.path
                    else ((meta.lookup a.1).getD { path := "", kinds := [] }).path
            kinds := a.2.kinds.foldl (fun ks p => kindsSet ks p.1 p.2)
                      ((meta.lookup a.1).getD { path := "", kinds := [] }).kinds }).lookup pkg)
          = meta.lookup pkg := metaSet_lookup_other _ _ _ _ hpgne
      have := ih (metaSet meta a.1
        { path := if a.2.path ≠ "" then a.2.path
                  else ((meta.lookup a.1).getD { path := "", kinds := [] }).path
          kinds := a.2.kinds.foldl (fun ks p => kindsSet ks p.1 p.2)
                    ((meta.lookup a.1).getD { path := "", kinds := [] }).kinds })
        pkg info hnd.2 hmem'
      rw [hme] at this
      exact this

/-- Witness for the amended C5 at the scenario records: the merged entry
keeps the inline path `/legacy/p` and carries both kinds. -/
theorem mergeLegacy_path_and_kinds_witness :
    (mergeLegacy [("p", { path := "/map/p", kinds := [("rpm", ["-y"])] })]
        [("p", { path := "/legacy/p", kinds := [("debian", ["-x"])] })]).lookup "p" =
      some { path := "/legacy/p", kinds := [("rpm", ["-y"]), ("debian", ["-x"])] } := by
  have h := (mergeLegacy_path_and_kinds
    [("p", { path := "/legacy/p", kinds := [("debian", ["-x"])] })]
    [("p", { path := "/map/p", kinds := [("rpm", ["-y"])] })]
    "p" { path := "/legacy/p", kinds := [("debian", ["-x"])] }
    (by decide) (by decide)).1
  exact h.trans (by decide)

/-! ### C9 : tie-breaking among simultaneously ready nodes -/

/-- **C9, counterexample.** Three un-hinted isolated nodes are all ready
simultaneously.  They are emitted in lexicographic name order
`[a, b, c]` — the heap orders `(priority, name)` tuples — which differs
from the closure discovery order (`workingNodes` returns `[b, c, a]`),
from the request order `[a, c, b]`, and from the construction order
`[c, b, a]`: ties among un-hinted nodes do *not* follow discovery order. -/
theorem topoSort_tiebreak_counterexample :
    threeLooseNodes.workingNodes ["a", "c", "b"] = .ok ["b", "c", "a"] ∧
      threeLooseNodes.topoSort ["a", "c", "b"] true = .ok ["a", "b", "c"] ∧
      (["a", "b", "c"] ≠ (["b", "c", "a"] : List String) ∧
        ["a", "b", "c"] ≠ (["a", "c", "b"] : List String) ∧
        ["a", "b", "c"] ≠ (["c", "b", "a"] : List String)) :=
  ⟨rfl, rfl, by decide⟩

/-! ### The priority queue: `pqInsert` models `heapq` -/

theorem pqKey_trichotomy (x y : Nat × String) :
    pqKeyLt x y ∨ x = y ∨ pqKeyLt y x := by
  rcases Nat.lt_trichotomy x.1 y.1 with h | h | h
  · exact Or.inl (Or.inl h)
  · by_cases hs : x.2 = y.2
    · exact Or.inr (Or.inl (Prod.ext h hs))
    · rcases charsLt_connex x.2.data y.2.data (fun hd => hs (String.ext hd)) with h' | h'
      · exact Or.inl (Or.inr ⟨h, h'⟩)
      · exact Or.inr (Or.inr (Or.inr ⟨h.symm, h'⟩))
  · exact Or.inr (Or.inr (Or.inl h))

theorem pqKeyLe_of_not_lt {x y : Nat × String} (h : ¬ pqKeyLt x y) :
    pqKeyLe y x := by
  rcases pqKey_trichotomy x y with h' | h' | h'
  · exact absurd h' h
  · exact Or.inr h'.symm
  · exact Or.inl h'

/-- The insertion guard of `pqInsert` is exactly the strict heap order. -/
theorem pqInsert_cond_iff (x y : Nat × String) :
    (x.1 < y.1 ∨ (x.1 = y.1 ∧ strLt x.2 y.2)) ↔ pqKeyLt x y := Iff.rfl

theorem pqInsert_perm (x : Nat × String) (l : List (Nat × String)) :
    List.Perm (pqInsert x l) (x :: l) := by
  induction l with
  | nil => exact List.Perm.refl _
  | cons y ys ih =>
    by_cases h : (x.1 < y.1 ∨ (x.1 = y.1 ∧ strLt x.2 y.2))
    · simp [pqInsert, h]
    · simp only [pqInsert, h, if_false]
      exact (ih.cons y).trans (List.Perm.swap x y ys)

theorem pqInsert_mem {x y : Nat × String} {l : List (Nat × String)} :
    y ∈ pqInsert x l ↔ y = x ∨ y ∈ l := by
  rw [(pqInsert_perm x l).mem_iff, List.mem_cons]

theorem pqInsert_sorted (x : Nat × String) {l : List (Nat × String)}
    (hl : l.Pairwise pqKeyLe) : (pqInsert x l).Pairwise pqKeyLe := by
  induction l with
  | nil => simp [pqInsert]
  | cons y ys ih =>
    rcases List.pairwise_cons.mp hl with ⟨hy, hys⟩
    by_cases h : (x.1 < y.1 ∨ (x.1 = y.1 ∧ strLt x.2 y.2))
    · simp only [pqInsert, h, if_true]
      refine List.pairwise_cons.mpr ⟨?_, hl⟩
      intro z hz
      have hxy : pqKeyLt x y := (pqInsert_cond_iff x y).mp h
      rcases List.mem_cons.mp hz with rfl | hz
      · exact Or.inl hxy
      · exact pqKeyLe_trans (Or.inl hxy) (hy z hz)
    · simp only [pqInsert, h, if_false]
      refine List.pairwise_cons.mpr ⟨?_, ih hys⟩
      intro z hz
      rcases pqInsert_mem.mp hz with rfl | hz
      · exact pqKeyLe_of_not_lt ((pqInsert_cond_iff z y).not.mp h)
      · exact hy z hz

theorem foldPq_perm (f : String → Nat × String) (l : List String) :
    ∀ acc : List (Nat × String),
      List.Perm (l.foldl (fun pq n => pqInsert (f n) pq) acc) (acc ++ l.map f) := by
  induction l with
  | nil => intro acc; simp
  | cons n ns ih =>
    intro acc
    simp only [List.foldl, List.map]
    refine (ih (pqInsert (f n) acc)).trans ?_
    have h1 : List.Perm (pqInsert (f n) acc ++ ns.map f) ((f n :: acc) ++ ns.map f) :=
      (pqInsert_perm (f n) acc).append_right _
    refine h1.trans ?_
    simpa using (@List.perm_middle _ (f n) acc (ns.map f)).symm

theorem foldPq_sorted (f : String → Nat × String) (l : List String) :
    ∀ acc : List (Nat × String), acc.Pairwise pqKeyLe →
      (l.foldl (fun pq n => pqInsert (f n) pq) acc).Pairwise pqKeyLe := by
  induction l with
  | nil => intro acc h; exact h
  | cons n ns ih =>
    intro acc h
    exact ih _ (pqInsert_sorted (f n) h)

/-! ### The in-degree map: `decr` -/

theorem decr_keys (m : List (String × Nat)) (k : String) :
    (decr m k).map (·.1) = m.map (·.1) := by
  induction m with
  | nil => rfl
  | cons a m ih =>
    obtain ⟨a1, a2⟩ := a
    by_cases h : a1 = k
    · simp only [decr, List.map_cons] at ih ⊢
      simp only [h, if_pos rfl]
      simpa [decr] using ih
    · simp only [decr, List.map_cons, if_neg h] at ih ⊢
      simpa [decr] using ih

theorem decr_lookup_self (m : List (String × Nat)) (k : String) (c : Nat)
    (h : m.lookup k = some c) : (decr m k).lookup k = some (c - 1) := by
  induction m with
  | nil => simp [List.lookup] at h
  | cons a m ih =>
    obtain ⟨a1, a2⟩ := a
    have hmc : decr ((a1, a2) :: m) k =
        (if a1 = k then (a1, a2 - 1) else (a1, a2)) :: decr m k := by
      simp [decr]
    rw [hmc]
    by_cases hk : a1 = k
    · subst hk
      rw [if_pos rfl]
      simp only [List.lookup, beq_self_eq_true] at h ⊢
      cases h
      rfl
    · have hbe : (k == a1) = false := beq_eq_false_iff_ne.mpr (fun hc => hk hc.symm)
      rw [if_neg hk]
      simp only [List.lookup, hbe] at h ⊢
      exact ih h

theorem decr_lookup_other (m : List (String × Nat)) (k k' : String) (h : k' ≠ k) :
    (decr m k).lookup k' = m.lookup k' := by
  induction m with
  | nil => rfl
  | cons a m ih =>
    obtain ⟨a1, a2⟩ := a
    have hmc : decr ((a1, a2) :: m) k =
        (if a1 = k then (a1, a2 - 1) else (a1, a2)) :: decr m k := by
      simp [decr]
    rw [hmc]
    by_cases ha : a1 = k
    · subst ha
      have hbe : (k' == a1) = false := beq_eq_false_iff_ne.mpr h
      rw [if_pos rfl]
      simp only [List.lookup, hbe]
      exact ih
    · rw [if_neg ha]
      simp only [List.lookup]
      cases hbe : (k' == a1)
      · exact ih
      · rfl

/-! ### Remaining in-degree and readiness -/

theorem ready_iff_remDeg (g : PackageDepGraph) (working emitted : List String)
    (n : String) :
    readyIn g working emitted n ↔
      (n ∈ working ∧ n ∉ emitted ∧ remDeg g working emitted n = 0) := by
  unfold readyIn remDeg
  refine and_congr_right (fun _ => and_congr_right (fun _ => ?_))
  rw [List.length_eq_zero, List.filter_eq_nil_iff]
  constructor
  · intro h e he
    simp only [decide_eq_true_eq]
    rintro ⟨h2, h1, hni⟩
    apply hni
    refine h e.1 ?_ h1
    have he' : (e.1, e.2) ∈ g.edges := by simpa using he
    rwa [h2] at he'
  · intro h p hp hpw
    by_contra hne
    have := h (p, n) hp
    simp only [decide_eq_true_eq] at this
    exact this ⟨trivial, hpw, hne⟩

/-- Extending the emitted list by an unrelated node leaves the remaining
in-degree unchanged; emitting an actual in-working prerequisite decrements
it by exactly one (the edge set has no duplicates). -/
theorem remDeg_snoc (g : PackageDepGraph) (working emitted : List String)
    (n m : String) (hnd : g.edges.Nodup) :
    remDeg g working (emitted ++ [n]) m =
      if (n, m) ∈ g.edges ∧ n ∈ working ∧ n ∉ emitted then
        remDeg g working emitted m - 1
      else remDeg g working emitted m := by
  unfold remDeg
  have hre : g.edges.filter (fun e => decide (e.2 = m ∧ e.1 ∈ working ∧ e.1 ∉ emitted ++ [n])) =
      (g.edges.filter (fun e => decide (e.2 = m ∧ e.1 ∈ working ∧ e.1 ∉ emitted))).filter
        (fun e => decide (e.1 ≠ n)) := by
    rw [List.filter_filter]
    refine List.filter_congr ?_
    intro e _
    simp only [List.mem_append, List.mem_singleton, not_or, Bool.and_eq_true,
      decide_eq_true_eq]
    rw [← Bool.decide_and]
    simp only [decide_eq_decide]
    tauto
  rw [hre]
  set base := g.edges.filter (fun e => decide (e.2 = m ∧ e.1 ∈ working ∧ e.1 ∉ emitted)) with hbase
  have hbnd : base.Nodup := List.Nodup.filter _ hnd
  by_cases hc : (n, m) ∈ g.edges ∧ n ∈ working ∧ n ∉ emitted
  · rw [if_pos hc]
    have hmem : (n, m) ∈ base := by
      rw [hbase]
      refine List.mem_filter.mpr ⟨hc.1, by simp [hc.2.1, hc.2.2]⟩
    rcases List.append_of_mem hmem with ⟨l₁, l₂, hb⟩
    have hnm : (n, m) ∉ l₁ ++ l₂ := by
      have := hbnd
      rw [hb, List.nodup_middle] at this
      exact (List.nodup_cons.mp this).1
    have hother : ∀ e ∈ l₁ ++ l₂, e.1 ≠ n := by
      intro e he hen
      have hel : e ∈ base := by
        rw [hb]
        rcases List.mem_append.mp he with h | h
        · exact List.mem_append.mpr (Or.inl h)
        · exact List.mem_append.mpr (Or.inr (List.mem_cons_of_mem _ h))
      rcases List.mem_filter.mp hel with ⟨_, hprop⟩
      simp only [decide_eq_true_eq] at hprop
      exact hnm ((pairEq hen hprop.1) ▸ he)
    have hfl : base.filter (fun e => decide (e.1 ≠ n)) = l₁ ++ l₂ := by
      rw [hb, List.filter_append, List.filter_cons]
      have : (decide ((n, m).1 ≠ n)) = false := by simp
      rw [this]
      simp only [Bool.false_eq_true, if_false]
      have h₁ : l₁.filter (fun e => decide (e.1 ≠ n)) = l₁ := by
        rw [List.filter_eq_self]
        intro e he
        simpa using hother e (List.mem_append.mpr (Or.inl he))
      have h₂ : l₂.filter (fun e => decide (e.1 ≠ n)) = l₂ := by
        rw [List.filter_eq_self]
        intro e he
        simpa using hother e (List.mem_append.mpr (Or.inr he))
      rw [h₁, h₂]
    rw [hfl, hb]
    simp only [List.length_append, List.length_cons]
    omega
  · rw [if_neg hc]
    have hall : base.filter (fun e => decide (e.1 ≠ n)) = base := by
      rw [List.filter_eq_self]
      intro e he
      simp only [decide_eq_true_eq]
      intro hen
      rcases List.mem_filter.mp he with ⟨hee, hprop⟩
      simp only [decide_eq_true_eq] at hprop
      refine hc ⟨?_, hen ▸ hprop.2.1, hen ▸ hprop.2.2⟩
      have : e = (n, m) := pairEq hen hprop.1
      rwa [this] at hee
    rw [hall]

/-- An unemitted in-working prerequisite keeps the remaining in-degree
positive. -/
theorem remDeg_pos (g : PackageDepGraph) (working emitted : List String)
    {n m : String} (he : (n, m) ∈ g.edges) (hnW : n ∈ working)
    (hnE : n ∉ emitted) : 1 ≤ remDeg g working emitted m := by
  unfold remDeg
  have hmem : (n, m) ∈ g.edges.filter
      (fun e => decide (e.2 = m ∧ e.1 ∈ working ∧ e.1 ∉ emitted)) :=
    List.mem_filter.mpr ⟨he, by simp [hnW, hnE]⟩
  exact List.length_pos.mpr (List.ne_nil_of_mem hmem)

/-- Growing the emitted list never increases a remaining in-degree. -/
theorem remDeg_mono (g : PackageDepGraph) (working : List String)
    {em em' : List String} (hsub : ∀ a ∈ em, a ∈ em') (m : String) :
    remDeg g working em' m ≤ remDeg g working em m := by
  unfold remDeg
  refine List.Sublist.length_le (List.monotone_filter_right _ ?_)
  intro e
  simp only [decide_eq_true_eq]
  rintro ⟨h1, h2, h3⟩
  exact ⟨h1, h2, fun hc => h3 (hsub _ hc)⟩

/-- The inner follower loop of one Kahn iteration: starting from the
in-degree map and queue that are still accurate for `emitted` on the
yet-unprocessed followers `fs` of `n` (and already accurate for
`emitted ++ [n]` elsewhere), the fold produces the map and queue accurate
for `emitted ++ [n]` everywhere. -/
theorem processFollowers_spec (g : PackageDepGraph) (W : List String) (d : Nat)
    (n : String) (emitted : List String) (hnd : g.edges.Nodup)
    (hnW : n ∈ W) (hnE : n ∉ emitted)
    (hfresh : ∀ m, (n, m) ∈ g.edges → m ∈ W → m ∉ emitted ++ [n]) :
    ∀ (fs : List String) (indeg : List (String × Nat)) (pq : List (Nat × String)),
      fs.Nodup →
      (∀ f ∈ fs, (n, f) ∈ g.edges) →
      indeg.map (·.1) = W →
      (∀ m ∈ W, indeg.lookup m =
        some (if m ∈ fs then remDeg g W emitted m
              else remDeg g W (emitted ++ [n]) m)) →
      pq.Pairwise pqKeyLe →
      (∀ x ∈ pq, x.1 = g.priorityOf d x.2) →
      (∀ m, ((g.priorityOf d m, m) ∈ pq) ↔
        (m ∈ W ∧ m ∉ emitted ++ [n] ∧
          (if m ∈ fs then remDeg g W emitted m
           else remDeg g W (emitted ++ [n]) m) = 0)) →
      (pq.map (·.2)).Nodup →
      ((processFollowers g W d fs indeg pq).1.map (·.1) = W ∧
        (∀ m ∈ W, (processFollowers g W d fs indeg pq).1.lookup m =
          some (remDeg g W (emitted ++ [n]) m)) ∧
        (processFollowers g W d fs indeg pq).2.Pairwise pqKeyLe ∧
        (∀ x ∈ (processFollowers g W d fs indeg pq).2, x.1 = g.priorityOf d x.2) ∧
        (∀ m, ((g.priorityOf d m, m) ∈ (processFollowers g W d fs indeg pq).2) ↔
          readyIn g W (emitted ++ [n]) m) ∧
        ((processFollowers g W d fs indeg pq).2.map (·.2)).Nodup) := by
  intro fs
  induction fs with
  | nil =>
    intro indeg pq _ _ hkeys hdeg hsort hpr hiff hnodup
    simp only [processFollowers]
    refine ⟨hkeys, ?_, hsort, hpr, ?_, hnodup⟩
    · intro m hm
      simpa using hdeg m hm
    · intro m
      rw [hiff m, ready_iff_remDeg]
      simp
  | cons f fs ih =>
    intro indeg pq hfnd hfe hkeys hdeg hsort hpr hiff hnodup
    have hfnd' := List.nodup_cons.mp hfnd
    have hfe' : ∀ a ∈ fs, (n, a) ∈ g.edges := fun a ha => hfe a (by simp [ha])
    have hfEdge : (n, f) ∈ g.edges := hfe f (by simp)
    have hifshift : ∀ m, m ≠ f →
        (if m ∈ f :: fs then remDeg g W emitted m
         else remDeg g W (emitted ++ [n]) m) =
        (if m ∈ fs then remDeg g W emitted m
         else remDeg g W (emitted ++ [n]) m) := by
      intro m hmf
      by_cases hmfs : m ∈ fs
      · rw [if_pos (by simp [hmfs]), if_pos hmfs]
      · rw [if_neg (by simp [hmf, hmfs]), if_neg hmfs]
    by_cases hfW : f ∈ W
    · have hlookf : indeg.lookup f = some (remDeg g W emitted f) := by
        have := hdeg f hfW
        rwa [if_pos (by simp)] at this
      have hlookf' : (decr indeg f).lookup f =
          some (remDeg g W emitted f - 1) :=
        decr_lookup_self _ _ _ hlookf
      have hsnoc : remDeg g W (emitted ++ [n]) f =
          remDeg g W emitted f - 1 := by
        rw [remDeg_snoc g W emitted n f hnd, if_pos ⟨hfEdge, hnW, hnE⟩]
      have hfFresh : f ∉ emitted ++ [n] := hfresh f hfEdge hfW
      have hfOld : ¬ (g.priorityOf d f, f) ∈ pq := by
        rw [hiff f]
        rintro ⟨_, _, hz⟩
        rw [if_pos (by simp)] at hz
        have := remDeg_pos g W emitted hfEdge hnW hnE
        omega
      have hfNoName : ∀ x ∈ pq, x.2 ≠ f := by
        intro x hx hc
        exact hfOld (by
          have hx1 := hpr x hx
          have hxx : x = (g.priorityOf d f, f) := pairEq (by rw [hx1, hc]) hc
          rwa [hxx] at hx)
      have hdeg' : ∀ m ∈ W, (decr indeg f).lookup m =
          some (if m ∈ fs then remDeg g W emitted m
                else remDeg g W (emitted ++ [n]) m) := by
        intro m hm
        by_cases hmf : m = f
        · subst hmf
          rw [if_neg hfnd'.1, hlookf', hsnoc]
        · rw [decr_lookup_other _ _ _ hmf, hdeg m hm, hifshift m hmf]
      have hkeys' : (decr indeg f).map (·.1) = W := by rw [decr_keys]; exact hkeys
      by_cases hzero : (decr indeg f).lookup f = some 0
      · have hnewdeg : remDeg g W (emitted ++ [n]) f = 0 := by
          rw [hlookf'] at hzero
          rw [hsnoc]
          exact Option.some.inj hzero
        have hiff' : ∀ m, ((g.priorityOf d m, m) ∈
            pqInsert (g.priorityOf d f, f) pq) ↔
            (m ∈ W ∧ m ∉ emitted ++ [n] ∧
              (if m ∈ fs then remDeg g W emitted m
               else remDeg g W (emitted ++ [n]) m) = 0) := by
          intro m
          rw [pqInsert_mem]
          by_cases hmf : m = f
          · subst hmf
            rw [if_neg hfnd'.1]
            constructor
            · intro _; exact ⟨hfW, hfFresh, hnewdeg⟩
            · intro _; left; rfl
          · constructor
            · rintro (hc | hc)
              · exact absurd (congrArg Prod.snd hc) hmf
              · have h0 := (hiff m).mp hc
                rwa [hifshift m hmf] at h0
            · rintro h0
              right
              rw [hiff m, hifshift m hmf]
              exact h0
        have happly := ih (decr indeg f) (pqInsert (g.priorityOf d f, f) pq)
          hfnd'.2 hfe' hkeys' hdeg'
          (pqInsert_sorted _ hsort)
          (by
            intro x hx
            rcases pqInsert_mem.mp hx with rfl | hx
            · rfl
            · exact hpr x hx)
          hiff'
          (by
            have hperm := (pqInsert_perm (g.priorityOf d f, f) pq).map (·.2)
            refine hperm.nodup_iff.mpr ?_
            simp only [List.map_cons]
            exact List.nodup_cons.mpr ⟨by
              intro hc
              rcases List.mem_map.mp hc with ⟨x, hx, hx2⟩
              exact hfNoName x hx hx2, hnodup⟩)
        have heq : processFollowers g W d (f :: fs) indeg pq =
            processFollowers g W d fs (decr indeg f)
              (pqInsert (g.priorityOf d f, f) pq) := by
          simp only [processFollowers, if_pos hfW]
          rw [if_pos hzero]
        rwa [heq]
      · have hiff' : ∀ m, ((g.priorityOf d m, m) ∈ pq) ↔
            (m ∈ W ∧ m ∉ emitted ++ [n] ∧
              (if m ∈ fs then remDeg g W emitted m
               else remDeg g W (emitted ++ [n]) m) = 0) := by
          intro m
          rw [hiff m]
          by_cases hmf : m = f
          · subst hmf
            rw [if_neg hfnd'.1]
            constructor
            · rintro ⟨h1, h2, h3⟩
              rw [if_pos (by simp)] at h3
              have := remDeg_pos g W emitted hfEdge hnW hnE
              omega
            · rintro ⟨h1, h2, h3⟩
              exact absurd (hlookf'.trans (by rw [hsnoc] at h3; rw [h3])) hzero
          · rw [hifshift m hmf]
        have happly := ih (decr indeg f) pq hfnd'.2 hfe' hkeys' hdeg'
          hsort hpr hiff' hnodup
        have heq : processFollowers g W d (f :: fs) indeg pq =
            processFollowers g W d fs (decr indeg f) pq := by
          simp only [processFollowers, if_pos hfW]
          rw [if_neg hzero]
        rwa [heq]
    · have hdeg' : ∀ m ∈ W, indeg.lookup m =
          some (if m ∈ fs then remDeg g W emitted m
                else remDeg g W (emitted ++ [n]) m) := by
        intro m hm
        have hmf : m ≠ f := fun hc => hfW (hc ▸ hm)
        rw [hdeg m hm, hifshift m hmf]
      have hiff' : ∀ m, ((g.priorityOf d m, m) ∈ pq) ↔
          (m ∈ W ∧ m ∉ emitted ++ [n] ∧
            (if m ∈ fs then remDeg g W emitted m
             else remDeg g W (emitted ++ [n]) m) = 0) := by
        intro m
        rw [hiff m]
        refine and_congr_right (fun h1 => and_congr_right (fun h2 => ?_))
        have hmf : m ≠ f := fun hc => hfW (hc ▸ h1)
        rw [hifshift m hmf]
      have happly := ih indeg pq hfnd'.2 hfe' hkeys hdeg' hsort hpr hiff' hnodup
      have heq : processFollowers g W d (f :: fs) indeg pq =
          processFollowers g W d fs indeg pq := by
        simp only [processFollowers, if_neg hfW]
      rwa [heq]

theorem adjOf_mem (g : PackageDepGraph) (n f : String) :
    f ∈ g.adjOf n ↔ (n, f) ∈ g.edges := by
  unfold adjOf
  constructor
  · intro h
    rcases List.mem_map.mp h with ⟨e, he, rfl⟩
    rcases List.mem_filter.mp he with ⟨hee, hp⟩
    simp only [decide_eq_true_eq] at hp
    rwa [(pairEq hp rfl : e = (n, e.2))] at hee
  · intro h
    exact List.mem_map.mpr ⟨(n, f), List.mem_filter.mpr ⟨h, by simp⟩, rfl⟩

theorem adjOf_nodup (g : PackageDepGraph) (hnd : g.edges.Nodup) (n : String) :
    (g.adjOf n).Nodup := by
  unfold adjOf
  refine List.Nodup.map_on ?_ (List.Nodup.filter _ hnd)
  intro x hx y hy hxy
  rcases List.mem_filter.mp hx with ⟨_, hpx⟩
  rcases List.mem_filter.mp hy with ⟨_, hpy⟩
  simp only [decide_eq_true_eq] at hpx hpy
  rw [(pairEq hpx rfl : x = (n, x.2)), (pairEq hpy rfl : y = (n, y.2)), hxy]

/-- The Kahn main loop, run from any state satisfying the invariant with
enough fuel, produces a duplicate-free list of working nodes that is a
minimal-choice topological history and leaves no node ready. -/
theorem kahnLoop_spec (g : PackageDepGraph) (W : List String) (d : Nat)
    (hnd : g.edges.Nodup) (hnoSelf : ∀ e ∈ g.edges, e.1 ≠ e.2)
    (hWnd : W.Nodup) :
    ∀ (fuel : Nat) (indeg : List (String × Nat)) (pq : List (Nat × String))
      (emitted : List String),
      KahnInv g W d indeg pq emitted →
      W.length ≤ fuel + emitted.length →
      (kahnLoop g W d fuel indeg pq emitted).Nodup ∧
        (∀ n ∈ kahnLoop g W d fuel indeg pq emitted, n ∈ W) ∧
        EmitHistory g W d (kahnLoop g W d fuel indeg pq emitted) ∧
        (∀ m, ¬ readyIn g W (kahnLoop g W d fuel indeg pq emitted) m) := by
  intro fuel
  induction fuel with
  | zero =>
    intro indeg pq emitted hinv hlen
    obtain ⟨_, _, _, _, hiff, _, hemnd, hemW, hhist⟩ := hinv
    simp only [kahnLoop]
    refine ⟨hemnd, hemW, hhist, ?_⟩
    intro m hm
    obtain ⟨hmW, hmE, _⟩ := hm
    have hsp : List.Subperm emitted W := List.subperm_of_subset hemnd hemW
    have hperm : List.Perm emitted W :=
      hsp.perm_of_length_le (by simpa using hlen)
    exact hmE (hperm.mem_iff.mpr hmW)
  | succ fuel ih =>
    intro indeg pq emitted hinv hlen
    obtain ⟨hkeys, hdeg, hsort, hpr, hiff, hqnd, hemnd, hemW, hhist⟩ := hinv
    match pq, hsort, hpr, hiff, hqnd with
    | [], _, _, hiff, _ =>
      simp only [kahnLoop]
      refine ⟨hemnd, hemW, hhist, ?_⟩
      intro m hm
      exact (by simpa using (hiff m).mpr hm : False)
    | (p, n) :: rest, hsort, hpr, hiff, hqnd =>
      have hpn : p = g.priorityOf d n := hpr (p, n) (by simp)
      have hmemq : (g.priorityOf d n, n) ∈ (p, n) :: rest := by
        rw [← hpn]; simp
      have hready : readyIn g W emitted n := (hiff n).mp hmemq
      obtain ⟨hnW, hnE, hnPre⟩ := hready
      have hnamehead : ∀ y ∈ rest, y.2 ≠ n := by
        intro y hy hc
        simp only [List.map_cons, List.nodup_cons] at hqnd
        exact hqnd.1 (hc ▸ List.mem_map.mpr ⟨y, hy, rfl⟩)
      have hfresh : ∀ m, (n, m) ∈ g.edges → m ∈ W → m ∉ emitted ++ [n] := by
        intro m he hmW hc
        rcases List.mem_append.mp hc with hc | hc
        · rcases List.mem_iff_get.mp hc with ⟨⟨k, hk⟩, hget⟩
          have hrk := (hhist k hk).1
          rw [hget] at hrk
          have h0 := (ready_iff_remDeg g W (emitted.take k) m).mp hrk
          have hnE' : n ∉ emitted.take k := fun hc' => hnE (List.take_subset k emitted hc')
          have := remDeg_pos g W (emitted.take k) he hnW hnE'
          omega
        · have : m = n := by simpa using hc
          exact hnoSelf (n, m) he (by rw [this])
      have hdeg0 : ∀ m ∈ W, indeg.lookup m =
          some (if m ∈ g.adjOf n then remDeg g W emitted m
                else remDeg g W (emitted ++ [n]) m) := by
        intro m hm
        rw [hdeg m hm]
        by_cases hmadj : m ∈ g.adjOf n
        · rw [if_pos hmadj]
        · rw [if_neg hmadj, remDeg_snoc g W emitted n m hnd, if_neg]
          rintro ⟨he, _, _⟩
          exact hmadj ((adjOf_mem g n m).mpr he)
      have hiff0 : ∀ m, ((g.priorityOf d m, m) ∈ rest) ↔
          (m ∈ W ∧ m ∉ emitted ++ [n] ∧
            (if m ∈ g.adjOf n then remDeg g W emitted m
             else remDeg g W (emitted ++ [n]) m) = 0) := by
        intro m
        constructor
        · intro hm
          have hmn : m ≠ n := hnamehead _ hm
          have hrm := (hiff m).mp (List.mem_cons_of_mem _ hm)
          obtain ⟨hmW, hmE, hmP⟩ := hrm
          have h0 := (ready_iff_remDeg g W emitted m).mp ⟨hmW, hmE, hmP⟩
          refine ⟨hmW, by simp [hmE, hmn], ?_⟩
          have hmadj : m ∉ g.adjOf n := by
            intro hc
            have := remDeg_pos g W emitted ((adjOf_mem g n m).mp hc) hnW hnE
            omega
          rw [if_neg hmadj, remDeg_snoc g W emitted n m hnd, if_neg]
          · exact h0.2.2
          · rintro ⟨he, _, _⟩
            exact hmadj ((adjOf_mem g n m).mpr he)
        · rintro ⟨hmW, hmE, hmC⟩
          have hmn : m ≠ n := by
            intro hc
            exact (by simpa [hc] using hmE : ¬ (n ∈ emitted ∨ True)) (Or.inr trivial)
          have hmE' : m ∉ emitted := fun hc => hmE (List.mem_append.mpr (Or.inl hc))
          have hmadj : m ∉ g.adjOf n := by
            intro hc
            rw [if_pos hc] at hmC
            have := remDeg_pos g W emitted ((adjOf_mem g n m).mp hc) hnW hnE
            omega
          rw [if_neg hmadj, remDeg_snoc g W emitted n m hnd, if_neg] at hmC
          · have hrm : readyIn g W emitted m :=
              (ready_iff_remDeg g W emitted m).mpr ⟨hmW, hmE', hmC⟩
            have := (hiff m).mpr hrm
            rcases List.mem_cons.mp this with hc | hc
            · exact absurd (congrArg Prod.snd hc) hmn
            · exact hc
          · rintro ⟨he, _, _⟩
            exact hmadj ((adjOf_mem g n m).mpr he)
      have hspec := processFollowers_spec g W d n emitted hnd hnW hnE hfresh
        (g.adjOf n) indeg rest (adjOf_nodup g hnd n)
        (fun f hf => (adjOf_mem g n f).mp hf) hkeys hdeg0
        (List.Pairwise.of_cons hsort)
        (fun x hx => hpr x (List.mem_cons_of_mem _ hx))
        hiff0
        (by
          simp only [List.map_cons, List.nodup_cons] at hqnd
          exact hqnd.2)
      obtain ⟨hkeys', hdeg', hsort', hpr', hiff', hqnd'⟩ := hspec
      have hinv' : KahnInv g W d (processFollowers g W d (g.adjOf n) indeg rest).1
          (processFollowers g W d (g.adjOf n) indeg rest).2 (emitted ++ [n]) := by
        refine ⟨hkeys', hdeg', hsort', hpr', hiff', hqnd', ?_, ?_, ?_⟩
        · rw [List.nodup_append]
          exact ⟨hemnd, List.nodup_singleton n, by
            intro a ha hb
            rw [List.mem_singleton] at hb
            exact hnE (hb ▸ ha)⟩
        · intro m hm
          rcases List.mem_append.mp hm with h | h
          · exact hemW m h
          · rw [List.mem_singleton] at h
            exact h ▸ hnW
        · intro k hk
          rw [List.length_append, List.length_singleton] at hk
          by_cases hkcase : k < emitted.length
          · have htake : (emitted ++ [n]).take k = emitted.take k :=
              List.take_append_of_le_length (Nat.le_of_lt hkcase)
            have hget : (emitted ++ [n]).get ⟨k, by
                rw [List.length_append, List.length_singleton]; omega⟩ =
                emitted.get ⟨k, hkcase⟩ := List.get_append k hkcase
            rw [htake]
            have := hhist k hkcase
            constructor
            · rw [hget]; exact this.1
            · intro m hm hmne
              rw [hget] at hmne ⊢
              exact this.2 m hm hmne
          · have hkeq : k = emitted.length := by omega
            subst hkeq
            have htake : (emitted ++ [n]).take emitted.length = emitted :=
              List.take_left emitted [n]
            have hget : (emitted ++ [n]).get ⟨emitted.length, by
                rw [List.length_append, List.length_singleton]; omega⟩ = n := by
              rw [List.get_eq_getElem, List.getElem_append_right (le_refl emitted.length)]
              simp
            rw [htake, hget]
            refine ⟨⟨hnW, hnE, hnPre⟩, ?_⟩
            intro m hm hmn
            have hmemr : (g.priorityOf d m, m) ∈ rest := by
              have := (hiff m).mpr hm
              rcases List.mem_cons.mp this with hc | hc
              · exact absurd (congrArg Prod.snd hc) hmn
              · exact hc
            have hle : pqKeyLe (p, n) (g.priorityOf d m, m) :=
              (List.pairwise_cons.mp hsort).1 _ hmemr
            rcases hle with hlt | heq
            · rwa [hpn] at hlt
            · exact absurd (congrArg Prod.snd heq).symm hmn
      have heq : kahnLoop g W d (fuel + 1) indeg ((p, n) :: rest) emitted =
          kahnLoop g W d fuel (processFollowers g W d (g.adjOf n) indeg rest).1
            (processFollowers g W d (g.adjOf n) indeg rest).2 (emitted ++ [n]) :=
        rfl
      rw [heq]
      refine ih _ _ _ hinv' ?_
      rw [List.length_append, List.length_singleton]
      omega

/-! ### The backward-closure computation -/

theorem revOf_mem (g : PackageDepGraph) (n p : String) :
    p ∈ g.revOf n ↔ (p, n) ∈ g.edges := by
  unfold revOf
  constructor
  · intro h
    rcases List.mem_map.mp h with ⟨e, he, rfl⟩
    rcases List.mem_filter.mp he with ⟨hee, hp⟩
    simp only [decide_eq_true_eq] at hp
    rwa [(pairEq rfl hp : e = (e.1, n))] at hee
  · intro h
    exact List.mem_map.mpr ⟨(p, n), List.mem_filter.mpr ⟨h, by simp⟩, rfl⟩

theorem revOf_length_le (g : PackageDepGraph) (n : String) :
    (g.revOf n).length ≤ g.edges.length := by
  unfold revOf
  rw [List.length_map]
  exact (List.length_filter_le _ _)

/-- The stack-based backward closure: with enough fuel it completes and
returns exactly the set of nodes reachable backwards from the initial
stack (here parametrised by the invariants the initial state satisfies). -/
theorem closureLoop_spec (g : PackageDepGraph) (subset : List String)
    (hwfE : ∀ e ∈ g.edges, e.1 ∈ g.nodes ∧ e.2 ∈ g.nodes)
    (hnodesnd : g.nodes.Nodup) :
    ∀ (fuel : Nat) (stack acc : List String),
      (∀ t ∈ stack, t ∈ g.nodes) →
      acc.Nodup → (∀ a ∈ acc, a ∈ g.nodes) →
      (∀ t ∈ stack, InClosure g subset t) →
      (∀ a ∈ acc, InClosure g subset a) →
      (∀ a ∈ acc, ∀ p, (p, a) ∈ g.edges → p ∈ acc ∨ p ∈ stack) →
      stack.length + (g.nodes.length - acc.length) * (g.edges.length + 1) ≤ fuel →
      ∃ W, closureLoop g fuel stack acc = .ok W ∧
        W.Nodup ∧ (∀ w ∈ W, w ∈ g.nodes) ∧
        (∀ w ∈ W, InClosure g subset w) ∧
        (∀ a ∈ W, ∀ p, (p, a) ∈ g.edges → p ∈ W) ∧
        (∀ x, x ∈ acc ∨ x ∈ stack → x ∈ W) := by
  intro fuel
  induction fuel with
  | zero =>
    intro stack acc hstN hand haN hstR haR hclosed hfuel
    cases stack with
    | nil =>
      refine ⟨acc, rfl, hand, haN, haR, ?_, ?_⟩
      · intro a ha p hp
        rcases hclosed a ha p hp with h | h
        · exact h
        · cases h
      · intro x hx
        rcases hx with h | h
        · exact h
        · cases h
    | cons t ts => simp at hfuel
  | succ fuel ih =>
    intro stack acc hstN hand haN hstR haR hclosed hfuel
    cases stack with
    | nil =>
      refine ⟨acc, rfl, hand, haN, haR, ?_, ?_⟩
      · intro a ha p hp
        rcases hclosed a ha p hp with h | h
        · exact h
        · cases h
      · intro x hx
        rcases hx with h | h
        · exact h
        · cases h
    | cons t ts =>
      by_cases htacc : t ∈ acc
      · have heq : closureLoop g (fuel + 1) (t :: ts) acc =
            closureLoop g fuel ts acc := by
          simp only [closureLoop, if_pos htacc]
        rw [heq]
        have hrec := ih ts acc (fun x hx => hstN x (by simp [hx])) hand haN
          (fun x hx => hstR x (by simp [hx])) haR
          (by
            intro a ha p hp
            rcases hclosed a ha p hp with h | h
            · exact Or.inl h
            · rcases List.mem_cons.mp h with rfl | h
              · exact Or.inl htacc
              · exact Or.inr h)
          (by simp only [List.length_cons] at hfuel; omega)
        rcases hrec with ⟨W, hW, h1, h2, h3, h4, h5⟩
        refine ⟨W, hW, h1, h2, h3, h4, ?_⟩
        intro x hx
        rcases hx with h | h
        · exact h5 x (Or.inl h)
        · rcases List.mem_cons.mp h with rfl | h
          · exact h5 x (Or.inl htacc)
          · exact h5 x (Or.inr h)
      · have htN : t ∈ g.nodes := hstN t (by simp)
        have heq : closureLoop g (fuel + 1) (t :: ts) acc =
            closureLoop g fuel ((g.revOf t).reverse ++ ts) (acc ++ [t]) := by
          simp only [closureLoop, if_pos htN, if_neg htacc]
          rw [if_neg (by simpa using htN)]
        rw [heq]
        have hacc' : (acc ++ [t]).Nodup := by
          rw [List.nodup_append]
          exact ⟨hand, List.nodup_singleton t, by
            intro a ha hb
            rw [List.mem_singleton] at hb
            exact htacc (hb ▸ ha)⟩
        have haccN' : ∀ a ∈ acc ++ [t], a ∈ g.nodes := by
          intro a ha
          rcases List.mem_append.mp ha with h | h
          · exact haN a h
          · rw [List.mem_singleton] at h
            exact h ▸ htN
        have htn : InClosure g subset t := hstR t (by simp)
        have hstN' : ∀ x ∈ (g.revOf t).reverse ++ ts, x ∈ g.nodes := by
          intro x hx
          rcases List.mem_append.mp hx with h | h
          · rw [List.mem_reverse] at h
            exact (hwfE _ ((revOf_mem g t x).mp h)).1
          · exact hstN x (by simp [h])
        have hstR' : ∀ x ∈ (g.revOf t).reverse ++ ts, InClosure g subset x := by
          intro x hx
          rcases List.mem_append.mp hx with h | h
          · rw [List.mem_reverse] at h
            rcases htn with ⟨s, hs, hpath⟩
            exact ⟨s, hs, hpath.tail ((revOf_mem g t x).mp h)⟩
          · exact hstR x (by simp [h])
        have haR' : ∀ a ∈ acc ++ [t], InClosure g subset a := by
          intro a ha
          rcases List.mem_append.mp ha with h | h
          · exact haR a h
          · rw [List.mem_singleton] at h
            exact h ▸ htn
        have hclosed' : ∀ a ∈ acc ++ [t], ∀ p, (p, a) ∈ g.edges →
            p ∈ acc ++ [t] ∨ p ∈ (g.revOf t).reverse ++ ts := by
          intro a ha p hp
          rcases List.mem_append.mp ha with h | h
          · rcases hclosed a h p hp with h' | h'
            · exact Or.inl (List.mem_append.mpr (Or.inl h'))
            · rcases List.mem_cons.mp h' with rfl | h'
              · exact Or.inl (List.mem_append.mpr (Or.inr (by simp)))
              · exact Or.inr (List.mem_append.mpr (Or.inr h'))
          · rw [List.mem_singleton] at h
            subst h
            refine Or.inr (List.mem_append.mpr (Or.inl ?_))
            rw [List.mem_reverse]
            exact (revOf_mem g a p).mpr hp
        have hlen' : ((g.revOf t).reverse ++ ts).length +
            (g.nodes.length - (acc ++ [t]).length) * (g.edges.length + 1) ≤ fuel := by
          have hrev := revOf_length_le g t
          have haccle : (acc ++ [t]).length ≤ g.nodes.length := by
            have hsp : List.Subperm (acc ++ [t]) g.nodes :=
              List.subperm_of_subset hacc' haccN'
            exact hsp.length_le
          simp only [List.length_append, List.length_reverse, List.length_singleton,
            List.length_cons, List.length_nil, Nat.zero_add, Nat.add_zero]
            at hfuel haccle ⊢
          have hpos : 1 ≤ g.nodes.length - acc.length := by omega
          have hexp : g.nodes.length - acc.length =
              (g.nodes.length - (acc.length + 1)) + 1 := by omega
          rw [hexp] at hfuel
          rw [Nat.succ_mul] at hfuel
          omega
        have hrec := ih _ _ hstN' hacc' haccN' hstR' haR' hclosed' hlen'
        rcases hrec with ⟨W, hW, h1, h2, h3, h4, h5⟩
        refine ⟨W, hW, h1, h2, h3, h4, ?_⟩
        intro x hx
        rcases hx with h | h
        · exact h5 x (Or.inl (List.mem_append.mpr (Or.inl h)))
        · rcases List.mem_cons.mp h with rfl | h
          · exact h5 x (Or.inl (List.mem_append.mpr (Or.inr (by simp))))
          · exact h5 x (Or.inr (List.mem_append.mpr (Or.inr h)))

/-- `working_nodes`: the closure computation succeeds on known requested
packages and returns exactly the backward prerequisite closure. -/
theorem workingNodes_spec (g : PackageDepGraph) (subset : List String)
    (hwf : g.WF) (hsub : ∀ s ∈ subset, s ∈ g.nodes) :
    ∃ W, workingNodes g subset = .ok W ∧ W.Nodup ∧
      (∀ w, w ∈ W ↔ InClosure g subset w) ∧
      (∀ a ∈ W, ∀ p, (p, a) ∈ g.edges → p ∈ W) ∧
      (∀ w ∈ W, w ∈ g.nodes) := by
  have hspec := closureLoop_spec g subset hwf.edgesInNodes hwf.nodesNodup
    (closureFuel g subset) subset.reverse []
    (by
      intro t ht
      rw [List.mem_reverse] at ht
      exact hsub t ht)
    (List.nodup_nil) (by simp) (by
      intro t ht
      rw [List.mem_reverse] at ht
      exact ⟨t, ht, Relation.ReflTransGen.refl⟩)
    (by simp) (by simp)
    (by
      unfold closureFuel
      simp only [List.length_reverse, List.length_nil, Nat.sub_zero]
      omega)
  rcases hspec with ⟨W, hW, h1, h2, h3, h4, h5⟩
  refine ⟨W, hW, h1, ?_, h4, h2⟩
  intro w
  constructor
  · exact h3 w
  · rintro ⟨s, hs, hpath⟩
    have hsW : s ∈ W := h5 s (Or.inr (by rwa [List.mem_reverse]))
    clear hs
    induction hpath with
    | refl => exact hsW
    | tail hprev hstep ih2 => exact h4 _ ih2 _ hstep

/-! ### Cycle analysis: nodes that cannot be ordered -/

theorem headD_mem {α : Type} {l : List α} (h : l ≠ []) (d : α) : l.headD d ∈ l := by
  cases l with
  | nil => exact absurd rfl h
  | cons x xs => simp

/-- When no node is ready, every unemitted working node has an unemitted
in-working prerequisite, and `pickStuck` chooses one. -/
theorem pickStuck_spec (g : PackageDepGraph) (W E : List String) (m : String)
    (hm : m ∈ W) (hmE : m ∉ E) (hnr : ¬ readyIn g W E m) :
    (pickStuck g W E m, m) ∈ g.edges ∧ pickStuck g W E m ∈ W ∧
      pickStuck g W E m ∉ E := by
  unfold readyIn at hnr
  push_neg at hnr
  rcases hnr hm hmE with ⟨p, hpe, hpW, hpE⟩
  have hne : W.filter (fun p => decide ((p, m) ∈ g.edges ∧ p ∉ E)) ≠ [] := by
    intro hc
    have : p ∈ W.filter (fun p => decide ((p, m) ∈ g.edges ∧ p ∉ E)) :=
      List.mem_filter.mpr ⟨hpW, by simp [hpe, hpE]⟩
    rw [hc] at this
    cases this
  have hmem := headD_mem hne ""
  rcases List.mem_filter.mp hmem with ⟨hW, hp⟩
  simp only [decide_eq_true_eq] at hp
  exact ⟨hp.1, hW, hp.2⟩

theorem stuckSeq_mem (g : PackageDepGraph) (W E : List String)
    (hnr : ∀ m, ¬ readyIn g W E m) (n : String) (hn : n ∈ W) (hnE : n ∉ E) :
    ∀ k, stuckSeq g W E n k ∈ W ∧ stuckSeq g W E n k ∉ E := by
  intro k
  induction k with
  | zero => exact ⟨hn, hnE⟩
  | succ k ih =>
    have := pickStuck_spec g W E (stuckSeq g W E n k) ih.1 ih.2 (hnr _)
    exact ⟨this.2.1, this.2.2⟩

theorem stuckSeq_reach (g : PackageDepGraph) (W E : List String)
    (hnr : ∀ m, ¬ readyIn g W E m) (n : String) (hn : n ∈ W) (hnE : n ∉ E) :
    ∀ k, Relation.ReflTransGen (g.backStep) n (stuckSeq g W E n k) := by
  intro k
  induction k with
  | zero => exact Relation.ReflTransGen.refl
  | succ k ih =>
    have hmem := stuckSeq_mem g W E hnr n hn hnE k
    have := pickStuck_spec g W E (stuckSeq g W E n k) hmem.1 hmem.2 (hnr _)
    exact ih.tail this.1

theorem stuckSeq_reach_trans (g : PackageDepGraph) (W E : List String)
    (hnr : ∀ m, ¬ readyIn g W E m) (n : String) (hn : n ∈ W) (hnE : n ∉ E) :
    ∀ i j, i < j →
      Relation.TransGen (g.backStep) (stuckSeq g W E n i) (stuckSeq g W E n j) := by
  intro i j hij
  induction j with
  | zero => omega
  | succ j ih =>
    have hmem := stuckSeq_mem g W E hnr n hn hnE j
    have hstep := pickStuck_spec g W E (stuckSeq g W E n j) hmem.1 hmem.2 (hnr _)
    by_cases hi : i = j
    · subst hi
      exact Relation.TransGen.single hstep.1
    · exact (ih (by omega)).tail hstep.1

/-- In a ready-exhausted state, every unemitted working node has a cycle in
its prerequisite closure. -/
theorem unemitted_ancCyclic (g : PackageDepGraph) (W E : List String)
    (hnr : ∀ m, ¬ readyIn g W E m) (n : String) (hn : n ∈ W) (hnE : n ∉ E) :
    AncCyclic g n := by
  have hmaps : ∀ k ∈ Finset.range (W.length + 1),
      stuckSeq g W E n k ∈ W.toFinset := by
    intro k _
    exact List.mem_toFinset.mpr (stuckSeq_mem g W E hnr n hn hnE k).1
  have hcard : W.toFinset.card < (Finset.range (W.length + 1)).card := by
    rw [Finset.card_range]
    exact Nat.lt_succ_of_le W.toFinset_card_le
  rcases Finset.exists_ne_map_eq_of_card_lt_of_maps_to hcard hmaps with
    ⟨i, _, j, _, hij, heq⟩
  rcases Nat.lt_or_ge i j with hlt | hge
  · exact ⟨stuckSeq g W E n i, stuckSeq_reach g W E hnr n hn hnE i, by
      have := stuckSeq_reach_trans g W E hnr n hn hnE i j hlt
      rwa [← heq] at this⟩
  · have hlt : j < i := by omega
    exact ⟨stuckSeq g W E n j, stuckSeq_reach g W E hnr n hn hnE j, by
      have := stuckSeq_reach_trans g W E hnr n hn hnE j i hlt
      rwa [heq] at this⟩

theorem indexOf_lt_of_mem_take {l : List String} {p : String} {k : Nat}
    (h : p ∈ l.take k) : l.indexOf p < k := by
  induction l generalizing k with
  | nil => simp at h
  | cons x xs ih =>
    cases k with
    | zero => simp at h
    | succ k =>
      rw [List.take_succ_cons] at h
      by_cases hp : p = x
      · subst hp
        rw [List.indexOf_cons_self]
        omega
      · rcases List.mem_cons.mp h with hc | hc
        · exact absurd hc hp
        · rw [List.indexOf_cons_ne _ (fun hc => hp hc.symm)]
          have := ih hc
          omega

theorem indexOf_get_of_nodup {l : List String} (hnd : l.Nodup) {k : Nat}
    (hk : k < l.length) : l.indexOf (l.get ⟨k, hk⟩) = k := by
  rw [List.get_eq_getElem]
  exact List.indexOf_getElem hnd k hk

/-- In an emitted history, every in-working prerequisite of an emitted node
was emitted strictly earlier. -/
theorem emitted_closed_lt (g : PackageDepGraph) (W : List String) (d : Nat)
    (E : List String) (hnd : E.Nodup) (hhist : EmitHistory g W d E) :
    ∀ n ∈ E, ∀ p, (p, n) ∈ g.edges → p ∈ W →
      p ∈ E ∧ E.indexOf p < E.indexOf n := by
  intro n hn p hpe hpW
  rcases List.mem_iff_get.mp hn with ⟨⟨k, hk⟩, hget⟩
  have hr := (hhist k hk).1
  rw [hget] at hr
  have hpk : p ∈ E.take k := hr.2.2 p hpe hpW
  have hpE : p ∈ E := List.take_subset k E hpk
  have hlt : E.indexOf p < k := indexOf_lt_of_mem_take hpk
  have hidx : E.indexOf n = k := by
    rw [← hget]
    exact indexOf_get_of_nodup hnd hk
  exact ⟨hpE, by omega⟩

theorem reach_in_emitted (g : PackageDepGraph) (W : List String) (d : Nat)
    (E : List String) (hnd : E.Nodup) (hhist : EmitHistory g W d E)
    (hEW : ∀ x ∈ E, x ∈ W)
    (hWcl : ∀ a ∈ W, ∀ p, (p, a) ∈ g.edges → p ∈ W) :
    ∀ n c, n ∈ E → Relation.ReflTransGen (g.backStep) n c →
      c ∈ E ∧ E.indexOf c ≤ E.indexOf n := by
  intro n c hn hpath
  induction hpath with
  | refl => exact ⟨hn, le_refl _⟩
  | tail hprev hstep ih =>
    obtain ⟨hb, hidx⟩ := ih
    have hcW := hWcl _ (hEW _ hb) _ hstep
    have := emitted_closed_lt g W d E hnd hhist _ hb _ hstep hcW
    exact ⟨this.1, by omega⟩

/-- An emitted node has no cycle in its prerequisite closure. -/
theorem emitted_not_ancCyclic (g : PackageDepGraph) (W : List String) (d : Nat)
    (E : List String) (hnd : E.Nodup) (hhist : EmitHistory g W d E)
    (hEW : ∀ x ∈ E, x ∈ W)
    (hWcl : ∀ a ∈ W, ∀ p, (p, a) ∈ g.edges → p ∈ W)
    (n : String) (hn : n ∈ E) : ¬ AncCyclic g n := by
  rintro ⟨c0, hrtg, htg⟩
  have hc0 := reach_in_emitted g W d E hnd hhist hEW hWcl n c0 hn hrtg
  rcases (Relation.TransGen.tail'_iff.mp htg) with ⟨mid, hmid, hstep⟩
  have hmidE := reach_in_emitted g W d E hnd hhist hEW hWcl c0 mid hc0.1 hmid
  have hcW := hWcl _ (hEW _ hmidE.1) _ hstep
  have := emitted_closed_lt g W d E hnd hhist mid hmidE.1 c0 hstep hcW
  omega

/-! ### The initial Kahn state -/

theorem assocMap_lookup (f : String → Nat) :
    ∀ (W : List String) (m : String), m ∈ W →
      (W.map (fun n => (n, f n))).lookup m = some (f m) := by
  intro W
  induction W with
  | nil => intro m hm; cases hm
  | cons w ws ih =>
    intro m hm
    by_cases hmw : m = w
    · subst hmw
      simp [List.lookup]
    · have hbe : (m == w) = false := beq_eq_false_iff_ne.mpr hmw
      simp only [List.map_cons, List.lookup, hbe]
      exact ih m (by
        rcases List.mem_cons.mp hm with h | h
        · exact absurd h hmw
        · exact h)

theorem indegInit_eq_remDeg (g : PackageDepGraph) (W : List String) (n : String)
    (hn : n ∈ W) : indegInit g W n = remDeg g W [] n := by
  unfold indegInit remDeg
  rw [List.filter_filter]
  congr 1
  refine List.filter_congr ?_
  intro e _
  by_cases h2 : e.2 = n
  · simp [h2, hn]
  · simp [h2]

theorem kahnInit_inv (g : PackageDepGraph) (W : List String) (d : Nat)
    (hWnd : W.Nodup) :
    KahnInv g W d (W.map fun n => (n, indegInit g W n)) (initQueue g W d) [] := by
  have hperm := foldPq_perm (fun n => (g.priorityOf d n, n))
    (W.filter (fun n => indegInit g W n = 0)) []
  have hinit : initQueue g W d =
      (W.filter (fun n => decide (indegInit g W n = 0))).foldl
        (fun pq n => pqInsert (g.priorityOf d n, n) pq) [] := rfl
  refine ⟨?_, ?_, ?_, ?_, ?_, ?_, List.nodup_nil, by simp, ?_⟩
  · rw [List.map_map]
    exact List.map_id _
  · intro n hn
    rw [assocMap_lookup _ W n hn, indegInit_eq_remDeg g W n hn]
  · rw [hinit]
    exact foldPq_sorted _ _ [] (List.Pairwise.nil)
  · intro x hx
    rw [hinit] at hx
    have hx1 := (foldPq_perm (fun n => (g.priorityOf d n, n)) _ []).mem_iff.mp hx
    rw [List.nil_append] at hx1
    rcases List.mem_map.mp hx1 with ⟨n, _, rfl⟩
    rfl
  · intro m
    rw [hinit]
    rw [(foldPq_perm (fun n => (g.priorityOf d n, n)) _ []).mem_iff]
    simp only [List.nil_append]
    constructor
    · intro h
      rcases List.mem_map.mp h with ⟨n, hn, heq⟩
      have hmn : n = m := congrArg Prod.snd heq
      subst hmn
      rcases List.mem_filter.mp hn with ⟨hW, hz⟩
      simp only [decide_eq_true_eq] at hz
      rw [ready_iff_remDeg]
      refine ⟨hW, by simp, ?_⟩
      rw [← indegInit_eq_remDeg g W n hW]
      exact hz
    · intro h
      rw [ready_iff_remDeg] at h
      obtain ⟨hW, _, hz⟩ := h
      refine List.mem_map.mpr ⟨m, List.mem_filter.mpr ⟨hW, ?_⟩, rfl⟩
      rw [← indegInit_eq_remDeg g W m hW] at hz
      simp [hz]
  · rw [hinit]
    have hpm := (foldPq_perm (fun n => (g.priorityOf d n, n))
      (W.filter (fun n => decide (indegInit g W n = 0))) []).map (·.2)
    refine hpm.nodup_iff.mpr ?_
    simp only [List.nil_append, List.map_map]
    have : ((fun (x : Nat × String) => x.2) ∘ fun n => (g.priorityOf d n, n)) =
        id := rfl
    rw [this, List.map_id]
    exact List.Nodup.filter _ hWnd
  · intro k hk
    simp at hk

/-! ### C1 : correctness of `topo_sort` on a requested subset -/

/-- **C1.** For every well-formed dependency graph and requested subset of
known packages: if the backward prerequisite closure of the subset has no
cycle, `topo_sort(subset, include_dependencies=True)` succeeds with a list
containing every node of the closure exactly once in which every node
appears strictly after each of its prerequisites; and if the closure does
contain a cycle, it fails with the "cycle detected" error naming exactly
the nodes that could not be ordered — those whose own prerequisite closure
contains a cycle. -/
theorem topoSort_closure_spec (g : PackageDepGraph) (subset : List String)
    (hwf : g.WF) (hsub : ∀ s ∈ subset, s ∈ g.nodes) :
    (ClosureAcyclic g subset →
      ∃ order, topoSort g subset true = .ok order ∧
        (∀ n, n ∈ order ↔ InClosure g subset n) ∧ order.Nodup ∧
        (∀ p q, (p, q) ∈ g.edges → q ∈ order →
          p ∈ order ∧ order.indexOf p < order.indexOf q)) ∧
    (¬ ClosureAcyclic g subset →
      ∃ rem, topoSort g subset true = .error (.cycleDetected rem) ∧ rem ≠ [] ∧
        (∀ n, n ∈ rem ↔ InClosure g subset n ∧ AncCyclic g n)) := by
  obtain ⟨W, hWeq, hWnd, hWiff, hWclosed, hWN⟩ := workingNodes_spec g subset hwf hsub
  have hloop := kahnLoop_spec g W (defaultPriority g W) hwf.edgesNodup hwf.noSelf
    hWnd W.length (W.map fun n => (n, indegInit g W n))
    (initQueue g W (defaultPriority g W)) []
    (kahnInit_inv g W (defaultPriority g W) hWnd) (by simp)
  set E := kahnLoop g W (defaultPriority g W) W.length
    (W.map fun n => (n, indegInit g W n)) (initQueue g W (defaultPriority g W)) []
    with hE
  obtain ⟨hEnd, hEW, hEhist, hEnr⟩ := hloop
  have hmemiff : ∀ n, n ∈ E ↔ (n ∈ W ∧ ¬ AncCyclic g n) := by
    intro n
    constructor
    · intro h
      exact ⟨hEW n h,
        emitted_not_ancCyclic g W (defaultPriority g W) E hEnd hEhist hEW
          hWclosed n h⟩
    · rintro ⟨hW, hnc⟩
      by_contra hne
      exact hnc (unemitted_ancCyclic g W E hEnr n hW hne)
  have hts : topoSort g subset true =
      if E.length ≠ W.length then
        .error (.cycleDetected (sortByLe strLe (W.filter (fun n => n ∉ E))))
      else .ok E := by
    unfold topoSort
    rw [hWeq]
    rfl
  have hElen : E.length ≤ W.length :=
    (List.subperm_of_subset hEnd hEW).length_le
  constructor
  · intro hacyc
    have hall : ∀ n ∈ W, n ∈ E := by
      intro n hn
      rw [hmemiff]
      refine ⟨hn, ?_⟩
      rintro ⟨c, hrtg, htg⟩
      have hInC : InClosure g subset c := by
        rcases (hWiff n).mp hn with ⟨s, hs, hp⟩
        exact ⟨s, hs, hp.trans hrtg⟩
      exact hacyc c hInC htg
    have hlen : E.length = W.length := by
      have := (List.subperm_of_subset hWnd hall).length_le
      omega
    rw [hts, if_neg (by omega)]
    refine ⟨E, rfl, ?_, hEnd, ?_⟩
    · intro n
      rw [← hWiff n]
      exact ⟨hEW n, hall n⟩
    · intro p q hpq hq
      have hqW : q ∈ W := hEW q hq
      exact emitted_closed_lt g W (defaultPriority g W) E hEnd hEhist q hq p hpq
        (hWclosed q hqW p hpq)
  · intro hnacyc
    have hbad : ∃ n, InClosure g subset n ∧ Relation.TransGen (g.backStep) n n := by
      by_contra hc
      push_neg at hc
      exact hnacyc (fun n hn => hc n hn)
    rcases hbad with ⟨n, hInC, htg⟩
    have hnW : n ∈ W := (hWiff n).mpr hInC
    have hnE : n ∉ E := by
      rw [hmemiff]
      rintro ⟨_, hnc⟩
      exact hnc ⟨n, Relation.ReflTransGen.refl, htg⟩
    have hlen : E.length ≠ W.length := by
      intro hc
      have hperm : List.Perm E W :=
        (List.subperm_of_subset hEnd hEW).perm_of_length_le (by omega)
      exact hnE (hperm.mem_iff.mpr hnW)
    rw [hts, if_pos hlen]
    refine ⟨_, rfl, ?_, ?_⟩
    · have hmem : n ∈ sortByLe strLe (W.filter (fun n => n ∉ E)) := by
        rw [sortByLe_mem]
        exact List.mem_filter.mpr ⟨hnW, by simpa using hnE⟩
      exact List.ne_nil_of_mem hmem
    · intro m
      rw [sortByLe_mem]
      constructor
      · intro hm
        rcases List.mem_filter.mp hm with ⟨hmW, hmE⟩
        simp only [decide_eq_true_eq] at hmE
        refine ⟨(hWiff m).mp hmW, ?_⟩
        by_contra hnc
        exact hmE ((hmemiff m).mpr ⟨hmW, hnc⟩)
      · rintro ⟨hmC, hmA⟩
        have hmW : m ∈ W := (hWiff m).mpr hmC
        refine List.mem_filter.mpr ⟨hmW, ?_⟩
        simp only [decide_eq_true_eq]
        intro hmE
        exact emitted_not_ancCyclic g W (defaultPriority g W) E hEnd hEhist hEW
          hWclosed m hmE hmA

/-- Witness for C1: the theorem applied to the three-node edgeless graph
with all hypotheses discharged concretely. -/
theorem topoSort_closure_spec_witness :
    (ClosureAcyclic threeLooseNodes ["a", "c", "b"] →
      ∃ order, threeLooseNodes.topoSort ["a", "c", "b"] true = .ok order ∧
        (∀ n, n ∈ order ↔ InClosure threeLooseNodes ["a", "c", "b"] n) ∧
        order.Nodup ∧
        (∀ p q, (p, q) ∈ threeLooseNodes.edges → q ∈ order →
          p ∈ order ∧ order.indexOf p < order.indexOf q)) ∧
    (¬ ClosureAcyclic threeLooseNodes ["a", "c", "b"] →
      ∃ rem, threeLooseNodes.topoSort ["a", "c", "b"] true =
          .error (.cycleDetected rem) ∧ rem ≠ [] ∧
        (∀ n, n ∈ rem ↔ InClosure threeLooseNodes ["a", "c", "b"] n ∧
          AncCyclic threeLooseNodes n)) :=
  topoSort_closure_spec threeLooseNodes ["a", "c", "b"]
    ⟨by decide, by decide, by decide, by decide⟩ (by decide)

/-- **C9, amended.** Whenever several nodes are simultaneously ready during
`topo_sort`, the node emitted is the `(priority, name)`-minimum of the ready
set: hinted nodes are ordered by ascending hint value, every node without a
hint receives the default priority `len(order_hint) + len(working) + 5`
(strictly greater than the hint range size, so un-hinted nodes come after
hinted nodes whose hints are below that bound), and ties among nodes of
equal priority — in particular among un-hinted nodes — are broken by
lexicographic name order, not by discovery order.  (The output is a
function of the graph, hints and subset alone, hence deterministic.) -/
theorem topoSort_tiebreak_amended (g : PackageDepGraph)
    (subset W order : List String)
    (hwf : g.WF) (hsub : ∀ s ∈ subset, s ∈ g.nodes)
    (hW : workingNodes g subset = .ok W)
    (hord : topoSort g subset true = .ok order) :
    (∀ k (hk : k < order.length) m,
      readyIn g W (order.take k) m → m ≠ order.get ⟨k, hk⟩ →
      pqKeyLt
        (g.priorityOf (defaultPriority g W) (order.get ⟨k, hk⟩), order.get ⟨k, hk⟩)
        (g.priorityOf (defaultPriority g W) m, m)) ∧
    (∀ k (hk : k < order.length) m,
      readyIn g W (order.take k) m →
      g.priorityOf (defaultPriority g W) (order.get ⟨k, hk⟩) ≤
        g.priorityOf (defaultPriority g W) m) ∧
    (∀ k (hk : k < order.length) m,
      readyIn g W (order.take k) m → m ≠ order.get ⟨k, hk⟩ →
      g.priorityOf (defaultPriority g W) m =
        g.priorityOf (defaultPriority g W) (order.get ⟨k, hk⟩) →
      strLt (order.get ⟨k, hk⟩) m = true) := by
  obtain ⟨W', hWeq, hWnd', hWiff, hWclosed, hWN⟩ := workingNodes_spec g subset hwf hsub
  have hWW : W' = W := by
    rw [hWeq] at hW
    exact Except.ok.inj hW
  subst hWW
  have hloop := kahnLoop_spec g W' (defaultPriority g W') hwf.edgesNodup hwf.noSelf
    hWnd' W'.length (W'.map fun n => (n, indegInit g W' n))
    (initQueue g W' (defaultPriority g W')) []
    (kahnInit_inv g W' (defaultPriority g W') hWnd') (by simp)
  set E := kahnLoop g W' (defaultPriority g W') W'.length
    (W'.map fun n => (n, indegInit g W' n))
    (initQueue g W' (defaultPriority g W')) [] with hE
  obtain ⟨hEnd, hEW, hEhist, hEnr⟩ := hloop
  have hts : topoSort g subset true =
      if E.length ≠ W'.length then
        .error (.cycleDetected (sortByLe strLe (W'.filter (fun n => n ∉ E))))
      else .ok E := by
    unfold topoSort
    rw [hWeq]
    rfl
  have hordE : order = E := by
    rw [hts] at hord
    by_cases hlen : E.length ≠ W'.length
    · rw [if_pos hlen] at hord; cases hord
    · rw [if_neg hlen] at hord
      exact (Except.ok.inj hord).symm
  subst hordE
  have hmain : ∀ k (hk : k < E.length) m,
      readyIn g W' (E.take k) m → m ≠ E.get ⟨k, hk⟩ →
      pqKeyLt
        (g.priorityOf (defaultPriority g W') (E.get ⟨k, hk⟩), E.get ⟨k, hk⟩)
        (g.priorityOf (defaultPriority g W') m, m) := by
    intro k hk m hr hne
    exact (hEhist k hk).2 m hr hne
  refine ⟨hmain, ?_, ?_⟩
  · intro k hk m hr
    by_cases hne : m = E.get ⟨k, hk⟩
    · rw [hne]
    · rcases hmain k hk m hr hne with h | ⟨h, _⟩
      · exact Nat.le_of_lt h
      · exact Nat.le_of_eq h
  · intro k hk m hr hne heq
    rcases hmain k hk m hr hne with h | ⟨_, h⟩
    · omega
    · exact h

/-- Witness for the amended C9: at the three-node edgeless graph, with
`b` ready at step 0, the emitted node `a` has the strictly smaller
`(priority, name)` key. -/
theorem topoSort_tiebreak_amended_witness :
    pqKeyLt
      (threeLooseNodes.priorityOf
        (defaultPriority threeLooseNodes ["b", "c", "a"]) "a", "a")
      (threeLooseNodes.priorityOf
        (defaultPriority threeLooseNodes ["b", "c", "a"]) "b", "b") := by
  have h := (topoSort_tiebreak_amended threeLooseNodes ["a", "c", "b"]
    ["b", "c", "a"] ["a", "b", "c"]
    ⟨by decide, by decide, by decide, by decide⟩ (by decide) rfl rfl).1
  have hready : readyIn threeLooseNodes ["b", "c", "a"]
      ((["a", "b", "c"] : List String).take 0) "b" :=
    ⟨by decide, by decide, fun p hp _ => absurd hp (List.not_mem_nil _)⟩
  exact h 0 (by decide) "b" hready (by decide)

/-! ### The dependency-insertion splice and the engine loop (C3, C4) -/

/-- Inserting at the length of a left factor splices between the factors. -/
theorem insertIdx_length_append {α : Type} (l₁ l₂ : List α) (x : α) :
    (l₁ ++ l₂).insertIdx l₁.length x = l₁ ++ x :: l₂ := by
  induction l₁ with
  | nil => simp [List.insertIdx_zero]
  | cons a l ih => simpa [List.insertIdx_succ_cons] using ih

/-- Unfolding equation for `findTargetEntry` on a non-empty candidate
list. -/
theorem findTargetEntry_cons (env : RunnerEnv) (completed : List String)
    (idx : Nat) (c : String) (cs : List String) (entries : List QueueEntry) :
    findTargetEntry env completed idx (c :: cs) entries =
      (let variants := stripKnownVariants env.prefixes c
       if variants.any (fun v => v ∈ completed) then
         findTargetEntry env completed idx cs entries
       else
         match (entries.drop (idx + 1)).findIdx? (fun e => e.name ∈ variants) with
         | some rel =>
           let i := idx + 1 + rel
           (entries[i]?, entries.eraseIdx i)
         | none =>
           match resolveDependencySource env c with
           | some (name, path) =>
             (some { name := name, path := path, completed := false }, entries)
           | none => findTargetEntry env completed idx cs entries) := rfl

/-- Unfolding equation for `insertMissingLoop` on a non-empty dependency
list. -/
theorem insertMissingLoop_cons (env : RunnerEnv) (completed : List String)
    (idx : Nat) (dep : MissingDependency) (deps : List MissingDependency)
    (entries : List QueueEntry) (inserted : List String) (offset : Nat) :
    insertMissingLoop env completed idx (dep :: deps) entries inserted offset =
      (match findTargetEntry env completed idx dep.validCandidates entries with
       | (none, entries') =>
         insertMissingLoop env completed idx deps entries' inserted offset
       | (some te, entries') =>
         if te.name ∈ inserted then
           insertMissingLoop env completed idx deps entries' inserted offset
         else
           insertMissingLoop env completed idx deps
             (entries'.insertIdx (idx + offset) te)
             (inserted ++ [te.name]) (offset + 1)) := rfl

/-- Unfolding equation for one iteration of the `process_queue_entries`
loop. -/
theorem engineRun_step (env : RunnerEnv) (ia : Bool) (fuel : Nat)
    (st : EngineState) :
    engineRun env ia (fuel + 1) st =
      (if h : st.idx < st.entries.length then
        let entry := st.entries.get ⟨st.idx, h⟩
        if ¬ env.pathOk entry.path then
          engineRun env ia fuel
            { st with idx := st.idx + 1, trace := st.trace ++ [.skipped entry.name] }
        else
          let attempt := (st.attempts.lookup entry.path).getD 0
          let attempts' := natSet st.attempts entry.path (attempt + 1)
          if ¬ env.build entry.path attempt then
            let missing := env.missing entry.path attempt
            let selected := if missing ≠ [] then missing else []
            let (entries', inserted) :=
              insertMissingDependencies env st.entries selected st.idx st.completedNames
            if inserted ≠ [] then
              engineRun env ia fuel
                { st with entries := entries', attempts := attempts'
                          trace := st.trace ++ [.buildFailedInserted entry.name inserted] }
            else
              engineRun env ia fuel
                { st with entries := entries', idx := st.idx + 1, attempts := attempts'
                          trace := st.trace ++ [.buildFailedFinal entry.name] }
          else if ia ∧ ¬ env.installOk entry.path attempt then
            engineRun env ia fuel
              { st with idx := st.idx + 1, attempts := attempts'
                        trace := st.trace ++ [.installFailed entry.name] }
          else
            engineRun env ia fuel
              { st with idx := st.idx + 1, attempts := attempts'
                        built := st.built ++ [entry.name]
                        completedNames := st.completedNames ++ [entry.name]
                        trace := st.trace ++ [.buildOk entry.name] }
      else some st) := rfl

/-- `resolve_dependency_source` returns a name variant of its candidate,
rooted under the configured base directory, whose source directory test
passed. -/
theorem resolveDependencySource_mem (env : RunnerEnv) (c : String)
    (n p : String) (h : resolveDependencySource env c = some (n, p)) :
    n ∈ stripKnownVariants env.prefixes c ∧ p = env.baseDir ++ "/" ++ n ∧
      env.hasSourceDir n = true := by
  have key : ∀ (l : List String) (acc : Option (String × String)),
      l.foldl
        (fun found v =>
          match found with
          | some r => some r
          | none =>
            if env.hasSourceDir v then some (v, env.baseDir ++ "/" ++ v) else none)
        acc = some (n, p) →
      acc = some (n, p) ∨
        (n ∈ l ∧ p = env.baseDir ++ "/" ++ n ∧ env.hasSourceDir n = true) := by
    intro l
    induction l with
    | nil => exact fun acc h => Or.inl h
    | cons v vs ih =>
      intro acc hacc
      rcases acc with _ | r
      · simp only [List.foldl_cons] at hacc
        by_cases hv : env.hasSourceDir v
        · rw [if_pos hv] at hacc
          rcases ih _ hacc with h1 | h2
          · have hn : v = n ∧ env.baseDir ++ "/" ++ v = p := by
              have := Option.some.inj h1
              exact ⟨congrArg Prod.fst this, congrArg Prod.snd this⟩
            exact Or.inr ⟨hn.1 ▸ List.mem_cons_self v vs, hn.1 ▸ hn.2.symm,
              hn.1 ▸ hv⟩
          · exact Or.inr ⟨List.mem_cons_of_mem _ h2.1, h2.2⟩
        · rw [if_neg hv] at hacc
          rcases ih _ hacc with h1 | h2
          · exact absurd h1 (by simp)
          · exact Or.inr ⟨List.mem_cons_of_mem _ h2.1, h2.2⟩
      · simp only [List.foldl_cons] at hacc
        rcases ih _ hacc with h1 | h2
        · exact Or.inl h1
        · exact Or.inr ⟨List.mem_cons_of_mem _ h2.1, h2.2⟩
  unfold resolveDependencySource at h
  rcases key _ none h with h1 | h2
  · exact absurd h1 (by simp)
  · exact h2

/-- When the candidate search fails it leaves the entry list untouched
(the only mutation, the pop of a matched later entry, happens exactly when
an entry is returned). -/
theorem findTargetEntry_none_eq (env : RunnerEnv) (completed : List String)
    (idx : Nat) :
    ∀ (cs : List String) (entries : List QueueEntry),
      (findTargetEntry env completed idx cs entries).1 = none →
      (findTargetEntry env completed idx cs entries).2 = entries := by
  intro cs
  induction cs with
  | nil => intro entries _; rfl
  | cons c cs ih =>
    intro entries hnone
    rw [findTargetEntry_cons] at hnone ⊢
    by_cases hcomp :
        (stripKnownVariants env.prefixes c).any (fun v => v ∈ completed)
    · simp only [hcomp, if_true] at hnone ⊢
      exact ih entries hnone
    · simp only [hcomp, if_false, Bool.false_eq_true] at hnone ⊢
      rcases hfd : (entries.drop (idx + 1)).findIdx?
          (fun e => e.name ∈ stripKnownVariants env.prefixes c) with _ | rel
      · simp only [hfd] at hnone ⊢
        rcases hres : resolveDependencySource env c with _ | r
        · simp only [hres] at hnone ⊢
          exact ih entries hnone
        · rcases r with ⟨n0, p0⟩
          simp only [hres] at hnone
          exact absurd hnone (by simp)
      · exfalso
        obtain ⟨hrel, -, -⟩ := List.findIdx?_eq_some_iff_getElem.mp hfd
        have hlen : idx + 1 + rel < entries.length := by
          have := List.length_drop (idx + 1) entries
          omega
        simp only [hfd] at hnone
        rw [List.getElem?_eq_getElem hlen] at hnone
        exact Option.some_ne_none _ hnone

/-- The candidate search of `insert_missing_dependencies` on an entry list
`U ++ D` whose probed region inside `U` (the part beyond the current
index) contains no name variant of any candidate: either it fails and the
entries are untouched, or it returns an entry that is a name variant of
some not-yet-completed candidate, mutating only the `D` part. -/
theorem findTargetEntry_spec (env : RunnerEnv) (completed : List String)
    (idx : Nat) :
    ∀ (cs : List String) (U D : List QueueEntry),
      idx + 1 ≤ U.length →
      (∀ e ∈ U.drop (idx + 1), ∀ c ∈ cs,
        e.name ∉ stripKnownVariants env.prefixes c) →
      findTargetEntry env completed idx cs (U ++ D) = (none, U ++ D) ∨
        ∃ te D',
          findTargetEntry env completed idx cs (U ++ D) = (some te, U ++ D') ∧
            ∃ c ∈ cs, te.name ∈ stripKnownVariants env.prefixes c ∧
              ∀ v ∈ stripKnownVariants env.prefixes c, v ∉ completed := by
  intro cs
  induction cs with
  | nil => intro U D _ _; exact Or.inl rfl
  | cons c cs ih =>
    intro U D hU hav
    rw [findTargetEntry_cons]
    by_cases hcomp :
        (stripKnownVariants env.prefixes c).any (fun v => v ∈ completed)
    · simp only [hcomp, if_true]
      rcases ih U D hU (fun e he c' hc' => hav e he c' (List.mem_cons_of_mem _ hc'))
          with h | ⟨te, D', heq, c', hc', hmem, hncomp⟩
      · exact Or.inl h
      · exact Or.inr ⟨te, D', heq, c', List.mem_cons_of_mem _ hc', hmem, hncomp⟩
    · have hncompleted :
          ∀ v ∈ stripKnownVariants env.prefixes c, v ∉ completed := by
        intro v hv
        by_contra hvc
        exact hcomp (List.any_eq_true.mpr ⟨v, hv, by simpa using hvc⟩)
      simp only [hcomp, if_false, Bool.false_eq_true]
      have hdrop : (U ++ D).drop (idx + 1) = U.drop (idx + 1) ++ D :=
        List.drop_append_of_le_length hU
      have hUfalse : (U.drop (idx + 1)).findIdx?
          (fun e => e.name ∈ stripKnownVariants env.prefixes c) = none :=
        List.findIdx?_eq_none_iff.mpr
          (fun e he => by
            simpa using hav e he c (List.mem_cons_self _ _))
      rcases hfd : D.findIdx?
          (fun e => e.name ∈ stripKnownVariants env.prefixes c) with _ | relD
      · rw [hdrop, List.findIdx?_append, hUfalse, hfd]
        simp only [Option.map_none', Option.none_or]
        rcases hres : resolveDependencySource env c with _ | r
        · rcases ih U D hU
              (fun e he c' hc' => hav e he c' (List.mem_cons_of_mem _ hc'))
              with h | ⟨te, D', heq, c', hc', hmem, hncomp⟩
          · exact Or.inl h
          · exact Or.inr
              ⟨te, D', heq, c', List.mem_cons_of_mem _ hc', hmem, hncomp⟩
        · rcases r with ⟨n0, p0⟩
          obtain ⟨hn0, -, -⟩ := resolveDependencySource_mem env c n0 p0 hres
          exact Or.inr
            ⟨{ name := n0, path := p0, completed := false }, D, rfl,
              c, List.mem_cons_self _ _, hn0, hncompleted⟩
      · rw [hdrop, List.findIdx?_append, hUfalse, hfd]
        simp only [Option.map_some', Option.none_or]
        obtain ⟨hrelD, hpred, -⟩ := List.findIdx?_eq_some_iff_getElem.mp hfd
        have hUlen : idx + 1 + (relD + (U.drop (idx + 1)).length) =
            U.length + relD := by
          have := List.length_drop (idx + 1) U
          omega
        have hgetr : (U ++ D)[idx + 1 + (relD + (U.drop (idx + 1)).length)]? =
            some D[relD] := by
          rw [hUlen, List.getElem?_append_right (by omega)]
          have : U.length + relD - U.length = relD := by omega
          rw [this, List.getElem?_eq_getElem hrelD]
        have herase : (U ++ D).eraseIdx (idx + 1 + (relD + (U.drop (idx + 1)).length)) =
            U ++ D.eraseIdx relD := by
          rw [hUlen, List.eraseIdx_append_of_length_le (by omega)]
          have : U.length + relD - U.length = relD := by omega
          rw [this]
        refine Or.inr ⟨D[relD], D.eraseIdx relD, ?_, c, List.mem_cons_self _ _,
          by simpa using hpred, hncompleted⟩
        simp only [hgetr, herase]

/-- The inserted-name accumulator of the dependency loop only grows, and
when it does not grow at all the entry list is returned unchanged. -/
theorem insertMissingLoop_inserted (env : RunnerEnv) (completed : List String)
    (idx : Nat) :
    ∀ (deps : List MissingDependency) (entries : List QueueEntry)
      (ins : List String) (off : Nat),
      ∃ tail,
        (insertMissingLoop env completed idx deps entries ins off).2 =
            ins ++ tail ∧
          (ins = [] → tail = [] →
            (insertMissingLoop env completed idx deps entries ins off).1 =
              entries) := by
  intro deps
  induction deps with
  | nil => intro entries ins off; exact ⟨[], by simp [insertMissingLoop]⟩
  | cons dep deps ih =>
    intro entries ins off
    rw [insertMissingLoop_cons]
    rcases hft : findTargetEntry env completed idx dep.validCandidates entries
        with ⟨_ | te, entries'⟩
    · have hent : entries' = entries := by
        have := findTargetEntry_none_eq env completed idx dep.validCandidates
          entries (by rw [hft])
        rw [hft] at this
        exact this
      obtain ⟨tail, h1, h2⟩ := ih entries' ins off
      exact ⟨tail, h1, fun hi ht => by rw [h2 hi ht, hent]⟩
    · by_cases hmem : te.name ∈ ins
      · simp only [hmem, if_true]
        obtain ⟨tail, h1, h2⟩ := ih entries' ins off
        refine ⟨tail, h1, fun hi _ => ?_⟩
        rw [hi] at hmem
        exact absurd hmem (List.not_mem_nil _)
      · simp only [hmem, if_false]
        obtain ⟨tail, h1, h2⟩ :=
          ih (entries'.insertIdx (idx + off) te) (ins ++ [te.name]) (off + 1)
        refine ⟨[te.name] ++ tail, by simpa using h1, fun _ ht => ?_⟩
        exact absurd ht (by simp)

/-- The dependency loop of `insert_missing_dependencies` extends the block
of already-inserted entries sitting directly before the failing entry,
provided no candidate variant collides with the failing entry's name or
with the variants of another selected dependency. -/
theorem insertMissingLoop_splice (env : RunnerEnv) (completed : List String) :
    ∀ (deps : List MissingDependency) (A ins B : List QueueEntry)
      (fail : QueueEntry),
      (∀ dep ∈ deps, ∀ c ∈ dep.validCandidates,
          fail.name ∉ stripKnownVariants env.prefixes c) →
      (∀ e ∈ ins, ∀ dep ∈ deps, ∀ c ∈ dep.validCandidates,
          e.name ∉ stripKnownVariants env.prefixes c) →
      deps.Pairwise (fun d d' => ∀ c ∈ d.validCandidates,
          ∀ c' ∈ d'.validCandidates, ∀ v, v ∈ stripKnownVariants env.prefixes c →
            v ∉ stripKnownVariants env.prefixes c') →
      ∃ insT B',
        insertMissingLoop env completed A.length deps
            (A ++ ins ++ fail :: B) (ins.map QueueEntry.name) ins.length =
          (A ++ (ins ++ insT) ++ fail :: B',
            ((ins ++ insT).map QueueEntry.name)) := by
  intro deps
  induction deps with
  | nil =>
    intro A ins B fail _ _ _
    exact ⟨[], B, by simp [insertMissingLoop]⟩
  | cons dep deps ih =>
    intro A ins B fail hfail hins hpw
    rw [insertMissingLoop_cons]
    have hshape : A ++ ins ++ fail :: B = (A ++ ins ++ [fail]) ++ B := by
      simp [List.append_assoc]
    have hUlen : A.length + 1 ≤ (A ++ ins ++ [fail]).length := by
      simp only [List.length_append, List.length_cons, List.length_nil]
      omega
    have hUav : ∀ e ∈ (A ++ ins ++ [fail]).drop (A.length + 1),
        ∀ c ∈ dep.validCandidates,
          e.name ∉ stripKnownVariants env.prefixes c := by
      intro e he c hc
      have hdr : (A ++ (ins ++ [fail])).drop (A.length + 1) =
          (ins ++ [fail]).drop 1 := List.drop_append 1
      rw [List.append_assoc] at he
      rw [hdr] at he
      have he2 : e ∈ ins ++ [fail] := List.drop_subset _ _ he
      rcases List.mem_append.mp he2 with h | h
      · exact hins e h dep (List.mem_cons_self _ _) c hc
      · have : e = fail := by simpa using h
        rw [this]
        exact hfail dep (List.mem_cons_self _ _) c hc
    rcases findTargetEntry_spec env completed A.length dep.validCandidates
        (A ++ ins ++ [fail]) B hUlen hUav with hnone | ⟨te, D', heq, c, hc, hmem, -⟩
    · rw [hshape, hnone]
      obtain ⟨insT, B', hrec⟩ := ih A ins B fail
        (fun d hd => hfail d (List.mem_cons_of_mem _ hd))
        (fun e he d hd => hins e he d (List.mem_cons_of_mem _ hd))
        (List.Pairwise.sublist (List.sublist_cons_self _ _) hpw)
      rw [hshape] at hrec
      exact ⟨insT, B', hrec⟩
    · rw [hshape, heq]
      have hte : te.name ∉ ins.map QueueEntry.name := by
        intro hmem2
        obtain ⟨e, he, hne⟩ := List.mem_map.mp hmem2
        exact hins e he dep (List.mem_cons_self _ _) c hc (hne ▸ hmem)
      simp only [hte, if_false]
      have hinsert : ((A ++ ins ++ [fail]) ++ D').insertIdx
          (A.length + ins.length) te = A ++ (ins ++ [te]) ++ fail :: D' := by
        have h1 : (A ++ ins ++ [fail]) ++ D' = (A ++ ins) ++ ([fail] ++ D') := by
          simp [List.append_assoc]
        have h2 : A.length + ins.length = (A ++ ins).length := by simp
        rw [h1, h2, insertIdx_length_append]
        simp [List.append_assoc]
      rw [hinsert]
      have hpwhead : ∀ d' ∈ deps, ∀ c0 ∈ dep.validCandidates,
          ∀ c' ∈ d'.validCandidates, ∀ v, v ∈ stripKnownVariants env.prefixes c0 →
            v ∉ stripKnownVariants env.prefixes c' :=
        fun d' hd' => (List.pairwise_cons.mp hpw).1 d' hd'
      have hins' : ∀ e ∈ ins ++ [te], ∀ d ∈ deps, ∀ c' ∈ d.validCandidates,
          e.name ∉ stripKnownVariants env.prefixes c' := by
        intro e he d hd c' hc'
        rcases List.mem_append.mp he with h | h
        · exact hins e h d (List.mem_cons_of_mem _ hd) c' hc'
        · have : e = te := by simpa using h
          rw [this]
          exact hpwhead d hd c hc c' hc' te.name hmem
      obtain ⟨insT, B', hrec⟩ := ih A (ins ++ [te]) D' fail
        (fun d hd => hfail d (List.mem_cons_of_mem _ hd))
        hins'
        (List.Pairwise.sublist (List.sublist_cons_self _ _) hpw)
      refine ⟨[te] ++ insT, B', ?_⟩
      have hlen2 : ins.length + 1 = (ins ++ [te]).length := by simp
      have hmap2 : ins.map QueueEntry.name ++ [te.name] =
          (ins ++ [te]).map QueueEntry.name := by simp
      rw [hlen2, hmap2, hrec]
      simp [List.append_assoc]

/-- **C3.** When a build fails and the dependency diagnosis yields missing
dependencies, (1) `insert_missing_dependencies` splices the resolved
entries as one block immediately before the failing entry, preserving
their relative order and returning their names in order, with the first
inserted entry landing exactly at the current index (stated for any split
`A ++ fail :: B` of the queue at the failing entry, assuming no candidate
variant collides with the failing entry's name or with another selected
dependency's variants); (2) when the insertion is non-empty, the engine
continues at the *same* index — i.e. at the first inserted entry — so the
failing task is retried only after the inserted block has been processed;
and (3) in the concrete scenario where `X` fails reporting only the
locally resolvable dependency `Y`, the run builds `Y`, then retries `X`
exactly once, successfully: the event trace is
`[buildFailedInserted X [Y], buildOk Y, buildOk X]`. -/
theorem insert_splice_resume_spec :
    (∀ (env : RunnerEnv) (completed : List String)
        (selected : List MissingDependency) (A B : List QueueEntry)
        (fail : QueueEntry),
      (∀ dep ∈ selected, ∀ c ∈ dep.validCandidates,
          fail.name ∉ stripKnownVariants env.prefixes c) →
      selected.Pairwise (fun d d' => ∀ c ∈ d.validCandidates,
          ∀ c' ∈ d'.validCandidates, ∀ v,
            v ∈ stripKnownVariants env.prefixes c →
              v ∉ stripKnownVariants env.prefixes c') →
      ∃ ins B',
        insertMissingDependencies env (A ++ fail :: B) selected A.length
            completed = (A ++ ins ++ fail :: B', ins.map QueueEntry.name) ∧
          (ins ≠ [] →
            (A ++ ins ++ fail :: B')[A.length]? = ins.head?)) ∧
    (∀ (env : RunnerEnv) (ia : Bool) (fuel : Nat) (st : EngineState)
        (h : st.idx < st.entries.length) (e : QueueEntry) (a : Nat)
        (entries₂ : List QueueEntry) (names₂ : List String),
      st.entries.get ⟨st.idx, h⟩ = e →
      (st.attempts.lookup e.path).getD 0 = a →
      env.pathOk e.path = true →
      env.build e.path a = false →
      env.missing e.path a ≠ [] →
      insertMissingDependencies env st.entries (env.missing e.path a) st.idx
          st.completedNames = (entries₂, names₂) →
      names₂ ≠ [] →
      engineRun env ia (fuel + 1) st =
        engineRun env ia fuel
          { st with entries := entries₂
                    attempts := natSet st.attempts e.path (a + 1)
                    trace := st.trace ++ [.buildFailedInserted e.name names₂] }) ∧
    engineRun envC3 false 10 (initEngineState [xEntry]) =
      some { entries := [yEntry, xEntry], idx := 2, built := ["Y", "X"],
             completedNames := ["Y", "X"],
             attempts := [("/w/X", 2), ("/w/Y", 1)],
             trace := [.buildFailedInserted "X" ["Y"], .buildOk "Y",
               .buildOk "X"] } := by
  refine ⟨?_, ?_, ?_⟩
  · intro env completed selected A B fail hfail hpw
    unfold insertMissingDependencies
    by_cases hsel : selected = []
    · rw [if_pos hsel]
      exact ⟨[], B, by simp, fun hne => absurd rfl hne⟩
    · rw [if_neg hsel]
      obtain ⟨insT, B', hrec⟩ := insertMissingLoop_splice env completed
        selected A [] B fail hfail
        (fun e he => absurd he (List.not_mem_nil _)) hpw
      refine ⟨insT, B', by simpa using hrec, ?_⟩
      intro hne
      rcases insT with _ | ⟨i0, ir⟩
      · exact absurd rfl hne
      · rw [List.getElem?_append,
          if_pos (by simp only [List.length_append, List.length_cons]; omega),
          List.getElem?_append, if_neg (by simp)]
        simp
  · intro env ia fuel st h e a entries₂ names₂ hget hatt hpath hbuild hmiss hr
      hnames
    rw [engineRun_step, dif_pos h]
    simp only [hget, hatt]
    rw [if_neg (by simp [hpath])]
    rw [if_pos (by simp [hbuild])]
    rw [if_pos hmiss]
    simp only [hr]
    rw [if_pos hnames]
  · rfl

/-- Witness for C3 at the scenario environment: `insert_missing_dependencies`
on the one-entry queue `[X]` at index `0` splices the block resolved for the
report `[Y]` directly before `X`. -/
theorem insert_splice_resume_spec_witness :
    ∃ ins B',
      insertMissingDependencies envC3 ([] ++ xEntry :: []) [depY]
          (List.length ([] : List QueueEntry)) [] =
        ([] ++ ins ++ xEntry :: B', ins.map QueueEntry.name) ∧
        (ins ≠ [] →
          ([] ++ ins ++ xEntry :: B')[List.length ([] : List QueueEntry)]? =
            ins.head?) :=
  insert_splice_resume_spec.1 envC3 [] [depY] [] [] xEntry (by decide)
    (by simp)

/-- With the current index in range, one unit of fuel is consumed
whichever branch the loop body takes. -/
theorem engineRun_one (env : RunnerEnv) (ia : Bool) (st : EngineState)
    (h : st.idx < st.entries.length) : engineRun env ia 1 st = none := by
  rw [show (1 : Nat) = 0 + 1 from rfl, engineRun_step, dif_pos h]
  dsimp only
  repeat first
  | rfl
  | split

/-- If the dependency loop inserts nothing, the entry list is returned
unchanged: the only pop of a later entry is immediately re-inserted (or,
dedup aside, a pop only happens when an entry is actually chosen). -/
theorem insertMissingDependencies_nil_eq (env : RunnerEnv)
    (completed : List String) (idx : Nat) (deps : List MissingDependency)
    (entries : List QueueEntry)
    (hz : (insertMissingDependencies env entries deps idx completed).2 = []) :
    (insertMissingDependencies env entries deps idx completed).1 = entries := by
  unfold insertMissingDependencies at hz ⊢
  by_cases hne : deps = []
  · rw [if_pos hne]
  · rw [if_neg hne] at hz ⊢
    obtain ⟨tail, h1, h2⟩ :=
      insertMissingLoop_inserted env completed idx deps entries [] 0
    rw [h1] at hz
    exact h2 rfl (by simpa using hz)

/-- Computation of the C4 insertion round: at index `k` of the queue
`Y^k ++ [X]` with nothing completed, the report `[Y]` synthesises a fresh
`Y` entry and splices it at position `k`. -/
theorem insertC4_compute (k : Nat) :
    insertMissingDependencies envC4 (List.replicate k yEntry ++ [xEntry])
        [depY] k [] =
      (List.replicate (k + 1) yEntry ++ [xEntry], ["Y"]) := by
  unfold insertMissingDependencies
  rw [if_neg (by simp), insertMissingLoop_cons]
  have hft : findTargetEntry envC4 [] k depY.validCandidates
      (List.replicate k yEntry ++ [xEntry]) =
      (some yEntry, List.replicate k yEntry ++ [xEntry]) := by
    rw [show depY.validCandidates = ["Y"] from rfl, findTargetEntry_cons]
    simp only []
    rw [if_neg (by decide)]
    rw [List.drop_eq_nil_of_le (by simp)]
    rfl
  simp only [hft]
  rw [if_neg (List.not_mem_nil _)]
  have hik : (List.replicate k yEntry ++ [xEntry]).insertIdx (k + 0) yEntry =
      List.replicate (k + 1) yEntry ++ [xEntry] := by
    have h0 : k + 0 = (List.replicate k yEntry).length := by simp
    rw [h0, insertIdx_length_append, List.replicate_succ']
    simp
  rw [hik]
  rfl

/-- One full round of the C4 divergence: from the queue `Y^k ++ [X]` at
index `k`, the failing build of `X` re-synthesises and re-inserts `Y`,
and the failing build of that `Y` is final, leaving the queue
`Y^(k+1) ++ [X]` at index `k + 1` — two iterations consumed. -/
theorem engineRun_c4_round (k fuel : Nat) (bu : List String)
    (att : List (String × Nat)) (tr : List EngineEvent) :
    ∃ (att' : List (String × Nat)) (tr' : List EngineEvent),
      engineRun envC4 false (fuel + 2)
          { entries := List.replicate k yEntry ++ [xEntry], idx := k,
            built := bu, completedNames := [], attempts := att, trace := tr } =
        engineRun envC4 false fuel
          { entries := List.replicate (k + 1) yEntry ++ [xEntry], idx := k + 1,
            built := bu, completedNames := [], attempts := att', trace := tr' } := by
  apply Exists.intro
  apply Exists.intro
  have hlt1 : k < (List.replicate k yEntry ++ [xEntry]).length := by simp
  rw [show fuel + 2 = (fuel + 1) + 1 from rfl, engineRun_step, dif_pos hlt1]
  have hget1 : (List.replicate k yEntry ++ [xEntry]).get ⟨k, hlt1⟩ = xEntry := by
    rw [List.get_eq_getElem, List.getElem_append_right (by simp)]
    simp
  simp only [hget1]
  rw [if_neg (by decide)]
  rw [if_pos (by simp [envC4])]
  rw [show envC4.missing xEntry.path
      ((List.lookup xEntry.path att).getD 0) = [depY] from by simp [envC4, xEntry]]
  rw [if_pos (show [depY] ≠ [] from by simp)]
  rw [insertC4_compute]
  rw [if_pos (show ((List.replicate (k + 1) yEntry ++ [xEntry], ["Y"]).2 ≠
      ([] : List String)) from by simp)]
  show engineRun envC4 false (fuel + 1)
      { entries := List.replicate (k + 1) yEntry ++ [xEntry], idx := k,
        built := bu, completedNames := [],
        attempts := natSet att xEntry.path
          ((List.lookup xEntry.path att).getD 0 + 1),
        trace := tr ++ [.buildFailedInserted "X" ["Y"]] } = _
  have hlt2 : k < (List.replicate (k + 1) yEntry ++ [xEntry]).length := by
    simp
    omega
  rw [engineRun_step, dif_pos hlt2]
  have hget2 : (List.replicate (k + 1) yEntry ++ [xEntry]).get ⟨k, hlt2⟩ =
      yEntry := by
    rw [List.get_eq_getElem, List.getElem_append_left (by simp)]
    exact List.getElem_replicate _ _
  simp only [hget2]
  rw [if_neg (by decide)]
  rw [if_pos (by simp [envC4])]
  rw [show (envC4.missing yEntry.path
      ((List.lookup yEntry.path (natSet att xEntry.path
        ((List.lookup xEntry.path att).getD 0 + 1))).getD 0)) = [] from rfl]
  rw [if_neg (show ¬ (([] : List MissingDependency) ≠ []) from by simp)]
  rw [show insertMissingDependencies envC4
      (List.replicate (k + 1) yEntry ++ [xEntry]) [] k [] =
      (List.replicate (k + 1) yEntry ++ [xEntry], []) from by
    unfold insertMissingDependencies
    simp]
  rw [if_neg (show ¬ ((List.replicate (k + 1) yEntry ++ [xEntry],
      ([] : List String)).2 ≠ []) from by simp)]

/-- The C4 divergence: whatever the fuel and the auxiliary state, the run
of a queue `Y^k ++ [X]` positioned at `k` with nothing completed never
terminates. -/
theorem engineRun_c4_none :
    ∀ (fuel k : Nat) (bu : List String) (att : List (String × Nat))
      (tr : List EngineEvent),
      engineRun envC4 false fuel
          { entries := List.replicate k yEntry ++ [xEntry], idx := k,
            built := bu, completedNames := [], attempts := att, trace := tr } =
        none := by
  intro fuel
  induction fuel using Nat.strong_induction_on with
  | _ fuel IH =>
    rcases fuel with _ | fuel1
    · intro k bu att tr
      rfl
    · rcases fuel1 with _ | fuel2
      · intro k bu att tr
        exact engineRun_one envC4 false _ (by simp)
      · intro k bu att tr
        obtain ⟨att', tr', hstep⟩ := engineRun_c4_round k fuel2 bu att tr
        rw [show fuel2 + 1 + 1 = fuel2 + 2 from rfl, hstep]
        exact IH fuel2 (by omega) (k + 1) bu att' tr'

/-- **C4, counterexample.** The claim that the engine never retries the
same concrete failure indefinitely is false: on the one-entry queue `[X]`
where every build fails and every failure of `X` reports the same locally
resolvable dependency `Y`, the loop re-inserts a fresh `Y` entry before
`X` on every retry of `X`, and `process_queue_entries` never terminates —
`engineRun` returns "still running" for every iteration budget. -/
theorem engine_retry_divergence : engineDiverges envC4 false [xEntry] :=
  fun fuel => engineRun_c4_none fuel 0 [] [] []

/-- **C4, amended.** What is true of a failure with no new resolvable
dependency: (1) when `insert_missing_dependencies` reports nothing
inserted it has also left the queue unchanged, and (2) a failed build
whose diagnosis leads to an empty insertion is terminal for that queue
position — the engine leaves the queue unchanged, records the failure
event, and moves past the entry.  (The original claim's global
no-infinite-retry property is refuted by `engineDiverges envC4 false
[xEntry]`: nothing stops the *same* dependency from being re-discovered
and re-inserted on every retry.) -/
theorem engine_no_new_dependency_is_final :
    (∀ (env : RunnerEnv) (completed : List String) (idx : Nat)
        (deps : List MissingDependency) (entries : List QueueEntry),
      (insertMissingDependencies env entries deps idx completed).2 = [] →
      (insertMissingDependencies env entries deps idx completed).1 = entries) ∧
    (∀ (env : RunnerEnv) (ia : Bool) (fuel : Nat) (st : EngineState)
        (h : st.idx < st.entries.length) (e : QueueEntry) (a : Nat),
      st.entries.get ⟨st.idx, h⟩ = e →
      (st.attempts.lookup e.path).getD 0 = a →
      env.pathOk e.path = true →
      env.build e.path a = false →
      (insertMissingDependencies env st.entries
          (if env.missing e.path a ≠ [] then env.missing e.path a else [])
          st.idx st.completedNames).2 = [] →
      engineRun env ia (fuel + 1) st =
        engineRun env ia fuel
          { st with idx := st.idx + 1
                    attempts := natSet st.attempts e.path (a + 1)
                    trace := st.trace ++ [.buildFailedFinal e.name] }) := by
  constructor
  · exact fun env completed idx deps entries hz =>
      insertMissingDependencies_nil_eq env completed idx deps entries hz
  · intro env ia fuel st h e a hget hatt hpath hbuild hz
    rw [engineRun_step, dif_pos h]
    simp only [hget, hatt]
    rw [if_neg (by simp [hpath])]
    rw [if_pos (by simp [hbuild])]
    have hr : insertMissingDependencies env st.entries
        (if env.missing e.path a ≠ [] then env.missing e.path a else [])
        st.idx st.completedNames = (st.entries, []) := by
      have h1 := insertMissingDependencies_nil_eq env st.completedNames st.idx
        (if env.missing e.path a ≠ [] then env.missing e.path a else [])
        st.entries hz
      exact Prod.ext h1 hz
    simp only [hr]
    rw [if_neg (by simp)]

/-- Witness for the amended C4: a failing build of `Y` with an empty
missing-dependency report advances the index past `Y`, leaving the queue
unchanged. -/
theorem engine_no_new_dependency_is_final_witness :
    engineRun envC4 false 1
        { entries := [yEntry], idx := 0, built := [], completedNames := [],
          attempts := [], trace := [] } =
      engineRun envC4 false 0
        { entries := [yEntry], idx := 1, built := [], completedNames := [],
          attempts := [("/w/Y", 1)], trace := [.buildFailedFinal "Y"] } :=
  engine_no_new_dependency_is_final.2 envC4 false 0
    { entries := [yEntry], idx := 0, built := [], completedNames := [],
      attempts := [], trace := [] } (by decide) yEntry 0 rfl rfl rfl rfl
    (by decide)

/-! ### The weak-connectivity series decomposition (C6) -/

theorem eraseDups_loop_mem {α : Type} [BEq α] [LawfulBEq α] :
    ∀ (as bs : List α) (x : α),
      x ∈ List.eraseDups.loop as bs ↔ x ∈ as ∨ x ∈ bs := by
  intro as
  induction as with
  | nil =>
    intro bs x
    simp [List.eraseDups.loop]
  | cons a as ih =>
    intro bs x
    simp only [List.eraseDups.loop]
    by_cases hb : a ∈ bs
    · rw [List.elem_eq_true_of_mem hb, ih]
      simp only [List.mem_cons]
      constructor
      · rintro (h | h)
        · exact Or.inl (Or.inr h)
        · exact Or.inr h
      · rintro ((rfl | h) | h)
        · exact Or.inr hb
        · exact Or.inl h
        · exact Or.inr h
    · rw [Bool.eq_false_iff.mpr
        (fun hc => hb (List.mem_of_elem_eq_true hc)), ih]
      simp only [List.mem_cons]
      constructor
      · rintro (h | rfl | h)
        · exact Or.inl (Or.inr h)
        · exact Or.inl (Or.inl rfl)
        · exact Or.inr h
      · rintro ((rfl | h) | h)
        · exact Or.inr (Or.inl rfl)
        · exact Or.inl h
        · exact Or.inr (Or.inr h)

theorem mem_eraseDups {α : Type} [BEq α] [LawfulBEq α] (l : List α) (x : α) :
    x ∈ l.eraseDups ↔ x ∈ l := by
  unfold List.eraseDups
  rw [eraseDups_loop_mem]
  simp

theorem eraseDups_loop_length {α : Type} [BEq α] :
    ∀ (as bs : List α),
      (List.eraseDups.loop as bs).length ≤ as.length + bs.length := by
  intro as
  induction as with
  | nil =>
    intro bs
    simp [List.eraseDups.loop]
  | cons a as ih =>
    intro bs
    simp only [List.eraseDups.loop]
    rcases hel : bs.elem a with _ | _
    · have := ih (a :: bs)
      simp only [List.length_cons] at this ⊢
      omega
    · have := ih bs
      simp only [List.length_cons]
      omega

theorem length_eraseDups_le {α : Type} [BEq α] (l : List α) :
    l.eraseDups.length ≤ l.length := by
  unfold List.eraseDups
  have := eraseDups_loop_length l ([] : List α)
  simpa using this

/-- The undirected neighbourhood realises exactly one undirected step
inside the induced subgraph. -/
theorem undirectedNbrs_mem (g : PackageDepGraph) (relevant : List String)
    (n m : String) (hn : n ∈ relevant) :
    m ∈ g.undirectedNbrs relevant n ↔ g.UndirStep relevant n m := by
  unfold undirectedNbrs UndirStep
  rw [mem_eraseDups]
  simp only [List.mem_append, List.mem_filter, decide_eq_true_eq,
    adjOf_mem, revOf_mem]
  constructor
  · rintro (⟨h1, h2⟩ | ⟨h1, h2⟩)
    · exact ⟨hn, h2, Or.inl h1⟩
    · exact ⟨hn, h2, Or.inr h1⟩
  · rintro ⟨-, hm, h | h⟩
    · exact Or.inl ⟨h, hm⟩
    · exact Or.inr ⟨h, hm⟩

theorem undirectedNbrs_length_le (g : PackageDepGraph)
    (relevant : List String) (n : String) :
    (g.undirectedNbrs relevant n).length ≤ 2 * g.edges.length := by
  unfold undirectedNbrs
  refine le_trans (length_eraseDups_le _) ?_
  rw [List.length_append]
  have h1 : ((g.adjOf n).filter (fun m => m ∈ relevant)).length ≤
      g.edges.length := by
    refine le_trans (List.length_filter_le _ _) ?_
    unfold adjOf
    rw [List.length_map]
    exact List.length_filter_le _ _
  have h2 : ((g.revOf n).filter (fun m => m ∈ relevant)).length ≤
      g.edges.length :=
    le_trans (List.length_filter_le _ _) (revOf_length_le g n)
  omega

theorem undirStep_symm (g : PackageDepGraph) (relevant : List String) :
    Symmetric (g.UndirStep relevant) := by
  rintro a b ⟨ha, hb, h⟩
  exact ⟨hb, ha, h.symm⟩

theorem undirReach_symm (g : PackageDepGraph) (relevant : List String)
    {a b : String} (h : g.UndirReach relevant a b) :
    g.UndirReach relevant b a :=
  Relation.ReflTransGen.symmetric (undirStep_symm g relevant) h

/-- A set closed under undirected neighbours cannot be entered by an
undirected path starting outside it, and a block whose neighbourhoods stay
inside `visited ++ Δ` captures every node undirectedly reachable from one
of its members. -/
theorem reach_into_block (g : PackageDepGraph) (relevant : List String)
    (visited Δ : List String)
    (hclosed : ∀ v ∈ visited, ∀ m ∈ g.undirectedNbrs relevant v, m ∈ visited)
    (hdis : ∀ d ∈ Δ, d ∉ visited)
    (hrel : ∀ d ∈ Δ, d ∈ relevant)
    (hblk : ∀ d ∈ Δ, ∀ m ∈ g.undirectedNbrs relevant d, m ∈ visited ++ Δ) :
    ∀ a ∈ Δ, ∀ b, g.UndirReach relevant a b → b ∈ Δ := by
  intro a ha b hr
  induction hr with
  | refl => exact ha
  | tail hac hstep ih =>
    rename_i c d
    have hc : c ∈ Δ := ih
    have hd : d ∈ g.undirectedNbrs relevant c :=
      (undirectedNbrs_mem g relevant c d (hrel c hc)).mpr hstep
    rcases List.mem_append.mp (hblk c hc d hd) with hdv | hdΔ
    · exfalso
      have hcv : c ∈ g.undirectedNbrs relevant d :=
        (undirectedNbrs_mem g relevant d c hstep.2.1).mpr
          (undirStep_symm g relevant hstep)
      exact hdis c hc (hclosed d hdv c hcv)
    · exact hdΔ

/-- The component-collection loop, given enough fuel, appends to `visited`
and `comp` one common block `Δ` of previously-unvisited relevant nodes,
all undirectedly reachable from the stack; every stack element ends up
visited, and the block's undirected neighbourhoods stay inside the final
visited list. -/
theorem componentLoop_spec (g : PackageDepGraph) (relevant : List String) :
    ∀ (fuel : Nat) (stack visited comp : List String),
      (∀ s ∈ stack, s ∈ relevant) →
      (relevant.filter (fun m => m ∉ visited)).length *
          (2 * g.edges.length + 2) + stack.length ≤ fuel →
      ∃ Δ,
        componentLoop g relevant fuel stack visited comp =
            (visited ++ Δ, comp ++ Δ) ∧
          (∀ m ∈ Δ, m ∉ visited ∧ m ∈ relevant ∧
            ∃ s ∈ stack, g.UndirReach relevant s m) ∧
          (∀ s ∈ stack, s ∈ visited ++ Δ) ∧
          (∀ d ∈ Δ, ∀ m ∈ g.undirectedNbrs relevant d, m ∈ visited ++ Δ) ∧
          Δ.Nodup := by
  intro fuel
  induction fuel with
  | zero =>
    intro stack visited comp hrel hfuel
    have hstack : stack = [] := by
      rcases stack with _ | ⟨s, ss⟩
      · rfl
      · exfalso
        simp only [List.length_cons] at hfuel
        omega
    subst hstack
    exact ⟨[], by simp [componentLoop], by simp, by simp, by simp,
      List.nodup_nil⟩
  | succ fuel ih =>
    intro stack visited comp hrel hfuel
    rcases stack with _ | ⟨cur, rest⟩
    · exact ⟨[], by simp [componentLoop], by simp, by simp, by simp,
        List.nodup_nil⟩
    · have hcurrel : cur ∈ relevant := hrel cur (List.mem_cons_self _ _)
      by_cases hv : cur ∈ visited
      · obtain ⟨Δ, heq, hmem, hstk, hcl, hnd⟩ := ih rest visited comp
          (fun s hs => hrel s (List.mem_cons_of_mem _ hs))
          (by simp only [List.length_cons] at hfuel; omega)
        refine ⟨Δ, ?_, ?_, ?_, hcl, hnd⟩
        · simp only [componentLoop, if_pos hv]
          exact heq
        · intro m hm
          obtain ⟨h1, h2, s, hs, hr⟩ := hmem m hm
          exact ⟨h1, h2, s, List.mem_cons_of_mem _ hs, hr⟩
        · intro s hs
          rcases List.mem_cons.mp hs with rfl | hs
          · exact List.mem_append.mpr (Or.inl hv)
          · exact hstk s hs
      · have hrel' : ∀ s ∈ ((g.undirectedNbrs relevant cur).filter
            (fun m => m ∉ visited)) ++ rest, s ∈ relevant := by
          intro s hs
          rcases List.mem_append.mp hs with hsn | hsr
          · have hsnb : s ∈ g.undirectedNbrs relevant cur :=
              (List.mem_filter.mp hsn).1
            exact ((undirectedNbrs_mem g relevant cur s hcurrel).mp hsnb).2.1
          · exact hrel s (List.mem_cons_of_mem _ hsr)
        have hnbrsle : ((g.undirectedNbrs relevant cur).filter
            (fun m => m ∉ visited)).length ≤ 2 * g.edges.length :=
          le_trans (List.length_filter_le _ _)
            (undirectedNbrs_length_le g relevant cur)
        have hUdec : (relevant.filter
              (fun m => m ∉ visited ++ [cur])).length + 1 ≤
            (relevant.filter (fun m => m ∉ visited)).length := by
          have hfeq : relevant.filter (fun m => m ∉ visited ++ [cur]) =
              (relevant.filter (fun m => m ∉ visited)).filter
                (fun m => m ≠ cur) := by
            rw [List.filter_filter]
            refine (List.filter_congr ?_).symm
            intro a _
            by_cases h1 : a = cur <;> by_cases h2 : a ∈ visited <;>
              simp [h1, h2, List.mem_append]
          have hcurm : cur ∈ relevant.filter (fun m => m ∉ visited) :=
            List.mem_filter.mpr ⟨hcurrel, by simpa using hv⟩
          have hlt : ((relevant.filter (fun m => m ∉ visited)).filter
                (fun m => m ≠ cur)).length <
              (relevant.filter (fun m => m ∉ visited)).length :=
            List.length_filter_lt_length_iff_exists.mpr
              ⟨cur, hcurm, by simp⟩
          rw [hfeq]
          omega
        have hfuel' : (relevant.filter
              (fun m => m ∉ visited ++ [cur])).length *
              (2 * g.edges.length + 2) +
            (((g.undirectedNbrs relevant cur).filter
              (fun m => m ∉ visited)) ++ rest).length ≤ fuel := by
          have hmul := Nat.mul_le_mul_right (2 * g.edges.length + 2) hUdec
          rw [Nat.add_mul, one_mul] at hmul
          rw [List.length_append]
          simp only [List.length_cons] at hfuel
          generalize (relevant.filter
              (fun m => m ∉ visited ++ [cur])).length *
              (2 * g.edges.length + 2) = X at hmul ⊢
          generalize (relevant.filter (fun m => m ∉ visited)).length *
              (2 * g.edges.length + 2) = Y at hmul hfuel
          omega
        obtain ⟨Δ', heq, hmem, hstk, hcl, hnd⟩ := ih
          (((g.undirectedNbrs relevant cur).filter
            (fun m => m ∉ visited)) ++ rest)
          (visited ++ [cur]) (comp ++ [cur]) hrel' hfuel'
        refine ⟨cur :: Δ', ?_, ?_, ?_, ?_, ?_⟩
        · simp only [componentLoop, if_neg hv]
          rw [heq]
          simp [List.append_assoc]
        · intro m hm
          rcases List.mem_cons.mp hm with rfl | hm
          · exact ⟨hv, hcurrel, m, List.mem_cons_self _ _,
              Relation.ReflTransGen.refl⟩
          · obtain ⟨hnv, hrelm, s, hs, hreach⟩ := hmem m hm
            refine ⟨fun hc => hnv (List.mem_append.mpr (Or.inl hc)),
              hrelm, ?_⟩
            rcases List.mem_append.mp hs with hsn | hsr
            · have hsnb : s ∈ g.undirectedNbrs relevant cur :=
                (List.mem_filter.mp hsn).1
              have hstep : g.UndirStep relevant cur s :=
                (undirectedNbrs_mem g relevant cur s hcurrel).mp hsnb
              exact ⟨cur, List.mem_cons_self _ _,
                Relation.ReflTransGen.head hstep hreach⟩
            · exact ⟨s, List.mem_cons_of_mem _ hsr, hreach⟩
        · intro s hs
          rcases List.mem_cons.mp hs with rfl | hs
          · exact List.mem_append.mpr (Or.inr (List.mem_cons_self _ _))
          · have hmem2 := hstk s (List.mem_append.mpr (Or.inr hs))
            simp only [List.mem_append, List.mem_cons] at hmem2 ⊢
            tauto
        · intro d hd m hm
          rcases List.mem_cons.mp hd with rfl | hd
          · by_cases hmv : m ∈ visited
            · exact List.mem_append.mpr (Or.inl hmv)
            · have hmf : m ∈ (g.undirectedNbrs relevant d).filter
                  (fun x => x ∉ visited) :=
                List.mem_filter.mpr ⟨hm, by simpa using hmv⟩
              have hmem2 := hstk m (List.mem_append.mpr (Or.inl hmf))
              simp only [List.mem_append, List.mem_cons] at hmem2 ⊢
              tauto
          · have hmem2 := hcl d hd m hm
            simp only [List.mem_append, List.mem_cons] at hmem2 ⊢
            tauto
        · refine List.nodup_cons.mpr ⟨?_, hnd⟩
          intro hc
          obtain ⟨hnv, -, -⟩ := hmem cur hc
          exact hnv (List.mem_append.mpr (Or.inr (List.mem_cons_self _ _)))

/-- The fuel allotted to one component exploration covers the worst case. -/
theorem componentFuel_suffices (g : PackageDepGraph)
    (relevant visited : List String) :
    (relevant.filter (fun m => m ∉ visited)).length *
        (2 * g.edges.length + 2) + 1 ≤ componentFuel g relevant := by
  unfold componentFuel
  have hU : (relevant.filter (fun m => m ∉ visited)).length ≤
      relevant.length := List.length_filter_le _ _
  have h1 := Nat.mul_le_mul_right (2 * g.edges.length + 2) hU
  have h2 := Nat.mul_le_mul_left relevant.length
    (show 2 * g.edges.length + 2 ≤ 2 * g.edges.length + relevant.length + 2
      by omega)
  have h3 : (relevant.length + 1) *
      (2 * g.edges.length + relevant.length + 2) =
      relevant.length * (2 * g.edges.length + relevant.length + 2) +
        (2 * g.edges.length + relevant.length + 2) := by
    rw [Nat.add_mul, one_mul]
  generalize (relevant.filter (fun m => m ∉ visited)).length *
      (2 * g.edges.length + 2) = A at h1 ⊢
  generalize relevant.length * (2 * g.edges.length + 2) = B at h1 h2
  generalize relevant.length *
      (2 * g.edges.length + relevant.length + 2) = C at h2 h3
  generalize (relevant.length + 1) *
      (2 * g.edges.length + relevant.length + 2) = D at h3 ⊢
  omega

/-- The outer component loop appends, for each unvisited seed, the sorted
node list of that seed's weakly-connected component; it covers every seed,
and distinct components are disjoint. -/
theorem collectComponents_spec (g : PackageDepGraph) (relevant : List String) :
    ∀ (rest visited : List String) (series : List (List String)),
      (∀ s ∈ rest, s ∈ relevant) →
      (∀ v ∈ visited, ∀ m ∈ g.undirectedNbrs relevant v, m ∈ visited) →
      ∃ comps,
        collectComponents g relevant rest visited series = series ++ comps ∧
          (∀ comp ∈ comps, comp ≠ [] ∧
            comp.Pairwise (fun a b =>
              relevant.indexOf a ≤ relevant.indexOf b) ∧
            comp.Nodup ∧
            (∀ m ∈ comp, m ∈ relevant ∧ m ∉ visited) ∧
            (∀ a ∈ comp, ∀ b, b ∈ comp ↔
              b ∈ relevant ∧ g.UndirReach relevant a b)) ∧
          (∀ s ∈ rest, s ∈ visited ∨ ∃ comp ∈ comps, s ∈ comp) ∧
          List.Pairwise (fun c₁ c₂ => ∀ x ∈ c₁, x ∉ c₂) comps := by
  intro rest
  induction rest with
  | nil =>
    intro visited series _ _
    exact ⟨[], by simp [collectComponents], by simp, by simp, by simp⟩
  | cons n rest ih =>
    intro visited series hrel hclosed
    have hnrel : n ∈ relevant := hrel n (List.mem_cons_self _ _)
    by_cases hv : n ∈ visited
    · obtain ⟨comps, heq, hprops, hcover, hdisj⟩ := ih visited series
        (fun s hs => hrel s (List.mem_cons_of_mem _ hs)) hclosed
      refine ⟨comps, ?_, hprops, ?_, hdisj⟩
      · simp only [collectComponents, if_pos hv]
        exact heq
      · intro s hs
        rcases List.mem_cons.mp hs with rfl | hs
        · exact Or.inl hv
        · exact hcover s hs
    · obtain ⟨Δ, heqloop, hmem, hstk, hcl, hnd⟩ :=
        componentLoop_spec g relevant (componentFuel g relevant) [n]
          visited []
          (by intro s hs; rw [List.mem_singleton] at hs; exact hs ▸ hnrel)
          (by
            have := componentFuel_suffices g relevant visited
            simpa using this)
      have hnΔ : n ∈ Δ := by
        rcases List.mem_append.mp (hstk n (List.mem_singleton.mpr rfl))
            with h | h
        · exact absurd h hv
        · exact h
      have hΔdis : ∀ d ∈ Δ, d ∉ visited := fun d hd => (hmem d hd).1
      have hΔrel : ∀ d ∈ Δ, d ∈ relevant := fun d hd => (hmem d hd).2.1
      have hreachn : ∀ m ∈ Δ, g.UndirReach relevant n m := by
        intro m hm
        obtain ⟨-, -, s, hs, hr⟩ := hmem m hm
        rw [List.mem_singleton] at hs
        exact hs ▸ hr
      have hblock := reach_into_block g relevant visited Δ hclosed hΔdis
        hΔrel hcl
      obtain ⟨comps', heq', hprops', hcover', hdisj'⟩ := ih (visited ++ Δ)
        (series ++ [sortByLe
          (fun a b => relevant.indexOf a ≤ relevant.indexOf b) Δ])
        (fun s hs => hrel s (List.mem_cons_of_mem _ hs))
        (by
          intro v hvm m hm
          rcases List.mem_append.mp hvm with h | h
          · exact List.mem_append.mpr (Or.inl (hclosed v h m hm))
          · exact hcl v h m hm)
      have hsortmem : ∀ x, x ∈ sortByLe
          (fun a b => relevant.indexOf a ≤ relevant.indexOf b) Δ ↔ x ∈ Δ :=
        fun x => sortByLe_mem _ Δ x
      refine ⟨sortByLe
          (fun a b => relevant.indexOf a ≤ relevant.indexOf b) Δ :: comps',
        ?_, ?_, ?_, ?_⟩
      · simp only [collectComponents, if_neg hv, heqloop, List.nil_append]
        rw [heq']
        simp
      · intro comp hcomp
        rcases List.mem_cons.mp hcomp with rfl | hcomp
        · refine ⟨?_, ?_, ?_, ?_, ?_⟩
          · intro hc
            have := (hsortmem n).mpr hnΔ
            rw [hc] at this
            exact List.not_mem_nil _ this
          · refine List.Pairwise.imp ?_
              (sortByLe_sorted ?_ ?_ Δ)
            · intro a b h
              exact of_decide_eq_true h
            · intro a b h
              simp only [decide_eq_false_iff_not] at h
              simp only [decide_eq_true_eq]
              omega
            · intro a b c h₁ h₂
              simp only [decide_eq_true_eq] at h₁ h₂ ⊢
              omega
          · exact (sortByLe_perm _ Δ).symm.nodup hnd
          · intro m hm
            have hmΔ := (hsortmem m).mp hm
            exact ⟨hΔrel m hmΔ, hΔdis m hmΔ⟩
          · intro a ha b
            have haΔ := (hsortmem a).mp ha
            rw [hsortmem b]
            constructor
            · intro hbΔ
              refine ⟨hΔrel b hbΔ, ?_⟩
              exact Relation.ReflTransGen.trans
                (undirReach_symm g relevant (hreachn a haΔ)) (hreachn b hbΔ)
            · rintro ⟨-, hr⟩
              exact hblock a haΔ b hr
        · obtain ⟨h1, h2, h3, h4, h5⟩ := hprops' comp hcomp
          refine ⟨h1, h2, h3, ?_, h5⟩
          intro m hm
          obtain ⟨hmr, hmv⟩ := h4 m hm
          exact ⟨hmr, fun hc => hmv (List.mem_append.mpr (Or.inl hc))⟩
      · intro s hs
        rcases List.mem_cons.mp hs with rfl | hs
        · exact Or.inr ⟨_, List.mem_cons_self _ _, (hsortmem s).mpr hnΔ⟩
        · rcases hcover' s hs with h | ⟨comp, hcomp, hscomp⟩
          · rcases List.mem_append.mp h with h | h
            · exact Or.inl h
            · exact Or.inr ⟨_, List.mem_cons_self _ _, (hsortmem s).mpr h⟩
          · exact Or.inr ⟨comp, List.mem_cons_of_mem _ hcomp, hscomp⟩
      · refine List.pairwise_cons.mpr ⟨?_, hdisj'⟩
        intro c' hc' x hx
        intro hxc'
        have := (hprops' c' hc').2.2.2.1 x hxc'
        exact this.2 (List.mem_append.mpr (Or.inr ((hsortmem x).mp hx)))

/-- **C6.** Whenever `topo_sort` of the requested targets succeeds with a
duplicate-free order `topoAll`, `compute_series_toposort`'s series split
(1) partitions the scheduled nodes: the concatenation of the returned
series is a permutation of `topoAll`, and each series is exactly one
weakly-connected component of the induced dependency subgraph (membership
of a series is equivalent to undirected reachability from any of its
members within `topoAll`); (2) orders the nodes inside each series by
their topological index; (3) orders the series list by
`(-size, earliest topological index)`; and in particular (4) on the graph
with two disjoint dependency blocks of sizes 5 and 2 it returns exactly
the two series, the 5-node series first, each in topological order. -/
theorem seriesToposort_partition :
    (∀ (g : PackageDepGraph) (targets topoAll : List String),
      g.topoSort targets true = .ok topoAll →
      topoAll.Nodup →
      ∃ series, g.seriesToposort targets = .ok series ∧
        series.flatten.Perm topoAll ∧
        (∀ comp ∈ series, comp ≠ [] ∧
          comp.Pairwise (fun a b =>
            topoAll.indexOf a ≤ topoAll.indexOf b) ∧
          (∀ a ∈ comp, ∀ b, b ∈ comp ↔
            b ∈ topoAll ∧ g.UndirReach topoAll a b)) ∧
        series.Pairwise (fun c₁ c₂ => c₂.length < c₁.length ∨
          (c₁.length = c₂.length ∧
            topoAll.indexOf (c₁.headD "") ≤
              topoAll.indexOf (c₂.headD "")))) ∧
    twoBlocksGraph.seriesToposort ["p3", "p5", "q2"] =
      .ok [["p1", "p2", "p3", "p4", "p5"], ["q1", "q2"]] := by
  constructor
  · intro g targets topoAll htopo hndup
    by_cases hempty : topoAll = []
    · refine ⟨[], ?_, ?_, ?_, ?_⟩
      · unfold seriesToposort
        rw [htopo]
        show Except.ok (seriesFromTopo g topoAll) =
          Except.ok ([] : List (List String))
        unfold seriesFromTopo
        rw [if_pos hempty]
      · rw [hempty]
        simp
      · simp
      · simp
    · obtain ⟨comps, heqc, hprops, hcover, hdisj⟩ :=
        collectComponents_spec g topoAll topoAll [] []
          (fun s hs => hs) (by simp)
      rw [List.nil_append] at heqc
      have hflatnd : comps.flatten.Nodup := by
        rw [List.nodup_flatten]
        refine ⟨fun l hl => (hprops l hl).2.2.1, ?_⟩
        refine List.Pairwise.imp ?_ hdisj
        intro c₁ c₂ h a ha hb
        exact h a ha hb
      have hflatperm : comps.flatten.Perm topoAll := by
        rw [List.perm_ext_iff_of_nodup hflatnd hndup]
        intro a
        constructor
        · intro ha
          obtain ⟨l, hl, hal⟩ := List.mem_flatten.mp ha
          exact ((hprops l hl).2.2.2.1 a hal).1
        · intro ha
          rcases hcover a ha with h | ⟨comp, hcomp, hacomp⟩
          · exact absurd h (List.not_mem_nil _)
          · exact List.mem_flatten.mpr ⟨comp, hcomp, hacomp⟩
      refine ⟨sortByLe
          (fun c₁ c₂ => c₂.length < c₁.length ∨
            (c₁.length = c₂.length ∧
              topoAll.indexOf (c₁.headD "") ≤ topoAll.indexOf (c₂.headD "")))
          comps, ?_, ?_, ?_, ?_⟩
      · unfold seriesToposort
        rw [htopo]
        show Except.ok (seriesFromTopo g topoAll) = _
        unfold seriesFromTopo
        rw [if_neg hempty]
        rw [heqc]
      · exact ((sortByLe_perm _ comps).flatten).trans hflatperm
      · intro comp hcomp
        have hcm : comp ∈ comps := (sortByLe_mem _ comps comp).mp hcomp
        obtain ⟨h1, h2, -, -, h5⟩ := hprops comp hcm
        exact ⟨h1, h2, h5⟩
      · refine List.Pairwise.imp ?_ (sortByLe_sorted ?_ ?_ comps)
        · intro c₁ c₂ h
          exact of_decide_eq_true h
        · intro a b h
          simp only [decide_eq_false_iff_not] at h
          simp only [decide_eq_true_eq]
          push_neg at h
          rcases Nat.lt_or_ge a.length b.length with hl | hl
          · exact Or.inl hl
          · rcases Nat.lt_or_ge b.length a.length with hl2 | hl2
            · exact Or.inr ⟨by omega, by
                have := h.2 (by omega)
                omega⟩
            · exact Or.inr ⟨by omega, by
                have := h.2 (by omega)
                omega⟩
        · intro a b c h₁ h₂
          simp only [decide_eq_true_eq] at h₁ h₂ ⊢
          omega
  · rfl

/-- Witness for C6: the partition property applied to the two-block
scenario graph, whose topological order is
`[p1, p2, p3, p4, p5, q1, q2]`. -/
theorem seriesToposort_partition_witness :
    ∃ series, twoBlocksGraph.seriesToposort ["p3", "p5", "q2"] = .ok series ∧
      series.flatten.Perm ["p1", "p2", "p3", "p4", "p5", "q1", "q2"] ∧
      (∀ comp ∈ series, comp ≠ [] ∧
        comp.Pairwise (fun a b =>
          (["p1", "p2", "p3", "p4", "p5", "q1", "q2"] : List String).indexOf a ≤
            (["p1", "p2", "p3", "p4", "p5", "q1", "q2"] : List String).indexOf b) ∧
        (∀ a ∈ comp, ∀ b, b ∈ comp ↔
          b ∈ (["p1", "p2", "p3", "p4", "p5", "q1", "q2"] : List String) ∧
            twoBlocksGraph.UndirReach
              ["p1", "p2", "p3", "p4", "p5", "q1", "q2"] a b)) ∧
      series.Pairwise (fun c₁ c₂ => c₂.length < c₁.length ∨
        (c₁.length = c₂.length ∧
          (["p1", "p2", "p3", "p4", "p5", "q1", "q2"] : List String).indexOf
              (c₁.headD "") ≤
            (["p1", "p2", "p3", "p4", "p5", "q1", "q2"] : List String).indexOf
              (c₂.headD ""))) :=
  seriesToposort_partition.1 twoBlocksGraph ["p3", "p5", "q2"]
    ["p1", "p2", "p3", "p4", "p5", "q1", "q2"] rfl (by decide)

/-! ### The persistent queue store (C2, C8) -/

theorem lookup_map_pair {β : Type} (f : String → β) :
    ∀ (l : List String) (q : String),
      (q ∈ l → (l.map (fun p => (p, f p))).lookup q = some (f q)) ∧
      (q ∉ l → (l.map (fun p => (p, f p))).lookup q = none) := by
  intro l
  induction l with
  | nil => intro q; exact ⟨fun h => absurd h (List.not_mem_nil _), fun _ => rfl⟩
  | cons a l ih =>
    intro q
    constructor
    · intro hq
      by_cases hqa : q = a
      · subst hqa
        simp [List.lookup]
      · have : q ∈ l := by
          rcases List.mem_cons.mp hq with h | h
          · exact absurd h hqa
          · exact h
        simp only [List.map_cons, List.lookup, beq_eq_false_iff_ne.mpr hqa]
        exact (ih q).1 this
    · intro hq
      have hqa : q ≠ a := fun h => hq (h ▸ List.mem_cons_self _ _)
      have hql : q ∉ l := fun h => hq (List.mem_cons_of_mem _ h)
      simp only [List.map_cons, List.lookup, beq_eq_false_iff_ne.mpr hqa]
      exact (ih q).2 hql

/-- `taskKey` ignores the display name. -/
theorem taskKey_display (t : BuildTask) (x : String) :
    taskKey { t with displayName := x } = taskKey t := rfl

/-- The dedup pass of `save_queue`: every surviving task is stamped with
its package name, carries the data of some input task, and the surviving
`(package, kind)` keys are exactly the input keys not already seen, each
kept once. -/
theorem dedupTasks_spec :
    ∀ (ts : List BuildTask) (seen : List (String × String)),
      (∀ t ∈ dedupTasks ts seen, t.displayName = (taskKey t).1 ∧
        taskKey t ∉ seen ∧
        ∃ t₀ ∈ ts, t.path = t₀.path ∧ t.kind = t₀.kind ∧
          t.extraArgs = t₀.extraArgs) ∧
      ((dedupTasks ts seen).map taskKey).Nodup ∧
      (∀ k, (∃ t ∈ dedupTasks ts seen, taskKey t = k) ↔
        (k ∉ seen ∧ ∃ t ∈ ts, taskKey t = k)) := by
  intro ts
  induction ts with
  | nil =>
    intro seen
    refine ⟨by simp [dedupTasks], by simp [dedupTasks], ?_⟩
    intro k
    simp [dedupTasks]
  | cons t ts ih =>
    intro seen
    by_cases hk : taskKey t ∈ seen
    · obtain ⟨p1, p2, p3⟩ := ih seen
      refine ⟨?_, ?_, ?_⟩
      · intro u hu
        rw [dedupTasks, if_pos hk] at hu
        obtain ⟨q1, q2, t₀, ht₀, q3⟩ := p1 u hu
        exact ⟨q1, q2, t₀, List.mem_cons_of_mem _ ht₀, q3⟩
      · rw [dedupTasks, if_pos hk]
        exact p2
      · intro k
        rw [dedupTasks, if_pos hk]
        rw [p3 k]
        constructor
        · rintro ⟨h1, u, hu, h2⟩
          exact ⟨h1, u, List.mem_cons_of_mem _ hu, h2⟩
        · rintro ⟨h1, u, hu, h2⟩
          rcases List.mem_cons.mp hu with rfl | hu
          · exact absurd (h2 ▸ hk) h1
          · exact ⟨h1, u, hu, h2⟩
    · obtain ⟨p1, p2, p3⟩ := ih (seen ++ [taskKey t])
      refine ⟨?_, ?_, ?_⟩
      · intro u hu
        rw [dedupTasks, if_neg hk] at hu
        rcases List.mem_cons.mp hu with rfl | hu
        · exact ⟨rfl, by rw [taskKey_display]; exact hk,
            t, List.mem_cons_self _ _, rfl, rfl, rfl⟩
        · obtain ⟨q1, q2, t₀, ht₀, q3⟩ := p1 u hu
          exact ⟨q1, fun hc => q2 (List.mem_append.mpr (Or.inl hc)),
            t₀, List.mem_cons_of_mem _ ht₀, q3⟩
      · rw [dedupTasks, if_neg hk]
        rw [List.map_cons]
        refine List.nodup_cons.mpr ⟨?_, p2⟩
        intro hc
        obtain ⟨u, hu, h2⟩ := List.mem_map.mp hc
        have := (p1 u hu).2.1
        rw [h2, taskKey_display] at this
        exact this (List.mem_append.mpr (Or.inr (List.mem_singleton.mpr rfl)))
      · intro k
        rw [dedupTasks, if_neg hk]
        constructor
        · rintro ⟨u, hu, h2⟩
          rcases List.mem_cons.mp hu with rfl | hu
          · rw [taskKey_display] at h2
            exact ⟨h2 ▸ hk, t, List.mem_cons_self _ _, h2⟩
          · obtain ⟨h1, u', hu', h3⟩ := (p3 k).mp ⟨u, hu, h2⟩
            exact ⟨fun hc => h1 (List.mem_append.mpr (Or.inl hc)),
              u', List.mem_cons_of_mem _ hu', h3⟩
        · rintro ⟨h1, u, hu, h2⟩
          rcases List.mem_cons.mp hu with rfl | hu
          · exact ⟨{ u with displayName := (taskKey u).1 },
              List.mem_cons_self _ _, by rw [taskKey_display]; exact h2⟩
          · by_cases hks : k = taskKey t
            · exact ⟨{ t with displayName := (taskKey t).1 },
                List.mem_cons_self _ _, by rw [taskKey_display]; exact hks.symm⟩
            · obtain ⟨u', hu', h3⟩ := (p3 k).mpr
                ⟨by
                  intro hc
                  rcases List.mem_append.mp hc with h | h
                  · exact h1 h
                  · exact hks (List.mem_singleton.mp h),
                  u, hu, h2⟩
              exact ⟨u', List.mem_cons_of_mem _ hu', h3⟩

/-- The package-order recomputation of `save_queue`: membership is the
union of the previous order and the task package names, and
duplicate-freeness is preserved. -/
theorem orderFold_spec :
    ∀ (ts : List BuildTask) (order0 : List String),
      (∀ p, p ∈ ts.foldl
          (fun order t =>
            if pathName t.path ∈ order then order
            else order ++ [pathName t.path]) order0 ↔
        (p ∈ order0 ∨ ∃ t ∈ ts, pathName t.path = p)) ∧
      (order0.Nodup → (ts.foldl
          (fun order t =>
            if pathName t.path ∈ order then order
            else order ++ [pathName t.path]) order0).Nodup) := by
  intro ts
  induction ts with
  | nil =>
    intro order0
    refine ⟨fun p => ?_, fun h => h⟩
    simp
  | cons t ts ih =>
    intro order0
    simp only [List.foldl_cons]
    by_cases hmem : pathName t.path ∈ order0
    · rw [if_pos hmem]
      obtain ⟨m1, m2⟩ := ih order0
      refine ⟨fun p => ?_, m2⟩
      rw [m1 p]
      constructor
      · rintro (h | ⟨u, hu, h⟩)
        · exact Or.inl h
        · exact Or.inr ⟨u, List.mem_cons_of_mem _ hu, h⟩
      · rintro (h | ⟨u, hu, h⟩)
        · exact Or.inl h
        · rcases List.mem_cons.mp hu with rfl | hu
          · exact Or.inl (h ▸ hmem)
          · exact Or.inr ⟨u, hu, h⟩
    · rw [if_neg hmem]
      obtain ⟨m1, m2⟩ := ih (order0 ++ [pathName t.path])
      refine ⟨fun p => ?_, fun hnd => m2 ?_⟩
      · rw [m1 p]
        simp only [List.mem_append, List.mem_singleton]
        constructor
        · rintro ((h | h) | ⟨u, hu, h⟩)
          · exact Or.inl h
          · exact Or.inr ⟨t, List.mem_cons_self _ _, h.symm⟩
          · exact Or.inr ⟨u, List.mem_cons_of_mem _ hu, h⟩
        · rintro (h | ⟨u, hu, h⟩)
          · exact Or.inl (Or.inl h)
          · rcases List.mem_cons.mp hu with rfl | hu
            · exact Or.inl (Or.inr h.symm)
            · exact Or.inr ⟨u, hu, h⟩
      · rw [List.nodup_append]
        exact ⟨hnd, List.nodup_singleton _,
          fun a ha hb => hmem ((List.mem_singleton.mp hb) ▸ ha)⟩

/-- One parsed line of a freshly written queue file registers exactly its
package with its persisted flag. -/
theorem loadLineStep_written (P0 : List String) (S0 : List (String × Bool))
    (lm : List (String × MetaEntry)) (p : String) (b : Bool)
    (hplain : PlainName p) (hP0 : p ∉ P0) (hS0 : S0.lookup p = none) :
    loadLineStep { packages := P0, status := S0, legacyMeta := lm }
        (.bare (p ++ (if b then "#" else ""))) =
      { packages := P0 ++ [p], status := S0 ++ [(p, b)], legacyMeta := lm } := by
  obtain ⟨hne, happ0, hne2, htrim, htrim2, hew1, hew2, hdrop, hpath⟩ := hplain
  rcases b with _ | _
  · rw [if_neg (by simp), loadLineStep]
    simp [happ0, htrim, hne, hew1, hpath, hS0, hP0, statusSet]
  · rw [if_pos rfl, loadLineStep]
    simp [htrim2, hne2, hew2, hdrop, htrim, hne, hpath, hS0, hP0, statusSet]

/-- Parsing the lines written by `_write_queue_file` recovers the package
order and the persisted flags, and registers no legacy records. -/
theorem parse_written_aux (status : List (String × Bool)) :
    ∀ (pkgs P0 : List String) (S0 : List (String × Bool))
      (lm : List (String × MetaEntry)),
      (∀ p ∈ pkgs, PlainName p) →
      (∀ p ∈ pkgs, p ∉ P0) →
      (∀ p ∈ pkgs, S0.lookup p = none) →
      pkgs.Nodup →
      (writeQueueFile pkgs status).foldl loadLineStep
          { packages := P0, status := S0, legacyMeta := lm } =
        { packages := P0 ++ pkgs,
          status := S0 ++ pkgs.map
            (fun p => (p, (status.lookup p).getD false)),
          legacyMeta := lm } := by
  intro pkgs
  induction pkgs with
  | nil =>
    intro P0 S0 lm _ _ _ _
    simp [writeQueueFile]
  | cons p ps ih =>
    intro P0 S0 lm hplain hP0 hS0 hnd
    have hstep := loadLineStep_written P0 S0 lm p
      ((status.lookup p).getD false) (hplain p (List.mem_cons_self _ _))
      (hP0 p (List.mem_cons_self _ _)) (hS0 p (List.mem_cons_self _ _))
    have hps : ∀ q ∈ ps, q ≠ p := by
      intro q hq
      rcases List.nodup_cons.mp hnd with ⟨hp, -⟩
      exact fun hc => hp (hc ▸ hq)
    have hrec := ih (P0 ++ [p])
      (S0 ++ [(p, (status.lookup p).getD false)]) lm
      (fun q hq => hplain q (List.mem_cons_of_mem _ hq))
      (by
        intro q hq
        simp only [List.mem_append, List.mem_singleton]
        rintro (h | h)
        · exact hP0 q (List.mem_cons_of_mem _ hq) h
        · exact hps q hq h)
      (by
        intro q hq
        rw [lookup_append_single_other S0 p q
          ((status.lookup p).getD false) (hps q hq)]
        exact hS0 q (List.mem_cons_of_mem _ hq))
      (List.nodup_cons.mp hnd).2
    show (writeQueueFile (p :: ps) status).foldl loadLineStep _ = _
    rw [show writeQueueFile (p :: ps) status =
        .bare (p ++ (if (status.lookup p).getD false then "#" else "")) ::
          writeQueueFile ps status from rfl]
    rw [List.foldl_cons, hstep, hrec]
    simp

/-- The key list of a `metaSet` update. -/
theorem metaSet_keys (m : List (String × MetaEntry)) (k : String)
    (v : MetaEntry) :
    (metaSet m k v).map (·.1) =
      if m.lookup k = none then m.map (·.1) ++ [k] else m.map (·.1) := by
  unfold metaSet
  by_cases h : m.lookup k = none
  · rw [if_pos h, if_pos h]
    simp
  · rw [if_neg h, if_neg h, List.map_map]
    refine List.map_congr_left ?_
    intro p _
    by_cases hp : p.1 = k <;> simp [hp]

/-- A successful lookup yields an actual pair of the list. -/
theorem lookup_mem_pair {β : Type} (m : List (String × β)) (k : String)
    (v : β) (h : m.lookup k = some v) : (k, v) ∈ m := by
  induction m with
  | nil => cases h
  | cons a m ih =>
    obtain ⟨a1, a2⟩ := a
    cases hbe : (k == a1)
    · simp only [List.lookup, hbe] at h
      exact List.mem_cons_of_mem _ (ih h)
    · have hk : k = a1 := by simpa using hbe
      simp only [List.lookup, hbe] at h
      obtain rfl := Option.some.inj h
      subst hk
      exact List.mem_cons_self _ _

/-- The metadata writer groups the task list by display name: the written
keys are exactly the task names without duplicates, and each entry's kind
map holds exactly the kind/extra-args pairs of the tasks carrying that
name. -/
theorem writeMetaFromTasks_aux :
    ∀ (rest done : List BuildTask) (m : List (String × MetaEntry)),
      ((done ++ rest).map taskKey).Nodup →
      (∀ t ∈ done ++ rest, t.displayName = (taskKey t).1) →
      (m.map (·.1)).Nodup →
      (∀ p, (m.lookup p ≠ none) ↔ ∃ t ∈ done, t.displayName = p) →
      (∀ p e, m.lookup p = some e →
        (e.kinds ≠ [] ∧ ∀ k ex, ((k, ex) ∈ e.kinds ↔
          ∃ t ∈ done, t.displayName = p ∧ t.kind = k ∧ t.extraArgs = ex))) →
      ((rest.foldl
          (fun meta t =>
            let existing := (meta.lookup t.displayName).getD
              { path := t.path, kinds := [] }
            metaSet meta t.displayName
              { path := t.path,
                kinds := kindsSet existing.kinds t.kind t.extraArgs }) m).map
          (·.1)).Nodup ∧
      (∀ p, ((rest.foldl
          (fun meta t =>
            let existing := (meta.lookup t.displayName).getD
              { path := t.path, kinds := [] }
            metaSet meta t.displayName
              { path := t.path,
                kinds := kindsSet existing.kinds t.kind t.extraArgs }) m).lookup
            p ≠ none) ↔ ∃ t ∈ done ++ rest, t.displayName = p) ∧
      (∀ p e, (rest.foldl
          (fun meta t =>
            let existing := (meta.lookup t.displayName).getD
              { path := t.path, kinds := [] }
            metaSet meta t.displayName
              { path := t.path,
                kinds := kindsSet existing.kinds t.kind t.extraArgs }) m).lookup
            p = some e →
        (e.kinds ≠ [] ∧ ∀ k ex, ((k, ex) ∈ e.kinds ↔
          ∃ t ∈ done ++ rest, t.displayName = p ∧ t.kind = k ∧
            t.extraArgs = ex))) := by
  intro rest
  induction rest with
  | nil =>
    intro done m hkeys hdisp hnd hlook hkind
    simp only [List.foldl_nil]
    refine ⟨hnd, ?_, ?_⟩
    · intro p
      rw [hlook p]
      simp
    · intro p e he
      obtain ⟨h1, h2⟩ := hkind p e he
      refine ⟨h1, ?_⟩
      intro k ex
      rw [h2 k ex]
      simp
  | cons t rest ih =>
    intro done m hkeys hdisp hnd hlook hkind
    have hshift : done ++ t :: rest = (done ++ [t]) ++ rest := by simp
    have htd : t.displayName = (taskKey t).1 :=
      hdisp t (by simp)
    have hkeyfresh : taskKey t ∉ done.map taskKey := by
      intro hc
      have h2 : (done.map taskKey ++ taskKey t :: rest.map taskKey).Nodup := by
        simpa using hkeys
      obtain ⟨-, -, hdisj⟩ := List.nodup_append.mp h2
      exact hdisj hc (List.mem_cons_self _ _)
    rcases hl : m.lookup t.displayName with _ | e
    · -- the name is new: a fresh singleton entry is appended
      have hstep : List.foldl
          (fun meta t =>
            let existing := (meta.lookup t.displayName).getD
              { path := t.path, kinds := [] }
            metaSet meta t.displayName
              { path := t.path,
                kinds := kindsSet existing.kinds t.kind t.extraArgs })
          m (t :: rest) = List.foldl
          (fun meta t =>
            let existing := (meta.lookup t.displayName).getD
              { path := t.path, kinds := [] }
            metaSet meta t.displayName
              { path := t.path,
                kinds := kindsSet existing.kinds t.kind t.extraArgs })
          (m ++ [(t.displayName,
            { path := t.path, kinds := [(t.kind, t.extraArgs)] })]) rest := by
        rw [List.foldl_cons]
        congr 1
        simp only [hl, Option.getD_none]
        rw [show kindsSet [] t.kind t.extraArgs = [(t.kind, t.extraArgs)]
          from rfl]
        unfold metaSet
        rw [if_pos hl]
      have hkeyne : t.displayName ∉ m.map (·.1) := by
        intro hc
        obtain ⟨v, hv⟩ := keys_mem_lookup m t.displayName hc
        rw [hl] at hv
        cases hv
      rw [hstep, hshift]
      apply ih (done ++ [t])
      · rw [← hshift]
        exact hkeys
      · rw [← hshift]
        exact hdisp
      · simp only [List.map_append]
        rw [List.nodup_append]
        exact ⟨hnd, by simp, by
          intro a ha hb
          simp only [List.map_cons, List.map_nil, List.mem_singleton] at hb
          exact hkeyne (hb ▸ ha)⟩
      · intro p
        by_cases hp : p = t.displayName
        · subst hp
          rw [lookup_append_single_self m _ _ hl]
          simp only [ne_eq, reduceCtorEq, not_false_eq_true, true_iff]
          exact ⟨t, by simp, rfl⟩
        · rw [lookup_append_single_other m _ _ _ hp]
          rw [hlook p]
          constructor
          · rintro ⟨u, hu, h2⟩
            exact ⟨u, by simp [hu], h2⟩
          · rintro ⟨u, hu, h2⟩
            rcases List.mem_append.mp hu with hu | hu
            · exact ⟨u, hu, h2⟩
            · rw [List.mem_singleton] at hu
              subst hu
              exact absurd h2.symm hp
      · intro p e' he'
        by_cases hp : p = t.displayName
        · subst hp
          rw [lookup_append_single_self m _ _ hl] at he'
          obtain rfl := Option.some.inj he'
          refine ⟨by simp, ?_⟩
          intro k ex
          simp only [List.mem_singleton, Prod.mk.injEq]
          constructor
          · rintro ⟨rfl, rfl⟩
            exact ⟨t, by simp, rfl, rfl, rfl⟩
          · rintro ⟨u, hu, h2, h3, h4⟩
            rcases List.mem_append.mp hu with hu | hu
            · exact absurd ((hlook t.displayName).mpr ⟨u, hu, h2⟩)
                (by simp [hl])
            · rw [List.mem_singleton] at hu
              subst hu
              exact ⟨h3.symm, h4.symm⟩
        · rw [lookup_append_single_other m _ _ _ hp] at he'
          obtain ⟨h1, h2⟩ := hkind p e' he'
          refine ⟨h1, ?_⟩
          intro k ex
          rw [h2 k ex]
          constructor
          · rintro ⟨u, hu, h3⟩
            exact ⟨u, by simp [hu], h3⟩
          · rintro ⟨u, hu, h3⟩
            rcases List.mem_append.mp hu with hu | hu
            · exact ⟨u, hu, h3⟩
            · rw [List.mem_singleton] at hu
              subst hu
              exact absurd h3.1.symm hp
    · -- the name exists: its kind map is extended with a fresh kind
      have hkfresh : e.kinds.lookup t.kind = none := by
        rcases hke : e.kinds.lookup t.kind with _ | ex
        · rfl
        · exfalso
          have hmemk : (t.kind, ex) ∈ e.kinds := lookup_mem_pair _ _ _ hke
          obtain ⟨u, hu, h2, h3, -⟩ :=
            ((hkind _ e hl).2 t.kind ex).mp hmemk
          have hku : taskKey u = taskKey t := by
            have hud : u.displayName = (taskKey u).1 := hdisp u (by simp [hu])
            have h1 : taskKey u = (u.displayName, u.kind) := by
              unfold taskKey at hud ⊢
              exact pairEq hud.symm rfl
            have h1t : taskKey t = (t.displayName, t.kind) := by
              unfold taskKey at htd ⊢
              exact pairEq htd.symm rfl
            rw [h1, h1t, h2, h3]
          exact hkeyfresh (List.mem_map.mpr ⟨u, hu, hku⟩)
      have hstep : List.foldl
          (fun meta t =>
            let existing := (meta.lookup t.displayName).getD
              { path := t.path, kinds := [] }
            metaSet meta t.displayName
              { path := t.path,
                kinds := kindsSet existing.kinds t.kind t.extraArgs })
          m (t :: rest) = List.foldl
          (fun meta t =>
            let existing := (meta.lookup t.displayName).getD
              { path := t.path, kinds := [] }
            metaSet meta t.displayName
              { path := t.path,
                kinds := kindsSet existing.kinds t.kind t.extraArgs })
          (metaSet m t.displayName
            { path := t.path,
              kinds := e.kinds ++ [(t.kind, t.extraArgs)] }) rest := by
        rw [List.foldl_cons]
        congr 1
        simp only [hl, Option.getD_some]
        rw [show kindsSet e.kinds t.kind t.extraArgs =
            e.kinds ++ [(t.kind, t.extraArgs)] from by
          unfold kindsSet
          rw [if_pos hkfresh]]
      rw [hstep, hshift]
      apply ih (done ++ [t])
      · rw [← hshift]
        exact hkeys
      · rw [← hshift]
        exact hdisp
      · rw [metaSet_keys, if_neg (by simp [hl])]
        exact hnd
      · intro p
        by_cases hp : p = t.displayName
        · subst hp
          rw [metaSet_lookup_self]
          simp only [ne_eq, reduceCtorEq, not_false_eq_true, true_iff]
          exact ⟨t, by simp, rfl⟩
        · rw [metaSet_lookup_other _ _ _ _ hp]
          rw [hlook p]
          constructor
          · rintro ⟨u, hu, h2⟩
            exact ⟨u, by simp [hu], h2⟩
          · rintro ⟨u, hu, h2⟩
            rcases List.mem_append.mp hu with hu | hu
            · exact ⟨u, hu, h2⟩
            · rw [List.mem_singleton] at hu
              subst hu
              exact absurd h2.symm hp
      · intro p e' he'
        by_cases hp : p = t.displayName
        · subst hp
          rw [metaSet_lookup_self] at he'
          obtain rfl := Option.some.inj he'
          refine ⟨by simp, ?_⟩
          intro k ex
          simp only [List.mem_append, List.mem_singleton, Prod.mk.injEq]
          constructor
          · rintro (hmem | ⟨rfl, rfl⟩)
            · obtain ⟨u, hu, h2⟩ := ((hkind _ e hl).2 k ex).mp hmem
              exact ⟨u, by simp [hu], h2⟩
            · exact ⟨t, by simp, rfl, rfl, rfl⟩
          · rintro ⟨u, hu, h2, h3, h4⟩
            rcases hu with hu | rfl
            · exact Or.inl (((hkind _ e hl).2 k ex).mpr ⟨u, hu, h2, h3, h4⟩)
            · exact Or.inr ⟨h3.symm, h4.symm⟩
        · rw [metaSet_lookup_other _ _ _ _ hp] at he'
          obtain ⟨h1, h2⟩ := hkind p e' he'
          refine ⟨h1, ?_⟩
          intro k ex
          rw [h2 k ex]
          constructor
          · rintro ⟨u, hu, h3⟩
            exact ⟨u, by simp [hu], h3⟩
          · rintro ⟨u, hu, h3⟩
            rcases List.mem_append.mp hu with hu | hu
            · exact ⟨u, hu, h3⟩
            · rw [List.mem_singleton] at hu
              subst hu
              exact absurd h3.1.symm hp

/-- The metadata written for a deduplicated task list groups exactly its
tasks by name. -/
theorem writeMetaFromTasks_spec (TS : List BuildTask)
    (hkeys : (TS.map taskKey).Nodup)
    (hdisp : ∀ t ∈ TS, t.displayName = (taskKey t).1) :
    ((writeMetaFromTasks TS).map (·.1)).Nodup ∧
    (∀ p, ((writeMetaFromTasks TS).lookup p ≠ none) ↔
      ∃ t ∈ TS, t.displayName = p) ∧
    (∀ p e, (writeMetaFromTasks TS).lookup p = some e →
      (e.kinds ≠ [] ∧ ∀ k ex, ((k, ex) ∈ e.kinds ↔
        ∃ t ∈ TS, t.displayName = p ∧ t.kind = k ∧ t.extraArgs = ex))) := by
  unfold writeMetaFromTasks
  have h := writeMetaFromTasks_aux TS [] []
    (by simpa using hkeys) (by simpa using hdisp) (by simp)
    (by simp) (by simp)
  obtain ⟨h1, h2, h3⟩ := h
  refine ⟨h1, ?_, ?_⟩
  · intro p
    rw [h2 p]
    simp
  · intro p e he
    obtain ⟨g1, g2⟩ := h3 p e he
    refine ⟨g1, ?_⟩
    intro k ex
    rw [g2 k ex]
    simp

/-- `normalizeMeta` is the identity on a map whose keys are distinct,
non-empty basenames — in particular on the metadata `save_queue` itself
writes. -/
theorem normalizeMeta_aux :
    ∀ (rest pre : List (String × MetaEntry)),
      ((pre ++ rest).map (·.1)).Nodup →
      (∀ kv ∈ rest, pathName kv.1 = kv.1 ∧ kv.1 ≠ "") →
      rest.foldl
        (fun acc kv =>
          let newKey := pathName kv.1
          if newKey = "" then acc
          else
            match acc.lookup newKey with
            | some existing =>
              metaSet acc newKey
                { path := if kv.2.path ≠ "" ∧ existing.path = "" then kv.2.path
                          else existing.path
                  kinds := kv.2.kinds.foldl (fun ks p => kindsSet ks p.1 p.2)
                    existing.kinds }
            | none => acc ++ [(newKey, kv.2)]) pre = pre ++ rest := by
  intro rest
  induction rest with
  | nil =>
    intro pre _ _
    simp
  | cons kv rest ih =>
    intro pre hnd hplain
    obtain ⟨hpath, hne⟩ := hplain kv (List.mem_cons_self _ _)
    have hkey : kv.1 ∉ pre.map (·.1) := by
      intro hc
      have : ((pre.map (·.1)) ++ kv.1 :: rest.map (·.1)).Nodup := by
        simpa using hnd
      obtain ⟨-, -, hdisj⟩ := List.nodup_append.mp this
      exact hdisj hc (List.mem_cons_self _ _)
    have hlk : pre.lookup kv.1 = none := by
      rcases hl : pre.lookup kv.1 with _ | v
      · rfl
      · exact absurd (lookup_mem_keys pre kv.1 v hl) hkey
    have hstep : List.foldl
        (fun acc kv =>
          let newKey := pathName kv.1
          if newKey = "" then acc
          else
            match acc.lookup newKey with
            | some existing =>
              metaSet acc newKey
                { path := if kv.2.path ≠ "" ∧ existing.path = "" then kv.2.path
                          else existing.path
                  kinds := kv.2.kinds.foldl (fun ks p => kindsSet ks p.1 p.2)
                    existing.kinds }
            | none => acc ++ [(newKey, kv.2)]) pre (kv :: rest) = List.foldl
        (fun acc kv =>
          let newKey := pathName kv.1
          if newKey = "" then acc
          else
            match acc.lookup newKey with
            | some existing =>
              metaSet acc newKey
                { path := if kv.2.path ≠ "" ∧ existing.path = "" then kv.2.path
                          else existing.path
                  kinds := kv.2.kinds.foldl (fun ks p => kindsSet ks p.1 p.2)
                    existing.kinds }
            | none => acc ++ [(newKey, kv.2)]) (pre ++ [kv]) rest := by
      rw [List.foldl_cons]
      congr 1
      simp only [hpath]
      rw [if_neg hne]
      rw [hlk]
    rw [hstep]
    have := ih (pre ++ [kv]) (by simpa using hnd)
      (fun u hu => hplain u (List.mem_cons_of_mem _ hu))
    rw [this]
    simp

theorem normalizeMeta_id (m : List (String × MetaEntry))
    (hnd : (m.map (·.1)).Nodup)
    (hplain : ∀ kv ∈ m, pathName kv.1 = kv.1 ∧ kv.1 ≠ "") :
    normalizeMeta m = m := by
  unfold normalizeMeta
  have := normalizeMeta_aux m [] (by simpa using hnd) hplain
  simpa using this

/-- Tuple-level membership for the task list `load_queue_from_file`
rebuilds from the merged metadata. -/
theorem tasksFromMeta_tuples (codeDir : String)
    (meta : List (String × MetaEntry)) :
    ∀ (packages : List String) (acc : List BuildTask)
      (x : String × String × List String),
      (x ∈ taskTuples (packages.foldl
        (fun tasks pkg =>
          let info := (meta.lookup pkg).getD { path := "", kinds := [] }
          let basePath := if info.path ≠ "" then info.path
            else codeDir ++ "/" ++ pkg
          if info.kinds = [] then
            tasks ++ [{ displayName := pkg, path := basePath,
                        kind := "debian", extraArgs := [] }]
          else
            tasks ++ info.kinds.map (fun kv =>
              { displayName := pkg, path := basePath, kind := kv.1,
                extraArgs := kv.2 })) acc) ↔
        (x ∈ taskTuples acc ∨ ∃ pkg ∈ packages,
          ((tfmKinds meta pkg = [] ∧ x = (pkg, "debian", ([] : List String))) ∨
            ∃ kv ∈ tfmKinds meta pkg, x = (pkg, kv.1, kv.2)))) := by
  intro packages
  induction packages with
  | nil =>
    intro acc x
    simp
  | cons pkg packages ih =>
    intro acc x
    rw [List.foldl_cons, ih]
    dsimp only
    by_cases hk : (((meta.lookup pkg).getD { path := "", kinds := [] })).kinds
        = []
    · rw [if_pos hk]
      constructor
      · rintro (h | ⟨q, hq, h⟩)
        · rw [taskTuples, List.map_append] at h
          rcases List.mem_append.mp h with h | h
          · exact Or.inl h
          · have hx : x = (pkg, "debian", ([] : List String)) := by
              simpa using h
            exact Or.inr ⟨pkg, List.mem_cons_self _ _, Or.inl ⟨hk, hx⟩⟩
        · exact Or.inr ⟨q, List.mem_cons_of_mem _ hq, h⟩
      · rintro (h | ⟨q, hq, h⟩)
        · refine Or.inl ?_
          rw [taskTuples, List.map_append]
          exact List.mem_append.mpr (Or.inl h)
        · rcases List.mem_cons.mp hq with rfl | hq'
          · rcases h with ⟨-, hx⟩ | ⟨kv, hkv, -⟩
            · refine Or.inl ?_
              rw [taskTuples, List.map_append]
              refine List.mem_append.mpr (Or.inr ?_)
              simp [hx]
            · rw [show tfmKinds meta q = [] from hk] at hkv
              exact absurd hkv (List.not_mem_nil _)
          · exact Or.inr ⟨q, hq', h⟩
    · rw [if_neg hk]
      constructor
      · rintro (h | ⟨q, hq, h⟩)
        · rw [taskTuples, List.map_append] at h
          rcases List.mem_append.mp h with h | h
          · exact Or.inl h
          · rw [List.map_map] at h
            obtain ⟨kv, hkv, hx⟩ := List.mem_map.mp h
            exact Or.inr ⟨pkg, List.mem_cons_self _ _, Or.inr ⟨kv, hkv, hx.symm⟩⟩
        · exact Or.inr ⟨q, List.mem_cons_of_mem _ hq, h⟩
      · rintro (h | ⟨q, hq, h⟩)
        · refine Or.inl ?_
          rw [taskTuples, List.map_append]
          exact List.mem_append.mpr (Or.inl h)
        · rcases List.mem_cons.mp hq with rfl | hq'
          · rcases h with ⟨hk', -⟩ | ⟨kv, hkv, hx⟩
            · exact absurd hk' hk
            · refine Or.inl ?_
              rw [taskTuples, List.map_append]
              refine List.mem_append.mpr (Or.inr ?_)
              rw [List.map_map]
              exact List.mem_map.mpr ⟨kv, hkv, hx.symm⟩
          · exact Or.inr ⟨q, hq', h⟩

/-- `save_queue` written out in terms of its persisted components. -/
theorem saveQueue_eq (s : MenuState) :
    saveQueue s =
      { s with
        queuePackages := savedOrder s
        packageStatus := savedStatus s
        buildQueue := savedTasks s
        queueFileLines := writeQueueFile (savedOrder s) (savedStatus s)
        metaFile := writeMetaFromTasks (savedTasks s) } := rfl

/-- **C2.** Round trip: saving the in-memory queue with `save_queue` and
loading the persisted files back with `load_queue_from_file` reproduces the
saved ordered package list, the saved per-package completion flags, and
exactly the saved set of `(package, kind, extra_args)` task tuples.
Hypotheses: every queued task's path has an ordinary basename (non-empty,
whitespace-free, not ending in the completion marker `#`), and the previous
package order is duplicate-free. -/
theorem save_load_roundtrip (s : MenuState)
    (hplain : ∀ t ∈ s.buildQueue, PlainName (pathName t.path))
    (hnd : s.queuePackages.Nodup) :
    (loadQueueFromFile (saveQueue s)).queuePackages =
        (saveQueue s).queuePackages ∧
    (loadQueueFromFile (saveQueue s)).packageStatus =
        (saveQueue s).packageStatus ∧
    ∀ x, x ∈ taskTuples (loadQueueFromFile (saveQueue s)).buildQueue ↔
        x ∈ taskTuples (saveQueue s).buildQueue := by
  obtain ⟨p1, p2, p3⟩ := dedupTasks_spec s.buildQueue []
  have hplainTS : ∀ t ∈ savedTasks s, PlainName (pathName t.path) := by
    intro t ht
    obtain ⟨-, -, t₀, ht₀, hpath, -, -⟩ := p1 t ht
    rw [hpath]
    exact hplain t₀ ht₀
  have hdisp : ∀ t ∈ savedTasks s, t.displayName = (taskKey t).1 :=
    fun t ht => (p1 t ht).1
  obtain ⟨hordm, hordnd⟩ := orderFold_spec (savedTasks s) s.queuePackages
  have hPOnd : (savedOrder s).Nodup := List.Nodup.filter _ (hordnd hnd)
  have hPOmem : ∀ pkg ∈ savedOrder s, ∃ t ∈ savedTasks s,
      t.displayName = pkg := by
    intro pkg hpkg
    unfold savedOrder at hpkg
    obtain ⟨-, hany⟩ := List.mem_filter.mp hpkg
    obtain ⟨t, ht, hdec⟩ := List.any_eq_true.mp hany
    exact ⟨t, ht, by rw [(p1 t ht).1]; exact of_decide_eq_true hdec⟩
  have hPOplain : ∀ pkg ∈ savedOrder s, PlainName pkg := by
    intro pkg hpkg
    obtain ⟨t, ht, hdn⟩ := hPOmem pkg hpkg
    have hpn := hplainTS t ht
    have heq : pathName t.path = pkg := by
      rw [← hdn, (p1 t ht).1]
      rfl
    rwa [heq] at hpn
  have hparse := parse_written_aux (savedStatus s) (savedOrder s) [] [] []
    hPOplain (fun p _ => List.not_mem_nil p) (fun p _ => rfl) hPOnd
  have hstat : (savedOrder s).map
      (fun p => (p, ((savedStatus s).lookup p).getD false)) = savedStatus s := by
    unfold savedStatus
    refine List.map_congr_left ?_
    intro p hp
    rw [(lookup_map_pair (fun pkg => (s.packageStatus.lookup pkg).getD false)
      (savedOrder s) p).1 hp]
    rfl
  have hstate : parseQueueLines (writeQueueFile (savedOrder s) (savedStatus s)) =
      { packages := savedOrder s, status := savedStatus s, legacyMeta := [] } := by
    unfold parseQueueLines
    rw [hparse]
    simp only [List.nil_append]
    rw [hstat]
  obtain ⟨w1, w2, w3⟩ := writeMetaFromTasks_spec (savedTasks s) p2 hdisp
  have hplainWM : ∀ kv ∈ writeMetaFromTasks (savedTasks s),
      pathName kv.1 = kv.1 ∧ kv.1 ≠ "" := by
    intro kv hkv
    obtain ⟨v, hv⟩ := keys_mem_lookup (writeMetaFromTasks (savedTasks s)) kv.1
      (List.mem_map.mpr ⟨kv, hkv, rfl⟩)
    obtain ⟨t, ht, hdn⟩ := (w2 kv.1).mp (by rw [hv]; simp)
    have hpn := hplainTS t ht
    have heq : pathName t.path = kv.1 := by
      rw [← hdn, (p1 t ht).1]
      rfl
    obtain ⟨hne, -, -, -, -, -, -, -, hfix⟩ := hpn
    rw [← heq]
    exact ⟨hfix, hne⟩
  have hnorm : normalizeMeta (writeMetaFromTasks (savedTasks s)) =
      writeMetaFromTasks (savedTasks s) :=
    normalizeMeta_id _ w1 hplainWM
  refine ⟨?_, ?_, ?_⟩
  · show (parseQueueLines (writeQueueFile (savedOrder s) (savedStatus s))).packages
        = savedOrder s
    rw [hstate]
  · show (parseQueueLines (writeQueueFile (savedOrder s) (savedStatus s))).status
        = savedStatus s
    rw [hstate]
  · intro x
    have e3 : (loadQueueFromFile (saveQueue s)).buildQueue =
        tasksFromMeta s.codeDir (savedOrder s)
          (writeMetaFromTasks (savedTasks s)) := by
      show tasksFromMeta s.codeDir
          (parseQueueLines (writeQueueFile (savedOrder s) (savedStatus s))).packages
          (if (parseQueueLines (writeQueueFile (savedOrder s)
                (savedStatus s))).legacyMeta ≠ [] then
            mergeLegacy (normalizeMeta (writeMetaFromTasks (savedTasks s)))
              (parseQueueLines (writeQueueFile (savedOrder s)
                (savedStatus s))).legacyMeta
          else normalizeMeta (writeMetaFromTasks (savedTasks s))) = _
      rw [hstate]
      dsimp only
      rw [if_neg (by simp), hnorm]
    rw [e3, show (saveQueue s).buildQueue = savedTasks s from rfl]
    refine Iff.trans (tasksFromMeta_tuples s.codeDir
      (writeMetaFromTasks (savedTasks s)) (savedOrder s) [] x) ?_
    constructor
    · rintro (h | ⟨pkg, hpkg, h⟩)
      · exact absurd h (by simp [taskTuples])
      · obtain ⟨t0, ht0, hdn0⟩ := hPOmem pkg hpkg
        have hne : (writeMetaFromTasks (savedTasks s)).lookup pkg ≠ none :=
          (w2 pkg).mpr ⟨t0, ht0, hdn0⟩
        rcases hl : (writeMetaFromTasks (savedTasks s)).lookup pkg with _ | e
        · exact absurd hl hne
        obtain ⟨hke, hkiff⟩ := w3 pkg e hl
        have hkinds : tfmKinds (writeMetaFromTasks (savedTasks s)) pkg
            = e.kinds := by
          unfold tfmKinds
          rw [hl]
          rfl
        rcases h with ⟨hk0, -⟩ | ⟨kv, hkv, hx⟩
        · rw [hkinds] at hk0
          exact absurd hk0 hke
        · obtain ⟨k, ex⟩ := kv
          rw [hkinds] at hkv
          obtain ⟨u, hu, h1, h2, h3⟩ := (hkiff k ex).mp hkv
          subst hx
          exact List.mem_map.mpr ⟨u, hu, by
            show (u.displayName, u.kind, u.extraArgs) = (pkg, k, ex)
            rw [h1, h2, h3]⟩
    · intro hx
      obtain ⟨t, ht, hft⟩ := List.mem_map.mp hx
      have hpt : t.displayName = pathName t.path := by
        rw [(p1 t ht).1]
        rfl
      have hbase : t.displayName ∈ List.foldl
          (fun order t => if pathName t.path ∈ order then order
            else order ++ [pathName t.path]) s.queuePackages (savedTasks s) := by
        rw [hordm t.displayName]
        exact Or.inr ⟨t, ht, hpt.symm⟩
      have hpkg : t.displayName ∈ savedOrder s := by
        unfold savedOrder
        refine List.mem_filter.mpr ⟨hbase, ?_⟩
        exact List.any_eq_true.mpr ⟨t, ht, decide_eq_true hpt.symm⟩
      have hne : (writeMetaFromTasks (savedTasks s)).lookup t.displayName
          ≠ none := (w2 t.displayName).mpr ⟨t, ht, rfl⟩
      rcases hl : (writeMetaFromTasks (savedTasks s)).lookup t.displayName
        with _ | e
      · exact absurd hl hne
      obtain ⟨-, hkiff⟩ := w3 t.displayName e hl
      refine Or.inr ⟨t.displayName, hpkg,
        Or.inr ⟨(t.kind, t.extraArgs), ?_, ?_⟩⟩
      · show (t.kind, t.extraArgs) ∈
          tfmKinds (writeMetaFromTasks (savedTasks s)) t.displayName
        unfold tfmKinds
        rw [hl]
        exact (hkiff t.kind t.extraArgs).mpr ⟨t, ht, rfl, rfl, rfl⟩
      · exact hft.symm

theorem save_load_roundtrip_witness :
    (∀ t ∈ menuC2.buildQueue, PlainName (pathName t.path)) ∧
    menuC2.queuePackages.Nodup ∧
    ((loadQueueFromFile (saveQueue menuC2)).queuePackages =
        (saveQueue menuC2).queuePackages ∧
      (loadQueueFromFile (saveQueue menuC2)).packageStatus =
        (saveQueue menuC2).packageStatus ∧
      ∀ x, x ∈ taskTuples (loadQueueFromFile (saveQueue menuC2)).buildQueue ↔
        x ∈ taskTuples (saveQueue menuC2).buildQueue) :=
  ⟨by decide, by decide, save_load_roundtrip menuC2 (by decide) (by decide)⟩

/-! ### C8 : idempotence of `add_tasks` -/

theorem taskKey_eq_iff (a b : BuildTask) :
    taskKey a = taskKey b ↔
      (pathName a.path = pathName b.path ∧ a.kind = b.kind) := by
  unfold taskKey
  simp [Prod.mk.injEq]

/-- Step equation for `replaceFirstTask` on a non-empty queue. -/
theorem replaceFirstTask_cons (pname kind path : String) (extra : List String)
    (e : BuildTask) (es : List BuildTask) :
    replaceFirstTask pname kind path extra (e :: es) =
      if pathName e.path = pname ∧ e.kind = kind then
        ({ displayName := pname, path := path, kind := kind,
           extraArgs := extra } :: es, true)
      else
        (e :: (replaceFirstTask pname kind path extra es).1,
         (replaceFirstTask pname kind path extra es).2) := rfl

/-- `replaceFirstTask` either reports no match (leaving the queue
unchanged) or splits the queue at the first matching entry and replaces
exactly that entry in place. -/
theorem replaceFirstTask_cases (pname kind path : String) (extra : List String) :
    ∀ bq : List BuildTask,
      (replaceFirstTask pname kind path extra bq = (bq, false) ∧
        ∀ e ∈ bq, ¬(pathName e.path = pname ∧ e.kind = kind)) ∨
      (∃ A e B, bq = A ++ e :: B ∧
        (∀ a ∈ A, ¬(pathName a.path = pname ∧ a.kind = kind)) ∧
        (pathName e.path = pname ∧ e.kind = kind) ∧
        replaceFirstTask pname kind path extra bq =
          (A ++ { displayName := pname, path := path, kind := kind,
                  extraArgs := extra } :: B, true)) := by
  intro bq
  induction bq with
  | nil => exact Or.inl ⟨rfl, by simp⟩
  | cons e es ih =>
    by_cases hm : pathName e.path = pname ∧ e.kind = kind
    · refine Or.inr ⟨[], e, es, rfl, by simp, hm, ?_⟩
      rw [replaceFirstTask_cons, if_pos hm]
      rfl
    · rcases ih with ⟨heq, hall⟩ | ⟨A, v, B, hsplit, hA, hv, heq⟩
      · refine Or.inl ⟨?_, ?_⟩
        · rw [replaceFirstTask_cons, if_neg hm, heq]
        · intro a ha
          rcases List.mem_cons.mp ha with rfl | ha
          · exact hm
          · exact hall a ha
      · refine Or.inr ⟨e :: A, v, B, ?_, ?_, hv, ?_⟩
        · rw [hsplit]
          rfl
        · intro a ha
          rcases List.mem_cons.mp ha with rfl | ha
          · exact hm
          · exact hA a ha
        · rw [replaceFirstTask_cons, if_neg hm, heq]
          rfl

/-- When the first matching entry already equals the replacement record,
`replaceFirstTask` leaves the queue unchanged and reports the match. -/
theorem replaceFirstTask_found :
    ∀ (A B : List BuildTask) (pname kind path : String) (extra : List String)
      (e : BuildTask),
      (∀ a ∈ A, ¬(pathName a.path = pname ∧ a.kind = kind)) →
      pathName e.path = pname → e.kind = kind →
      e = { displayName := pname, path := path, kind := kind,
            extraArgs := extra } →
      replaceFirstTask pname kind path extra (A ++ e :: B) =
        (A ++ e :: B, true) := by
  intro A
  induction A with
  | nil =>
    intro B pname kind path extra e _ h1 h2 he
    rw [List.nil_append, replaceFirstTask_cons, if_pos ⟨h1, h2⟩, ← he]
  | cons a A ih =>
    intro B pname kind path extra e hA h1 h2 he
    rw [List.cons_append, replaceFirstTask_cons,
      if_neg (hA a (List.mem_cons_self _ _)),
      ih B pname kind path extra e
        (fun x hx => hA x (List.mem_cons_of_mem _ hx)) h1 h2 he]

theorem status_mem_lookup_ne_none (st : List (String × Bool)) (p : String × Bool)
    (hp : p ∈ st) : st.lookup p.1 ≠ none := by
  obtain ⟨v, hv⟩ := keys_mem_lookup st p.1 (List.mem_map.mpr ⟨p, hp, rfl⟩)
  rw [hv]
  simp

/-- After `status[k] = False`, every binding of `k` carries `False`. -/
theorem statusSet_false_at_self (st : List (String × Bool)) (k : String) :
    ∀ p ∈ statusSet st k false, p.1 = k → p.2 = false := by
  intro p hp hk1
  unfold statusSet at hp
  by_cases h : st.lookup k = none
  · rw [if_pos h] at hp
    rcases List.mem_append.mp hp with hp | hp
    · exact absurd h (hk1 ▸ status_mem_lookup_ne_none st p hp)
    · rw [List.mem_singleton] at hp
      rw [hp]
  · rw [if_neg h] at hp
    obtain ⟨q, hq, hpq⟩ := List.mem_map.mp hp
    by_cases hqk : q.1 = k
    · rw [if_pos hqk] at hpq
      rw [← hpq]
    · rw [if_neg hqk] at hpq
      rw [← hpq] at hk1
      exact absurd hk1 hqk

/-- Writing `False` never introduces a `True` binding for any key. -/
theorem statusSet_false_preserve (st : List (String × Bool)) (k k' : String)
    (h : ∀ p ∈ st, p.1 = k → p.2 = false) :
    ∀ p ∈ statusSet st k' false, p.1 = k → p.2 = false := by
  intro p hp hk1
  unfold statusSet at hp
  by_cases hl : st.lookup k' = none
  · rw [if_pos hl] at hp
    rcases List.mem_append.mp hp with hp | hp
    · exact h p hp hk1
    · rw [List.mem_singleton] at hp
      rw [hp]
  · rw [if_neg hl] at hp
    obtain ⟨q, hq, hpq⟩ := List.mem_map.mp hp
    by_cases hqk : q.1 = k'
    · rw [if_pos hqk] at hpq
      rw [← hpq]
    · rw [if_neg hqk] at hpq
      exact h p (hpq ▸ hq) hk1

/-- A `statusSet` write keeps every previously present key present and
makes its own key present. -/
theorem statusSet_lookup_ne_none (st : List (String × Bool)) (k k' : String)
    (v : Bool) (h : st.lookup k ≠ none ∨ k = k') :
    (statusSet st k' v).lookup k ≠ none := by
  unfold statusSet
  by_cases hl : st.lookup k' = none
  · rw [if_pos hl]
    by_cases hk : k = k'
    · subst hk
      rw [lookup_append_single_self st k v hl]
      simp
    · rw [lookup_append_single_other st k' k v hk]
      rcases h with h | h
      · exact h
      · exact absurd h hk
  · rw [if_neg hl]
    by_cases hk : k = k'
    · subst hk
      rw [lookup_map_update_self st k v (Option.isSome_iff_ne_none.mpr hl)]
      simp
    · rw [lookup_map_update_other st k' k v hk]
      rcases h with h | h
      · exact h
      · exact absurd h hk

/-- Writing a value every binding of the key already holds is a no-op. -/
theorem statusSet_id (st : List (String × Bool)) (k : String) (v : Bool)
    (hl : st.lookup k ≠ none) (h : ∀ p ∈ st, p.1 = k → p.2 = v) :
    statusSet st k v = st := by
  unfold statusSet
  rw [if_neg hl]
  calc st.map (fun p => if p.1 = k then (p.1, v) else p)
      = st.map id := List.map_congr_left (by
        intro p hp
        show (if p.1 = k then (p.1, v) else p) = p
        by_cases hpk : p.1 = k
        · rw [if_pos hpk, ← h p hp hpk]
        · rw [if_neg hpk])
    _ = st := List.map_id st

/-- On a queue with pairwise distinct `(package, kind)` keys the dedup
pass drops nothing: it only stamps each display name. -/
theorem dedupTasks_nodup_map :
    ∀ (bq : List BuildTask) (seen : List (String × String)),
      (bq.map taskKey).Nodup →
      (∀ u ∈ bq, taskKey u ∉ seen) →
      dedupTasks bq seen =
        bq.map (fun u => { u with displayName := (taskKey u).1 }) := by
  intro bq
  induction bq with
  | nil => intro seen _ _; rfl
  | cons t ts ih =>
    intro seen hnd hseen
    rw [List.map_cons] at hnd
    obtain ⟨hfresh, hnd'⟩ := List.nodup_cons.mp hnd
    rw [dedupTasks, if_neg (hseen t (List.mem_cons_self _ _))]
    rw [List.map_cons]
    congr 1
    refine ih (seen ++ [taskKey t]) hnd' ?_
    intro u hu hc
    rcases List.mem_append.mp hc with hc | hc
    · exact hseen u (List.mem_cons_of_mem _ hu) hc
    · rw [List.mem_singleton] at hc
      exact hfresh (List.mem_map.mpr ⟨u, hu, hc⟩)

/-- Folding already-registered package names over the order accumulator
adds nothing. -/
theorem orderFold_noop :
    ∀ (ts : List BuildTask) (order0 : List String),
      (∀ t ∈ ts, pathName t.path ∈ order0) →
      ts.foldl (fun order t =>
        if pathName t.path ∈ order then order
        else order ++ [pathName t.path]) order0 = order0 := by
  intro ts
  induction ts with
  | nil => intro order0 _; rfl
  | cons t ts ih =>
    intro order0 h
    rw [List.foldl_cons, if_pos (h t (List.mem_cons_self _ _))]
    exact ih order0 (fun u hu => h u (List.mem_cons_of_mem _ hu))

/-- A fold whose step fixes the accumulator fixes the whole fold. -/
theorem foldl_fixed {α β : Type} (f : β → α → β) (b : β) :
    ∀ l : List α, (∀ a ∈ l, f b a = b) → l.foldl f b = b := by
  intro l
  induction l with
  | nil => intro _; rfl
  | cons a l ih =>
    intro h
    rw [List.foldl_cons, h a (List.mem_cons_self _ _)]
    exact ih (fun x hx => h x (List.mem_cons_of_mem _ hx))

theorem savedTasks_saveQueue (σ : MenuState) :
    savedTasks (saveQueue σ) = savedTasks σ := by
  obtain ⟨p1, p2, -⟩ := dedupTasks_spec σ.buildQueue []
  show dedupTasks (savedTasks σ) [] = savedTasks σ
  rw [dedupTasks_nodup_map (savedTasks σ) [] p2 (fun u _ => List.not_mem_nil _)]
  calc (savedTasks σ).map (fun u => { u with displayName := (taskKey u).1 })
      = (savedTasks σ).map id := List.map_congr_left (by
        intro u hu
        show { u with displayName := (taskKey u).1 } = u
        rw [← (p1 u hu).1])
    _ = savedTasks σ := List.map_id _

theorem savedOrder_saveQueue (σ : MenuState) :
    savedOrder (saveQueue σ) = savedOrder σ := by
  obtain ⟨hordm, -⟩ := orderFold_spec (savedTasks σ) σ.queuePackages
  have hmem : ∀ t ∈ savedTasks σ, pathName t.path ∈ savedOrder σ := by
    intro t ht
    unfold savedOrder
    refine List.mem_filter.mpr ⟨?_, ?_⟩
    · rw [hordm]
      exact Or.inr ⟨t, ht, rfl⟩
    · exact List.any_eq_true.mpr ⟨t, ht, decide_eq_true rfl⟩
  show ((savedTasks (saveQueue σ)).foldl
      (fun order t =>
        if pathName t.path ∈ order then order
        else order ++ [pathName t.path])
      (savedOrder σ)).filter
      (fun pkg => (savedTasks (saveQueue σ)).any (fun t => pathName t.path = pkg))
      = savedOrder σ
  rw [savedTasks_saveQueue, orderFold_noop (savedTasks σ) (savedOrder σ) hmem]
  refine List.filter_eq_self.mpr ?_
  intro pkg hpkg
  unfold savedOrder at hpkg
  exact (List.mem_filter.mp hpkg).2

theorem savedStatus_saveQueue (σ : MenuState) :
    savedStatus (saveQueue σ) = savedStatus σ := by
  show (savedOrder (saveQueue σ)).map
      (fun pkg => (pkg, ((savedStatus σ).lookup pkg).getD false))
      = savedStatus σ
  rw [savedOrder_saveQueue]
  unfold savedStatus
  refine List.map_congr_left ?_
  intro p hp
  rw [(lookup_map_pair (fun pkg => (σ.packageStatus.lookup pkg).getD false)
    (savedOrder σ) p).1 hp]
  rfl

/-- `save_queue` is idempotent: saving an already-saved state changes
nothing. -/
theorem saveQueue_idem (σ : MenuState) :
    saveQueue (saveQueue σ) = saveQueue σ := by
  rw [saveQueue_eq (saveQueue σ), savedTasks_saveQueue, savedOrder_saveQueue,
    savedStatus_saveQueue]
  rfl

/-- A task whose stamped record is already the first entry of its
`(package, kind)` key, whose package is registered, and whose status
bindings are all `False` passes through `add_tasks`'s per-task body
unchanged, counted as replaced. -/
theorem addOneTask_fixed (σ : MenuState) (t : BuildTask) (m : Nat)
    (A B : List BuildTask)
    (hsplit : σ.buildQueue = A ++ stampTask t :: B)
    (hA : ∀ a ∈ A, ¬(pathName a.path = pathName t.path ∧ a.kind = t.kind))
    (hqp : pathName t.path ∈ σ.queuePackages)
    (hstF : ∀ p ∈ σ.packageStatus, p.1 = pathName t.path → p.2 = false)
    (hstL : σ.packageStatus.lookup (pathName t.path) ≠ none) :
    addOneTask true (σ, m) t = (σ, m) := by
  have hrep : replaceFirstTask (pathName t.path) t.kind t.path t.extraArgs
      σ.buildQueue = (σ.buildQueue, true) := by
    rw [hsplit]
    exact replaceFirstTask_found A B (pathName t.path) t.kind t.path
      t.extraArgs (stampTask t) hA rfl rfl rfl
  have hid : statusSet σ.packageStatus (pathName t.path) false =
      σ.packageStatus := statusSet_id _ _ _ hstL hstF
  unfold addOneTask
  dsimp only
  rw [hrep]
  dsimp only
  rw [if_neg (show ¬¬(true = true) from fun h => h rfl),
    if_pos (show (true = true) ∨ σ.packageStatus.lookup (pathName t.path)
      = none from Or.inl rfl),
    hid,
    if_neg hstL,
    if_pos (show (true = true) from rfl),
    if_pos (show (true = true) from rfl),
    if_pos hqp]

/-- One step of the `add_tasks` fold: the task's stamped record enters the
queue (replacing the first entry of its key or being appended), entries of
other keys survive, key-distinctness survives, the package gets
registered, and its status bindings are all `False` afterwards. -/
theorem addOneTask_step (σ : MenuState) (n : Nat) (u : BuildTask)
    (hbq : (σ.buildQueue.map taskKey).Nodup) :
    ((addOneTask true (σ, n) u).1.buildQueue.map taskKey).Nodup ∧
    stampTask u ∈ (addOneTask true (σ, n) u).1.buildQueue ∧
    (∀ e ∈ σ.buildQueue, taskKey e ≠ taskKey u →
      e ∈ (addOneTask true (σ, n) u).1.buildQueue) ∧
    (∀ p ∈ σ.queuePackages, p ∈ (addOneTask true (σ, n) u).1.queuePackages) ∧
    pathName u.path ∈ (addOneTask true (σ, n) u).1.queuePackages ∧
    (∀ k, (∀ p ∈ σ.packageStatus, p.1 = k → p.2 = false) →
      ∀ p ∈ (addOneTask true (σ, n) u).1.packageStatus,
        p.1 = k → p.2 = false) ∧
    (∀ k, σ.packageStatus.lookup k ≠ none →
      (addOneTask true (σ, n) u).1.packageStatus.lookup k ≠ none) ∧
    (∀ p ∈ (addOneTask true (σ, n) u).1.packageStatus,
      p.1 = pathName u.path → p.2 = false) ∧
    (addOneTask true (σ, n) u).1.packageStatus.lookup (pathName u.path)
      ≠ none := by
  rcases replaceFirstTask_cases (pathName u.path) u.kind u.path u.extraArgs
      σ.buildQueue with ⟨heq, hall⟩ | ⟨A, e, B, hsplit, hA, hm, heq⟩
  · have hstep : addOneTask true (σ, n) u =
        ({ σ with
            buildQueue := σ.buildQueue ++ [stampTask u]
            queuePackages :=
              if pathName u.path ∈ σ.queuePackages then σ.queuePackages
              else σ.queuePackages ++ [pathName u.path]
            packageStatus :=
              statusSet σ.packageStatus (pathName u.path) false },
          n + 1) := by
      unfold addOneTask
      dsimp only
      rw [heq]
      dsimp only
      rw [if_pos (show ¬(false = true) from by simp),
        if_neg (statusSet_lookup_ne_none σ.packageStatus (pathName u.path)
          (pathName u.path) false (Or.inr rfl)),
        if_neg (show ¬(false = true) from by simp),
        if_neg (show ¬(false = true) from by simp)]
      rfl
    rw [hstep]
    dsimp only
    refine ⟨?_, ?_, ?_, ?_, ?_, ?_, ?_, ?_, ?_⟩
    · rw [List.map_append, List.nodup_append]
      refine ⟨hbq, by simp, ?_⟩
      intro a ha hb
      simp only [List.map_cons, List.map_nil, List.mem_singleton] at hb
      obtain ⟨x, hx, hxa⟩ := List.mem_map.mp ha
      exact hall x hx ((taskKey_eq_iff x u).mp ((hxa.trans hb).trans rfl))
    · exact List.mem_append.mpr (Or.inr (List.mem_singleton.mpr rfl))
    · intro e he _
      exact List.mem_append.mpr (Or.inl he)
    · intro p hp
      by_cases hq : pathName u.path ∈ σ.queuePackages
      · rw [if_pos hq]
        exact hp
      · rw [if_neg hq]
        exact List.mem_append.mpr (Or.inl hp)
    · by_cases hq : pathName u.path ∈ σ.queuePackages
      · rw [if_pos hq]
        exact hq
      · rw [if_neg hq]
        exact List.mem_append.mpr (Or.inr (List.mem_singleton.mpr rfl))
    · intro k hk
      exact statusSet_false_preserve σ.packageStatus k (pathName u.path) hk
    · intro k hk
      exact statusSet_lookup_ne_none σ.packageStatus k (pathName u.path)
        false (Or.inl hk)
    · exact statusSet_false_at_self σ.packageStatus (pathName u.path)
    · exact statusSet_lookup_ne_none σ.packageStatus (pathName u.path)
        (pathName u.path) false (Or.inr rfl)
  · obtain ⟨hm1, hm2⟩ := hm
    have hkeyE : taskKey e = taskKey u := (taskKey_eq_iff e u).mpr ⟨hm1, hm2⟩
    have hstep : addOneTask true (σ, n) u =
        ({ σ with
            buildQueue := A ++ stampTask u :: B
            queuePackages :=
              if pathName u.path ∈ σ.queuePackages then σ.queuePackages
              else σ.queuePackages ++ [pathName u.path]
            packageStatus :=
              statusSet σ.packageStatus (pathName u.path) false },
          n) := by
      unfold addOneTask
      dsimp only
      rw [heq]
      dsimp only
      rw [if_neg (show ¬¬(true = true) from fun h => h rfl),
        if_pos (show (true = true) ∨ σ.packageStatus.lookup (pathName u.path)
          = none from Or.inl rfl),
        if_neg (statusSet_lookup_ne_none σ.packageStatus (pathName u.path)
          (pathName u.path) false (Or.inr rfl)),
        if_pos (show (true = true) from rfl),
        if_pos (show (true = true) from rfl)]
      rfl
    have hkeys : ((A ++ stampTask u :: B).map taskKey)
        = σ.buildQueue.map taskKey := by
      rw [hsplit]
      simp only [List.map_append, List.map_cons]
      congr 2
      show taskKey u = taskKey e
      exact hkeyE.symm
    rw [hstep]
    dsimp only
    refine ⟨?_, ?_, ?_, ?_, ?_, ?_, ?_, ?_, ?_⟩
    · rw [hkeys]
      exact hbq
    · exact List.mem_append.mpr (Or.inr (List.mem_cons_self _ _))
    · intro e' he' hne
      rw [hsplit] at he'
      rcases List.mem_append.mp he' with he' | he'
      · exact List.mem_append.mpr (Or.inl he')
      · rcases List.mem_cons.mp he' with rfl | he'
        · exact absurd hkeyE hne
        · exact List.mem_append.mpr (Or.inr (List.mem_cons_of_mem _ he'))
    · intro p hp
      by_cases hq : pathName u.path ∈ σ.queuePackages
      · rw [if_pos hq]
        exact hp
      · rw [if_neg hq]
        exact List.mem_append.mpr (Or.inl hp)
    · by_cases hq : pathName u.path ∈ σ.queuePackages
      · rw [if_pos hq]
        exact hq
      · rw [if_neg hq]
        exact List.mem_append.mpr (Or.inr (List.mem_singleton.mpr rfl))
    · intro k hk
      exact statusSet_false_preserve σ.packageStatus k (pathName u.path) hk
    · intro k hk
      exact statusSet_lookup_ne_none σ.packageStatus k (pathName u.path)
        false (Or.inl hk)
    · exact statusSet_false_at_self σ.packageStatus (pathName u.path)
    · exact statusSet_lookup_ne_none σ.packageStatus (pathName u.path)
        (pathName u.path) false (Or.inr rfl)

/-- Invariant of the `add_tasks` fold: once a task has been processed, its
stamped record sits in the queue, its package is registered, and its
status bindings all read `False`; the queue's key-distinctness is
maintained. -/
theorem addTasks_fold_inv :
    ∀ (rest done : List BuildTask) (σ : MenuState) (n : Nat),
      ((done ++ rest).map taskKey).Nodup →
      (σ.buildQueue.map taskKey).Nodup →
      (∀ t ∈ done, stampTask t ∈ σ.buildQueue) →
      (∀ t ∈ done, pathName t.path ∈ σ.queuePackages) →
      (∀ t ∈ done,
        (∀ p ∈ σ.packageStatus, p.1 = pathName t.path → p.2 = false) ∧
        σ.packageStatus.lookup (pathName t.path) ≠ none) →
      ((((rest.foldl (addOneTask true) (σ, n)).1.buildQueue.map
          taskKey).Nodup) ∧
       (∀ t ∈ done ++ rest, stampTask t ∈
          (rest.foldl (addOneTask true) (σ, n)).1.buildQueue) ∧
       (∀ t ∈ done ++ rest, pathName t.path ∈
          (rest.foldl (addOneTask true) (σ, n)).1.queuePackages) ∧
       (∀ t ∈ done ++ rest,
         (∀ p ∈ (rest.foldl (addOneTask true) (σ, n)).1.packageStatus,
            p.1 = pathName t.path → p.2 = false) ∧
         (rest.foldl (addOneTask true) (σ, n)).1.packageStatus.lookup
            (pathName t.path) ≠ none)) := by
  intro rest
  induction rest with
  | nil =>
    intro done σ n hkeys hbq hD1 hD2 hD3
    simp only [List.foldl_nil, List.append_nil]
    exact ⟨hbq, hD1, hD2, hD3⟩
  | cons u rest ih =>
    intro done σ n hkeys hbq hD1 hD2 hD3
    have hshift : done ++ u :: rest = (done ++ [u]) ++ rest := by simp
    have hkeyfresh : ∀ t ∈ done, taskKey t ≠ taskKey u := by
      intro t ht hc
      have h2 : (done.map taskKey ++ taskKey u :: rest.map taskKey).Nodup := by
        simpa using hkeys
      obtain ⟨-, -, hdisj⟩ := List.nodup_append.mp h2
      exact hdisj (List.mem_map.mpr ⟨t, ht, hc⟩) (List.mem_cons_self _ _)
    obtain ⟨S1, S2, S3, S4, S5, S6, S7, S8, S9⟩ := addOneTask_step σ n u hbq
    rw [List.foldl_cons, hshift]
    refine ih (done ++ [u]) (addOneTask true (σ, n) u).1
      (addOneTask true (σ, n) u).2 ?_ S1 ?_ ?_ ?_
    · rw [← hshift]
      exact hkeys
    · intro t ht
      rcases List.mem_append.mp ht with ht | ht
      · exact S3 (stampTask t) (hD1 t ht) (hkeyfresh t ht)
      · rw [List.mem_singleton] at ht
        subst ht
        exact S2
    · intro t ht
      rcases List.mem_append.mp ht with ht | ht
      · exact S4 _ (hD2 t ht)
      · rw [List.mem_singleton] at ht
        subst ht
        exact S5
    · intro t ht
      rcases List.mem_append.mp ht with ht | ht
      · exact ⟨S6 _ (hD3 t ht).1, S7 _ (hD3 t ht).2⟩
      · rw [List.mem_singleton] at ht
        subst ht
        exact ⟨S8, S9⟩

/-- On a state that already holds every given task in saved form, the
whole `add_tasks` fold is the identity. -/
theorem addTasks_second_call (ts : List BuildTask) (σ₁ : MenuState)
    (F1 : (σ₁.buildQueue.map taskKey).Nodup)
    (F2 : ∀ t ∈ ts, stampTask t ∈ σ₁.buildQueue)
    (F4 : ∀ t ∈ ts,
      (∀ p ∈ σ₁.packageStatus, p.1 = pathName t.path → p.2 = false) ∧
      σ₁.packageStatus.lookup (pathName t.path) ≠ none) :
    ts.foldl (addOneTask true) (saveQueue σ₁, 0) = (saveQueue σ₁, 0) := by
  obtain ⟨q1, q2, -⟩ := dedupTasks_spec σ₁.buildQueue []
  have hTS : savedTasks σ₁ =
      σ₁.buildQueue.map (fun v => { v with displayName := (taskKey v).1 }) :=
    dedupTasks_nodup_map σ₁.buildQueue [] F1 (fun u _ => List.not_mem_nil _)
  have hmemTS : ∀ t ∈ ts, stampTask t ∈ savedTasks σ₁ := by
    intro t ht
    rw [hTS]
    exact List.mem_map.mpr ⟨stampTask t, F2 t ht, rfl⟩
  have hsplitTS : ∀ t ∈ ts, ∃ A B, savedTasks σ₁ = A ++ stampTask t :: B ∧
      ∀ a ∈ A, ¬(pathName a.path = pathName t.path ∧ a.kind = t.kind) := by
    intro t ht
    obtain ⟨A, B, hAB⟩ := List.append_of_mem (hmemTS t ht)
    refine ⟨A, B, hAB, ?_⟩
    intro a ha hc
    have hkey : taskKey a = taskKey (stampTask t) :=
      (taskKey_eq_iff a (stampTask t)).mpr hc
    have hnd2 : ((A ++ stampTask t :: B).map taskKey).Nodup := by
      rw [← hAB]
      exact q2
    rw [List.map_append, List.map_cons] at hnd2
    obtain ⟨-, -, hdisj⟩ := List.nodup_append.mp hnd2
    exact hdisj (List.mem_map.mpr ⟨a, ha, rfl⟩)
      (show taskKey a ∈ taskKey (stampTask t) :: B.map taskKey from by
        rw [hkey]
        exact List.mem_cons_self _ _)
  have hqpTS : ∀ t ∈ ts, pathName t.path ∈ savedOrder σ₁ := by
    intro t ht
    obtain ⟨hordm, -⟩ := orderFold_spec (savedTasks σ₁) σ₁.queuePackages
    unfold savedOrder
    refine List.mem_filter.mpr ⟨?_, ?_⟩
    · rw [hordm]
      exact Or.inr ⟨stampTask t, hmemTS t ht, rfl⟩
    · exact List.any_eq_true.mpr ⟨stampTask t, hmemTS t ht, decide_eq_true rfl⟩
  have hstTS : ∀ t ∈ ts,
      (∀ p ∈ savedStatus σ₁, p.1 = pathName t.path → p.2 = false) ∧
      (savedStatus σ₁).lookup (pathName t.path) ≠ none := by
    intro t ht
    have hF4 := F4 t ht
    constructor
    · intro p hp hp1
      unfold savedStatus at hp
      obtain ⟨pkg, hpkg, hpe⟩ := List.mem_map.mp hp
      have hpkg1 : pkg = pathName t.path := by
        rw [← hp1, ← hpe]
      rcases hlk : σ₁.packageStatus.lookup pkg with _ | v
      · rw [← hpe]
        show (σ₁.packageStatus.lookup pkg).getD false = false
        rw [hlk]
        rfl
      · have hv : v = false :=
          hF4.1 (pkg, v) (lookup_mem_pair σ₁.packageStatus pkg v hlk)
            (by rw [hpkg1])
        rw [← hpe]
        show (σ₁.packageStatus.lookup pkg).getD false = false
        rw [hlk, hv]
        rfl
    · unfold savedStatus
      rw [(lookup_map_pair (fun pkg => (σ₁.packageStatus.lookup pkg).getD false)
        (savedOrder σ₁) (pathName t.path)).1 (hqpTS t ht)]
      simp
  refine foldl_fixed (addOneTask true) (saveQueue σ₁, 0) ts ?_
  intro t ht
  obtain ⟨A, B, hAB, hA⟩ := hsplitTS t ht
  refine addOneTask_fixed (saveQueue σ₁) t 0 A B ?_ hA ?_ ?_ ?_
  · show savedTasks σ₁ = A ++ stampTask t :: B
    exact hAB
  · show pathName t.path ∈ savedOrder σ₁
    exact hqpTS t ht
  · show ∀ p ∈ savedStatus σ₁, p.1 = pathName t.path → p.2 = false
    exact (hstTS t ht).1
  · show (savedStatus σ₁).lookup (pathName t.path) ≠ none
    exact (hstTS t ht).2

/-- **C8.** Calling `add_tasks` twice in a row with the same task list
gives, on the second call, exactly the state the first call produced
(same task set, package order, completion flags, and persisted queue and
metadata files) together with the report `(0 newly added, full total)`.
Hypotheses: the given task list carries pairwise distinct
`(package, kind)` keys, and so does the starting build queue. -/
theorem addTasks_idempotent (s : MenuState) (ts : List BuildTask)
    (hts : (ts.map taskKey).Nodup)
    (hbq : (s.buildQueue.map taskKey).Nodup) :
    addTasks (addTasks s ts true).1 ts true =
      ((addTasks s ts true).1, 0, ts.length) := by
  by_cases hni : ts = []
  · subst hni
    rfl
  · have h1 : addTasks s ts true =
        (saveQueue (ts.foldl (addOneTask true) (s, 0)).1,
         (ts.foldl (addOneTask true) (s, 0)).2, ts.length) := by
      unfold addTasks
      rw [if_neg hni]
    obtain ⟨F1, F2, F3, F4⟩ := addTasks_fold_inv ts [] s 0
      (by simpa using hts) hbq (by simp) (by simp) (by simp)
    have hfold := addTasks_second_call ts
      (ts.foldl (addOneTask true) (s, 0)).1 F1
      (fun t ht => F2 t (by simpa using ht))
      (fun t ht => F4 t (by simpa using ht))
    rw [h1]
    dsimp only
    show addTasks (saveQueue (ts.foldl (addOneTask true) (s, 0)).1) ts true =
      (saveQueue (ts.foldl (addOneTask true) (s, 0)).1, 0, ts.length)
    unfold addTasks
    rw [if_neg hni, hfold]
    dsimp only
    rw [saveQueue_idem]

theorem addTasks_idempotent_witness :
    ((([{ displayName := "g", path := "/src/gamma", kind := "debian",
          extraArgs := [] }] : List BuildTask).map taskKey).Nodup) ∧
    ((menuC2.buildQueue.map taskKey).Nodup) ∧
    addTasks (addTasks menuC2
        [{ displayName := "g", path := "/src/gamma", kind := "debian",
           extraArgs := [] }] true).1
      [{ displayName := "g", path := "/src/gamma", kind := "debian",
         extraArgs := [] }] true =
      ((addTasks menuC2
          [{ displayName := "g", path := "/src/gamma", kind := "debian",
             extraArgs := [] }] true).1, 0, 1) :=
  ⟨by decide, by decide,
    addTasks_idempotent menuC2
      [{ displayName := "g", path := "/src/gamma", kind := "debian",
         extraArgs := [] }] (by decide) (by decide)⟩

end BuildTools
